import Mathlib

/-!
# RectPacker: an online rectangle packer over a growing table of cells

Shallow embedding of `src/RectPacker.h` and a verification of its specification.

Modelling conventions.

* `std::vector<BoundingBox>` is a `List BoundingBox`; an iterator is the `Nat` index it
  points at.  Row, column and index counters are `Nat`.
* `int` values are `Int` and the `size_t` score is an `Int`: arithmetic is exact.  Overflow
  of `int` and wrap-around of `size_t` are outside the model of the packing methods; on the
  states and requests the theorems speak about every cell dimension is between 1 and the
  canvas size, every score is a sum of such dimensions, and no intermediate value is negative
  where the source converts it to `size_t`.
* `GetOccupancy` is the exception: its two products `box.Width * box.Height` and
  `m_MaxWidth * m_MaxHeight` are `int` products of values that each fit an `int`, and the
  product of the canvas bounds does not fit as soon as the canvas has `2^31` points or more.
  They are modelled as 32-bit two's-complement products (`wrapInt`).  The `float` sum and the
  `float` division of `GetOccupancy` are exact rational arithmetic here: rounding is outside
  the model.
* Every function that dereferences an iterator, indexes the vector or evaluates an `assert`
  returns an `Option`: `none` stands for undefined behaviour (an access outside the vector),
  for a failing `assert`, and for a `for (;;)` loop that is still running when its fuel is
  used up.  The fuel of every unbounded loop is the number of cells of the vector it walks.
  A theorem that says a call returns `some` result therefore says that the call terminates
  without a failed assertion and without an access outside the vector.
* `SIZE_MAX`, the value `TryCombine` returns for "impossible", is the inner `none` of its
  `Option Int` result.
* `std::sort` is a parameter `sort` of `Pack`: the C++ standard fixes only that the result is
  a permutation of the input ordered by the comparator (`SortsByScore`), not how ties are
  resolved.  `stableSort` is the insertion sort that `std::sort` runs on short ranges.
* `m_Columns` starts at 1 and is only incremented, so the divisions and remainders by it are
  never by zero; they are Lean's total `/` and `%`.
-/

set_option autoImplicit false

/-- The cell record `RectPacker::BoundingBox`.  The anonymous union of `Filled` and `Fits`
is the single field `Filled`: `CheckFit` returns its verdict in it. -/
structure BoundingBox where
  Width : Int
  Height : Int
  Filled : Bool
  deriving DecidableEq, Repr

/-- The result record `RectPacker::Transform`. -/
structure Transform where
  xOffset : Int
  yOffset : Int
  rotated : Bool
  deriving DecidableEq, Repr

/-- The tuple `Fit = (BoundingBoxIt, size_t, bool, bool)`: candidate cell, exposed surface
area, combined flag (`std::get<2>`), rotated flag (`std::get<3>`). -/
structure Fit where
  box : Nat
  exposed : Int
  combined : Bool
  rotated : Bool
  deriving DecidableEq, Repr

/-- The data members of `class RectPacker`. -/
structure RectPacker where
  m_MaxWidth : Int
  m_MaxHeight : Int
  m_Rows : Nat
  m_Columns : Nat
  m_BoundingBoxes : List BoundingBox
  deriving DecidableEq, Repr

/-- Method `BoundingBox::CheckFit`: the dead space left by a `width × height` request, with the
verdict in `Filled` (the union member `Fits`). -/
def BoundingBox.CheckFit (b : BoundingBox) (width height : Int) : BoundingBox :=
  let w := b.Width - width
  let h := b.Height - height
  if w < 0 ∨ h < 0 then ⟨w, h, false⟩ else ⟨w, h, true⟩

namespace RectPacker

/-- The constructor `RectPacker(maxWidth, maxHeight)`: one free cell, `m_Rows = m_Columns = 1`. -/
def new (maxWidth maxHeight : Int) : RectPacker :=
  ⟨maxWidth, maxHeight, 1, 1, [⟨maxWidth, maxHeight, false⟩]⟩

/-- The function `std::clamp(v, lo, hi)`. -/
def clamp (v lo hi : Int) : Int :=
  if v < lo then lo else if hi < v then hi else v

/-- The call `std::vector::emplace(begin + i, x)`. -/
def insertAt (boxes : List BoundingBox) (i : Nat) (x : BoundingBox) : List BoundingBox :=
  boxes.take i ++ x :: boxes.drop i

/-- The call `std::vector::insert(begin + i, n, x)`. -/
def insertMany (boxes : List BoundingBox) (i n : Nat) (x : BoundingBox) : List BoundingBox :=
  boxes.take i ++ (List.replicate n x ++ boxes.drop i)

/-- First loop of `GetTransform`: `for (i = 0; i < column; i++) x += m_BoundingBoxes[i].Width`. -/
def GetTransform.sumWidths (boxes : List BoundingBox) : Nat → Option Int
  | 0 => some 0
  | i + 1 => do
    let x ← sumWidths boxes i
    let b ← boxes[i]?
    pure (x + b.Width)

/-- Second loop of `GetTransform`:
`for (i = 0; i < row; i++) y += m_BoundingBoxes[i * m_Columns].Height`. -/
def GetTransform.sumHeights (boxes : List BoundingBox) (columns : Nat) : Nat → Option Int
  | 0 => some 0
  | i + 1 => do
    let y ← sumHeights boxes columns i
    let b ← boxes[i * columns]?
    pure (y + b.Height)

/-- Method `RectPacker::GetTransform`.  The parameters `width` and `height` are unused, as in the
source. -/
def GetTransform (p : RectPacker) (it : Nat) (_width _height : Int) (rotated : Bool) :
    Option Transform := do
  let index := it
  let column := index % p.m_Columns
  let row := index / p.m_Columns
  let x ← GetTransform.sumWidths p.m_BoundingBoxes column
  let y ← GetTransform.sumHeights p.m_BoundingBoxes p.m_Columns row
  pure ⟨x, y, rotated⟩

/-- First statement of `GetExposedSurfaceArea`:
`if (left && (index % m_Columns != 0)) exposed += (box - 1)->Filled ? 0 : test.Height;`. -/
def GetExposedSurfaceArea.left (p : RectPacker) (test : BoundingBox) (index : Nat)
    (left : Bool) (exposed : Int) : Option Int :=
  if left && (index % p.m_Columns != 0) then do
    let prev ← p.m_BoundingBoxes[index - 1]?
    pure (exposed + (if prev.Filled then 0 else test.Height))
  else pure exposed

/-- Second statement of `GetExposedSurfaceArea`:
`if (top && (index - m_Columns > 0)) exposed += (box - m_Columns)->Filled ? 0 : test.Width;`.
The test is evaluated on signed 64-bit integers in the source, hence on `Int` here. -/
def GetExposedSurfaceArea.top (p : RectPacker) (test : BoundingBox) (index : Nat)
    (top : Bool) (exposed : Int) : Option Int :=
  if top && decide ((index : Int) - (p.m_Columns : Int) > 0) then do
    let above ← p.m_BoundingBoxes[index - p.m_Columns]?
    pure (exposed + (if above.Filled then 0 else test.Width))
  else pure exposed

/-- Third statement of `GetExposedSurfaceArea`, the block under `if (right)`. -/
def GetExposedSurfaceArea.right (p : RectPacker) (test cell : BoundingBox) (index : Nat)
    (right : Bool) (exposed : Int) : Option Int :=
  if right then
    if test.Width = cell.Width then
      if (index + 1) % p.m_Columns ≠ 0 then do
        let next ← p.m_BoundingBoxes[index + 1]?
        pure (if !next.Filled then exposed + test.Height else exposed)
      else pure exposed
    else pure (exposed + test.Height)
  else pure exposed

/-- Fourth statement of `GetExposedSurfaceArea`, the block under `if (bottom)`. -/
def GetExposedSurfaceArea.bottom (p : RectPacker) (test cell : BoundingBox) (index : Nat)
    (bottom : Bool) (exposed : Int) : Option Int :=
  if bottom then
    if test.Height = cell.Height then
      if index + p.m_Columns < p.m_BoundingBoxes.length then do
        let below ← p.m_BoundingBoxes[index + p.m_Columns]?
        pure (if !below.Filled then exposed + test.Width else exposed)
      else pure exposed
    else pure (exposed + test.Width)
  else pure exposed

/-- Method `RectPacker::GetExposedSurfaceArea`: its four statements in sequence on the running
total `exposed`.  The cell `*box` is read once, up front: every caller passes an iterator it
has already dereferenced. -/
def GetExposedSurfaceArea (p : RectPacker) (test : BoundingBox) (box : Nat)
    (left top right bottom : Bool) : Option Int := do
  let index := box
  let cell ← p.m_BoundingBoxes[box]?
  let exposed : Int := 0
  let exposed ← GetExposedSurfaceArea.left p test index left exposed
  let exposed ← GetExposedSurfaceArea.top p test index top exposed
  let exposed ← GetExposedSurfaceArea.right p test cell index right exposed
  let exposed ← GetExposedSurfaceArea.bottom p test cell index bottom exposed
  pure exposed

/-- Inner `for (;;)` of `TryCombine` (one row of the scan).  `index` stands for both `index`
and `lastBox`, which the source keeps in step.  Result: `some none` is `return SIZE_MAX`,
`some (some (index, stride, w, exposed))` is the state at `break`. -/
def TryCombine.inner (p : RectPacker) (width height : Int) (combined : BoundingBox) :
    Nat → Nat → Int → Int → Int → Option (Option (Nat × Int × Int × Int))
  | 0, _, _, _, _ => none
  | fuel + 1, index, stride, w, exposed => do
    let lastBox ← p.m_BoundingBoxes[index]?
    let diff : BoundingBox :=
      ⟨clamp ((w + lastBox.Width) - width) 0 lastBox.Width,
       clamp ((combined.Height + lastBox.Height) - height) 0 lastBox.Height, false⟩
    let e ← p.GetExposedSurfaceArea
      ⟨lastBox.Width - diff.Width, lastBox.Height - diff.Height, false⟩ index
      (w == 0) (combined.Height == 0)
      (decide (combined.Width + lastBox.Width ≥ width))
      (decide (combined.Height + lastBox.Height ≥ height))
    let exposed := exposed + e
    let w := w + lastBox.Width
    if w ≥ width then pure (some (index, stride, w, exposed))
    else if (index + 1) % p.m_Columns = 0 then pure none
    else do
      let next ← p.m_BoundingBoxes[index + 1]?
      if next.Filled then pure none
      else inner p width height combined fuel (index + 1) (stride - 1) w exposed

/-- Outer `for (;;)` of `TryCombine` (one iteration per row of the scanned block). -/
def TryCombine.outer (p : RectPacker) (width height : Int) :
    Nat → Nat → BoundingBox → Int → Option (Option Int)
  | 0, _, _, _ => none
  | fuel + 1, index, combined, exposed => do
    let r ← TryCombine.inner p width height combined p.m_BoundingBoxes.length
      index p.m_Columns 0 exposed
    match r with
    | none => pure none
    | some (index, stride, w, exposed) =>
      let lastBox ← p.m_BoundingBoxes[index]?
      let combined : BoundingBox := ⟨w, combined.Height + lastBox.Height, combined.Filled⟩
      if combined.Height ≥ height then pure (some exposed)
      else
        let next : Int := (index : Int) + stride
        if next < 0 ∨ next ≥ p.m_BoundingBoxes.length then pure none
        else do
          let nextBox ← p.m_BoundingBoxes[next.toNat]?
          if nextBox.Filled then pure none
          else outer p width height fuel next.toNat combined exposed

/-- Method `RectPacker::TryCombine`: the exposed surface area of the block of free cells that
starts at `box` and covers `width × height`, or `some none` (`SIZE_MAX`) when there is no such
block. -/
def TryCombine (p : RectPacker) (box : Nat) (width height : Int) : Option (Option Int) :=
  TryCombine.outer p width height p.m_BoundingBoxes.length box ⟨0, 0, false⟩ 0

/-- The column loop of `Segment` (`while (true)` under `if (after.Width)`), one iteration per
row: shrink the cell before `emplace`, emplace the new cell, move on by `m_Columns`. -/
def Segment.columnLoop (afterWidth : Int) (rows columns originRow : Nat) :
    Nat → List BoundingBox → Nat → Nat → Nat → Option (List BoundingBox × Nat)
  | 0, _, _, _, _ => none
  | fuel + 1, boxes, row, index, emplace => do
    if emplace = 0 then none
    else do
      let before ← boxes[emplace - 1]?
      let boxes := boxes.set (emplace - 1) { before with Width := before.Width - afterWidth }
      let boxes := insertAt boxes emplace ⟨afterWidth, before.Height, before.Filled⟩
      let row := row + 1
      if row = rows then pure (boxes, index)
      else
        let index := if row < originRow then index + 1 else index
        columnLoop afterWidth rows columns originRow fuel boxes row index (emplace + columns)

/-- The row loop of `Segment` (`for (i = 0; i < m_Columns; i++, insert++)`); the first
argument counts the iterations that remain. -/
def Segment.rowLoop (afterHeight : Int) (columns : Nat) :
    Nat → List BoundingBox → Nat → Option (List BoundingBox)
  | 0, boxes, _ => some boxes
  | n + 1, boxes, insert => do
    if insert < columns then none
    else do
      let above ← boxes[insert - columns]?
      let boxes := boxes.set (insert - columns) { above with Height := above.Height - afterHeight }
      if insert ≥ boxes.length then none
      else
        let boxes := boxes.set insert ⟨above.Width, afterHeight, above.Filled⟩
        rowLoop afterHeight columns n boxes (insert + 1)

/-- Method `RectPacker::Segment`: cut the leftover `after` off the right and the bottom of the cell
`box`, through the whole table.  Returns the new state and the updated iterator `box`. -/
def Segment (p : RectPacker) (box : Nat) (after : BoundingBox) : Option (RectPacker × Nat) := do
  let cell ← p.m_BoundingBoxes[box]?
  if ¬ (after.Width ≥ 0 ∧ after.Height ≥ 0) then none
  else if ¬ (cell.Width ≥ 1 ∧ cell.Height ≥ 1) then none
  else if ¬ (cell.Width > after.Width ∧ cell.Height > after.Height) then none
  else if after.Width = 0 ∧ after.Height = 0 then pure (p, box)
  else do
    let index := box
    let originRow := index / p.m_Columns + 1
    let (p, index, box) ←
      if after.Width ≠ 0 then do
        let emplace := index % p.m_Columns + 1
        let p := { p with m_Columns := p.m_Columns + 1 }
        let (boxes, index) ← Segment.columnLoop after.Width p.m_Rows p.m_Columns originRow
          p.m_BoundingBoxes.length p.m_BoundingBoxes 0 index emplace
        pure ({ p with m_BoundingBoxes := boxes }, index, index)
      else pure (p, index, box)
    if after.Height ≠ 0 then do
      let p := { p with m_Rows := p.m_Rows + 1 }
      let insert := originRow * p.m_Columns
      if insert > p.m_BoundingBoxes.length then none
      else do
        let boxes := insertMany p.m_BoundingBoxes insert p.m_Columns ⟨0, 0, false⟩
        let box := index
        let box := if insert < box then box + p.m_Columns else box
        let boxes ← Segment.rowLoop after.Height p.m_Columns p.m_Columns boxes insert
        pure ({ p with m_BoundingBoxes := boxes }, box)
    else pure (p, box)

/-- Inner `for (;;)` of the lambda `GetCombined` in `PackCombined`: no bounds check. -/
def GetCombined.inner (width : Int) (fill : Bool) :
    Nat → List BoundingBox → Nat → Int → Int → Option (List BoundingBox × Nat × Int × Int)
  | 0, _, _, _, _ => none
  | fuel + 1, boxes, lastBox, stride, w => do
    let cell ← boxes[lastBox]?
    let boxes := boxes.set lastBox { cell with Filled := fill }
    let w := w + cell.Width
    if w ≥ width then pure (boxes, lastBox, stride, w)
    else inner width fill fuel boxes (lastBox + 1) (stride - 1) w

/-- Outer `for (;;)` of the lambda `GetCombined`. -/
def GetCombined.outer (columns : Nat) (width height : Int) (fill : Bool) :
    Nat → List BoundingBox → Nat → BoundingBox → Option (List BoundingBox × BoundingBox × Nat)
  | 0, _, _, _ => none
  | fuel + 1, boxes, lastBox, combined => do
    let (boxes, lastBox, stride, w) ←
      GetCombined.inner width fill boxes.length boxes lastBox columns 0
    let cell ← boxes[lastBox]?
    let combined : BoundingBox := ⟨w, combined.Height + cell.Height, combined.Filled⟩
    if combined.Height ≥ height then pure (boxes, combined, lastBox)
    else
      let next : Int := (lastBox : Int) + stride
      if next < 0 then none
      else outer columns width height fill fuel boxes next.toNat combined

/-- The lambda `GetCombined` of `PackCombined`: walk the block that starts at `box`, set the
`Filled` flag of every cell on the way to `fill`, return the accumulated size and the last
cell. -/
def GetCombined (p : RectPacker) (box : Nat) (width height : Int) (fill : Bool) :
    Option (RectPacker × BoundingBox × Nat) := do
  let (boxes, combined, lastBox) ← GetCombined.outer p.m_Columns width height fill
    p.m_BoundingBoxes.length p.m_BoundingBoxes box ⟨0, 0, true⟩
  pure ({ p with m_BoundingBoxes := boxes }, combined, lastBox)

/-- Method `RectPacker::PackCombined`. -/
def PackCombined (p : RectPacker) (box : Nat) (width height : Int) (rotated : Bool) :
    Option (Transform × RectPacker) := do
  let index := box
  let originRow := index / p.m_Columns
  let (p, combined, lastBox) ← GetCombined p box width height false
  let columnsBefore := p.m_Columns
  let (p, _) ← Segment p lastBox ⟨combined.Width - width, combined.Height - height, false⟩
  let box := index + (if columnsBefore = p.m_Columns then 0 else originRow)
  let (p, combined, _) ← GetCombined p box width height true
  let t ← GetTransform p box combined.Width combined.Height rotated
  pure (t, p)

/-- Method `RectPacker::PackMostFit`. -/
def PackMostFit (sort : List Fit → List Fit) (p : RectPacker) (fits : List Fit)
    (width height : Int) : Option (Transform × RectPacker) := do
  let fits := sort fits
  let best ← fits[0]?
  let mostFit := best.box
  let rotated := best.rotated
  let w := if rotated then height else width
  let h := if rotated then width else height
  if best.combined then PackCombined p mostFit w h best.rotated
  else do
    let cell ← p.m_BoundingBoxes[mostFit]?
    let (p, mostFit) ← Segment p mostFit (cell.CheckFit w h)
    let cell ← p.m_BoundingBoxes[mostFit]?
    let p := { p with m_BoundingBoxes := p.m_BoundingBoxes.set mostFit { cell with Filled := true } }
    let t ← GetTransform p mostFit cell.Width cell.Height best.rotated
    pure (t, p)

/-- The lambda `EvaluateBox` of `Pack`; `fits` is the captured vector, returned extended. -/
def EvaluateBox (p : RectPacker) (width height : Int) (box : Nat) (rotate : Bool)
    (fits : List Fit) : Option (List Fit) := do
  let w := if rotate then height else width
  let h := if rotate then width else height
  let cell ← p.m_BoundingBoxes[box]?
  let test := cell.CheckFit w h
  if test.Filled then do
    let e ← p.GetExposedSurfaceArea ⟨w, h, false⟩ box true true true true
    pure (fits ++ [⟨box, e, false, rotate⟩])
  else do
    let exposed ← p.TryCombine box w h
    match exposed with
    | none => pure fits
    | some e => pure (fits ++ [⟨box, e, true, rotate⟩])

/-- The candidate loop of `Pack` over the iterators in the given list. -/
def Pack.scan (p : RectPacker) (width height : Int) : List Nat → List Fit → Option (List Fit)
  | [], fits => some fits
  | box :: rest, fits => do
    let cell ← p.m_BoundingBoxes[box]?
    if cell.Filled then scan p width height rest fits
    else do
      let fits ← p.EvaluateBox width height box false fits
      let fits ← p.EvaluateBox width height box true fits
      scan p width height rest fits

/-- Method `RectPacker::Pack`.  Returns the transform and the state after the call. -/
def Pack (sort : List Fit → List Fit) (p : RectPacker) (width height : Int) :
    Option (Transform × RectPacker) := do
  let fits ← Pack.scan p width height (List.range p.m_BoundingBoxes.length) []
  if fits.isEmpty then pure (⟨-1, -1, false⟩, p)
  else p.PackMostFit sort fits width height

/-- The filled area of the cell sequence: the exact sum of `Width * Height` over the filled
cells. -/
def occupiedArea (p : RectPacker) : Int :=
  (p.m_BoundingBoxes.map fun b => if b.Filled then b.Width * b.Height else 0).sum

/-- The occupancy as the exact ratio the specification names: the filled area over the canvas
area `maxWidth * maxHeight`, both exact. -/
def exactOccupancy (p : RectPacker) : ℚ :=
  (p.occupiedArea : ℚ) / ((p.m_MaxWidth * p.m_MaxHeight : Int) : ℚ)

/-- The `int` a product of two `int` operands yields when its exact value is `x`: `x` reduced
to 32 bits in two's complement.  (The C++ standard leaves a signed overflow undefined; this
is the value the multiplication instruction of the usual targets leaves.) -/
def wrapInt (x : Int) : Int :=
  (x + 2147483648) % 4294967296 - 2147483648

/-- The loop of `GetOccupancy`:
`for (const BoundingBox& box : m_BoundingBoxes)
   occupiedArea += box.Filled ? (box.Width * box.Height) : 0.0f;`
The product is an `int` product, converted to `float` by the conditional operator. -/
def GetOccupancy.loop (boxes : List BoundingBox) : ℚ :=
  boxes.foldl
    (fun occupiedArea box =>
      occupiedArea + (if box.Filled then ((wrapInt (box.Width * box.Height) : Int) : ℚ) else 0))
    0

/-- Method `RectPacker::GetOccupancy`: `return occupiedArea / (m_MaxWidth * m_MaxHeight);`
with the divisor an `int` product.  The result is `none` when the divisor is 0, where the
`float` division yields an infinity or a NaN. -/
def GetOccupancy (p : RectPacker) : Option ℚ :=
  let occupiedArea := GetOccupancy.loop p.m_BoundingBoxes
  let canvas := wrapInt (p.m_MaxWidth * p.m_MaxHeight)
  if canvas = 0 then none else some (occupiedArea / (canvas : ℚ))

end RectPacker

/-- The contract of `std::sort` with the comparator of `PackMostFit`: the result is a
permutation of the input in which no later element has a smaller score than an earlier one. -/
def SortsByScore (sort : List Fit → List Fit) : Prop :=
  ∀ fits, (sort fits).Perm fits ∧ (sort fits).Pairwise (fun a b => a.exposed ≤ b.exposed)

/-- Insertion sort by score: the algorithm `std::sort` runs on ranges of fewer than 16
elements; among candidates of equal score the first discovered stays first. -/
def stableSort (fits : List Fit) : List Fit :=
  fits.insertionSort (fun a b => a.exposed ≤ b.exposed)

/-! ## Geometry of a state

The canvas is the set of integer points `(px, py)` with `0 ≤ px < m_MaxWidth` and
`0 ≤ py < m_MaxHeight`; a point stands for the unit square whose top-left corner it is.  All
cell sizes and offsets are integers, so every cell and every placed rectangle is a union of
such unit squares. -/

/-- Sum of the first `n` values of `f`: `f 0 + ... + f (n - 1)`. -/
def psum (f : Nat → Int) : Nat → Int
  | 0 => 0
  | n + 1 => psum f n + f n

/-- An axis-aligned rectangle `[x, x + w) × [y, y + h)`. -/
structure Rect where
  x : Int
  y : Int
  w : Int
  h : Int
  deriving DecidableEq, Repr

/-- The point `(px, py)` lies in the rectangle. -/
def Rect.Contains (R : Rect) (px py : Int) : Prop :=
  R.x ≤ px ∧ px < R.x + R.w ∧ R.y ≤ py ∧ py < R.y + R.h

/-- Two rectangles overlap: their interiors meet. -/
def Rect.Overlaps (A B : Rect) : Prop :=
  A.x < B.x + B.w ∧ B.x < A.x + A.w ∧ A.y < B.y + B.h ∧ B.y < A.y + A.h

instance (R : Rect) (px py : Int) : Decidable (R.Contains px py) := by
  unfold Rect.Contains; infer_instance

instance (A B : Rect) : Decidable (A.Overlaps B) := by
  unfold Rect.Overlaps; infer_instance

/-- The failure value `{ -1, -1, false }` of `Pack`. -/
def sentinel : Transform := ⟨-1, -1, false⟩

/-- The rectangle a successful `Pack(width, height)` with result `t` occupies: origin
`(xOffset, yOffset)`, size `height × width` when rotated and `width × height` otherwise. -/
def placedRect (t : Transform) (width height : Int) : Rect :=
  if t.rotated then ⟨t.xOffset, t.yOffset, height, width⟩
  else ⟨t.xOffset, t.yOffset, width, height⟩

namespace RectPacker

/-- The cell in row `r` and column `c` of the row-major cell sequence. -/
def cellAt (p : RectPacker) (r c : Nat) : BoundingBox :=
  p.m_BoundingBoxes.getD (r * p.m_Columns + c) ⟨0, 0, false⟩

/-- Left edge of the cell `(r, c)`: the widths of the cells left of it in its own row. -/
def cellX (p : RectPacker) (r c : Nat) : Int :=
  psum (fun j => (p.cellAt r j).Width) c

/-- Top edge of the cell `(r, c)`: the heights of the cells above it in its own column. -/
def cellY (p : RectPacker) (r c : Nat) : Int :=
  psum (fun k => (p.cellAt k c).Height) r

/-- The rectangle the cell `(r, c)` covers on the canvas. -/
def cellRect (p : RectPacker) (r c : Nat) : Rect :=
  ⟨p.cellX r c, p.cellY r c, (p.cellAt r c).Width, (p.cellAt r c).Height⟩

/-- The point `(px, py)` lies in a filled cell. -/
def FilledAt (p : RectPacker) (px py : Int) : Prop :=
  ∃ r, r < p.m_Rows ∧ ∃ c, c < p.m_Columns ∧
    (p.cellAt r c).Filled = true ∧ (p.cellRect r c).Contains px py

instance (p : RectPacker) (px py : Int) : Decidable (p.FilledAt px py) := by
  unfold FilledAt; infer_instance

/-- Sum of the cell widths of row `r`. -/
def rowWidth (p : RectPacker) (r : Nat) : Int :=
  psum (fun c => (p.cellAt r c).Width) p.m_Columns

/-- Sum of the cell heights of column `c`. -/
def columnHeight (p : RectPacker) (c : Nat) : Int :=
  psum (fun r => (p.cellAt r c).Height) p.m_Rows

/-- The grid invariant of the specification: `m_Rows * m_Columns` cells, every row as wide
as the canvas, every column as high as the canvas. -/
def GridInvariant (p : RectPacker) : Prop :=
  p.m_BoundingBoxes.length = p.m_Rows * p.m_Columns ∧
  (∀ r, r < p.m_Rows → p.rowWidth r = p.m_MaxWidth) ∧
  (∀ c, c < p.m_Columns → p.columnHeight c = p.m_MaxHeight)

instance (p : RectPacker) : Decidable p.GridInvariant := by
  unfold GridInvariant; infer_instance

/-- A position `(x, y)` at which a `w × h` rectangle lies on the canvas and meets no filled
cell. -/
def Placement (p : RectPacker) (w h x y : Int) : Prop :=
  0 ≤ x ∧ x + w ≤ p.m_MaxWidth ∧ 0 ≤ y ∧ y + h ≤ p.m_MaxHeight ∧
    ∀ px py, (Rect.mk x y w h).Contains px py → ¬ p.FilledAt px py

/-- A sequence of `Pack` calls; returns the transforms in call order and the final state. -/
def PackAll (sort : List Fit → List Fit) :
    RectPacker → List (Int × Int) → Option (List Transform × RectPacker)
  | p, [] => some ([], p)
  | p, (width, height) :: rest => do
    let (t, p) ← p.Pack sort width height
    let (ts, p) ← PackAll sort p rest
    pure (t :: ts, p)

end RectPacker

/-- The rectangles of the successful calls of a sequence of requests with the given results. -/
def placedRects : List (Int × Int) → List Transform → List Rect
  | (width, height) :: reqs, t :: ts =>
    if t = sentinel then placedRects reqs ts
    else placedRect t width height :: placedRects reqs ts
  | _, _ => []

/-- The states an allocator built with positive bounds takes under `Pack` calls with positive
width and height. -/
inductive Reachable (sort : List Fit → List Fit) : RectPacker → Prop
  | init (maxWidth maxHeight : Int) (hw : 0 < maxWidth) (hh : 0 < maxHeight) :
      Reachable sort (RectPacker.new maxWidth maxHeight)
  | pack (p : RectPacker) (width height : Int) (t : Transform) (q : RectPacker)
      (hp : Reachable sort p) (hw : 0 < width) (hh : 0 < height)
      (hq : p.Pack sort width height = some (t, q)) : Reachable sort q

/-! ## The table behind the cell sequence

A `Tbl` is the non-uniform table the cell sequence is meant to store: column widths, row
heights and a fill flag per cell.  It is the ghost state of the proofs. -/

/-- A table of `rows × cols` cells; column `c` has width `cw c`, row `r` has height `rh r`. -/
structure Tbl where
  rows : Nat
  cols : Nat
  cw : Nat → Int
  rh : Nat → Int
  fill : Nat → Nat → Bool

namespace Tbl

/-- The table of one cell of size `W × H`. -/
def single (W H : Int) (b : Bool) : Tbl := ⟨1, 1, fun _ => W, fun _ => H, fun _ _ => b⟩

/-- The cell record of row `r`, column `c`. -/
def cell (T : Tbl) (r c : Nat) : BoundingBox := ⟨T.cw c, T.rh r, T.fill r c⟩

/-- Left edge of column `c`. -/
def X (T : Tbl) (c : Nat) : Int := psum T.cw c

/-- Top edge of row `r`. -/
def Y (T : Tbl) (r : Nat) : Int := psum T.rh r

/-- At least one row and one column, every column and row at least one unit wide. -/
structure Valid (T : Tbl) : Prop where
  rows_pos : 1 ≤ T.rows
  cols_pos : 1 ≤ T.cols
  cw_pos : ∀ c, c < T.cols → 1 ≤ T.cw c
  rh_pos : ∀ r, r < T.rows → 1 ≤ T.rh r

/-- The point `(px, py)` lies in a filled cell of the table. -/
def Covered (T : Tbl) (px py : Int) : Prop :=
  ∃ r c, r < T.rows ∧ c < T.cols ∧ T.fill r c = true ∧
    T.X c ≤ px ∧ px < T.X (c + 1) ∧ T.Y r ≤ py ∧ py < T.Y (r + 1)

/-- Cut `aw` units off the right of column `c`: a new column `c + 1` of width `aw` whose
cells copy the fill flags of column `c`. -/
def splitCol (T : Tbl) (c : Nat) (aw : Int) : Tbl where
  rows := T.rows
  cols := T.cols + 1
  cw := fun j => if j < c then T.cw j else if j = c then T.cw c - aw
    else if j = c + 1 then aw else T.cw (j - 1)
  rh := T.rh
  fill := fun r j => if j ≤ c then T.fill r j else T.fill r (j - 1)

/-- Cut `ah` units off the bottom of row `r`: a new row `r + 1` of height `ah` whose cells
copy the fill flags of row `r`. -/
def splitRow (T : Tbl) (r : Nat) (ah : Int) : Tbl where
  rows := T.rows + 1
  cols := T.cols
  cw := T.cw
  rh := fun k => if k < r then T.rh k else if k = r then T.rh r - ah
    else if k = r + 1 then ah else T.rh (k - 1)
  fill := fun k c => if k ≤ r then T.fill k c else T.fill (k - 1) c

/-- The cells of the sequence while the row loop of `Segment` runs, after `i` of its
iterations: the new row `r0 + 1` is written up to column `i`, the rest of it is still the
zero cell `{ 0, 0, false }` that `insert` put there. -/
def rowStage (T : Tbl) (r0 : Nat) (ah : Int) (i : Nat) (r j : Nat) : BoundingBox :=
  if r < r0 then T.cell r j
  else if r = r0 then (if j < i then ⟨T.cw j, T.rh r0 - ah, T.fill r0 j⟩ else T.cell r0 j)
  else if r = r0 + 1 then (if j < i then ⟨T.cw j, ah, T.fill r0 j⟩ else ⟨0, 0, false⟩)
  else T.cell (r - 1) j

/-- What `Segment` does to the table: the column cut when `aw ≠ 0`, then the row cut when
`ah ≠ 0`. -/
def split (T : Tbl) (r c : Nat) (aw ah : Int) : Tbl :=
  let T1 := if aw ≠ 0 then T.splitCol c aw else T
  if ah ≠ 0 then T1.splitRow r ah else T1

/-- The table with its fill flags replaced by `F`. -/
def withFill (T : Tbl) (F : Nat → Nat → Bool) : Tbl := { T with fill := F }

/-- Set the fill flag of every cell of the block of rows `r..r2` and columns `c..c2`. -/
def setBlock (T : Tbl) (r r2 c c2 : Nat) (b : Bool) : Tbl :=
  { T with fill := fun k j => if r ≤ k ∧ k ≤ r2 ∧ c ≤ j ∧ j ≤ c2 then b else T.fill k j }

/-- Column `c2` is the first column at which the widths of columns `c..c2` reach `w`. -/
def ColSpan (T : Tbl) (c : Nat) (w : Int) (c2 : Nat) : Prop :=
  c ≤ c2 ∧ c2 < T.cols ∧ T.X c2 - T.X c < w ∧ w ≤ T.X (c2 + 1) - T.X c

/-- Row `r2` is the first row at which the heights of rows `r..r2` reach `h`. -/
def RowSpan (T : Tbl) (r : Nat) (h : Int) (r2 : Nat) : Prop :=
  r ≤ r2 ∧ r2 < T.rows ∧ T.Y r2 - T.Y r < h ∧ h ≤ T.Y (r2 + 1) - T.Y r

/-- The filled area of the table: the sum of `cw c * rh r` over the filled cells. -/
def area (T : Tbl) : Int :=
  psum (fun r => psum (fun c => if T.fill r c = true then T.cw c * T.rh r else 0) T.cols) T.rows

/-- The exposed surface area `GetExposedSurfaceArea` computes for the cell `(r, c)`, read off
the table. -/
def esa (T : Tbl) (test : BoundingBox) (r c : Nat) (left top right bottom : Bool) : Int :=
  (if left = true ∧ c ≠ 0 then (if T.fill r (c - 1) = true then 0 else test.Height) else 0)
  + (if top = true ∧ T.cols < r * T.cols + c then
      (if T.fill (r - 1) c = true then 0 else test.Width) else 0)
  + (if right = true then
      (if test.Width = T.cw c then
        (if c + 1 ≠ T.cols ∧ T.fill r (c + 1) = false then test.Height else 0)
       else test.Height) else 0)
  + (if bottom = true then
      (if test.Height = T.rh r then
        (if r + 1 < T.rows ∧ T.fill (r + 1) c = false then test.Width else 0)
       else test.Width) else 0)

/-- The cells of rows `r..r2` and columns `c..c2` are the free block that starts at `(r, c)`
and covers `w × h`. -/
structure Block (T : Tbl) (r c r2 c2 : Nat) (w h : Int) : Prop where
  rs : T.RowSpan r h r2
  cs : T.ColSpan c w c2
  free : ∀ k j, r ≤ k → k ≤ r2 → c ≤ j → j ≤ c2 → T.fill k j = false

/-- What a commit of `w × h` on the block `(r, c)..(r2, c2)` does to the table: cut the part
of the block beyond `w × h` off its last cell, then fill the block. -/
def place (T : Tbl) (r c r2 c2 : Nat) (w h : Int) : Tbl :=
  (T.split r2 c2 (T.X (c2 + 1) - T.X c - w) (T.Y (r2 + 1) - T.Y r - h)).setBlock r r2 c c2 true

/-- What `Pack` records about a candidate `f` for the request `width × height`: its cell
`(r, c)` starts a free block that covers the request in the orientation of `f`, and a direct
candidate's block is the cell itself. -/
def Cand (T : Tbl) (width height : Int) (f : Fit) : Prop :=
  ∃ r c r2 c2, f.box = r * T.cols + c ∧
    T.Block r c r2 c2 (if f.rotated then height else width)
      (if f.rotated then width else height) ∧
    (f.combined = false → r2 = r ∧ c2 = c)

/-- The block of cells that starts at `(r, c)` and covers `w × h` exists and is free. -/
def BlockFree (T : Tbl) (r c : Nat) (w h : Int) : Prop :=
  ∃ r2 c2, T.RowSpan r h r2 ∧ T.ColSpan c w c2 ∧
    ∀ k j, r ≤ k → k ≤ r2 → c ≤ j → j ≤ c2 → T.fill k j = false

end Tbl

/-- The list stores, row by row, the `rows × cols` cells `g r c`. -/
structure Stores (boxes : List BoundingBox) (rows cols : Nat)
    (g : Nat → Nat → BoundingBox) : Prop where
  len : boxes.length = rows * cols
  get : ∀ r c, r < rows → c < cols → boxes[r * cols + c]? = some (g r c)

/-- No cell of the list has a negative width or height. -/
def NonNegCells (boxes : List BoundingBox) : Prop :=
  ∀ (i : Nat) (b : BoundingBox), boxes[i]? = some b → 0 ≤ b.Width ∧ 0 ≤ b.Height

/-- The state `p` stores the table `T`, and `T` fills the canvas of `p`. -/
structure Represents (p : RectPacker) (T : Tbl) : Prop where
  rows : p.m_Rows = T.rows
  cols : p.m_Columns = T.cols
  stores : Stores p.m_BoundingBoxes T.rows T.cols T.cell
  valid : T.Valid
  width : T.X T.cols = p.m_MaxWidth
  height : T.Y T.rows = p.m_MaxHeight

/-- The representation invariant: the state stores some valid table that fills its canvas. -/
def WF (p : RectPacker) : Prop := ∃ T, Represents p T

/-! ## Vocabulary of the contracts of the private methods -/

namespace RectPacker

/-- The table a cell sequence stores when it is uniform: the column widths are read off row 0,
the row heights off column 0. -/
def table (p : RectPacker) : Tbl :=
  ⟨p.m_Rows, p.m_Columns, fun c => (p.cellAt 0 c).Width, fun r => (p.cellAt r 0).Height,
    fun r c => (p.cellAt r c).Filled⟩

/-- The state with the canvas bounds `m_MaxWidth`, `m_MaxHeight` replaced. -/
def withCanvas (p : RectPacker) (maxWidth maxHeight : Int) : RectPacker :=
  ⟨maxWidth, maxHeight, p.m_Rows, p.m_Columns, p.m_BoundingBoxes⟩

/-- The vector `fits` of `Pack` when its loop over the cells is done. -/
def Pack.candidates (p : RectPacker) (width height : Int) : Option (List Fit) :=
  Pack.scan p width height (List.range p.m_BoundingBoxes.length) []

/-- The single-cell commit of `PackMostFit`, the three statements after the `if`:
`Segment(mostFit, mostFit->CheckFit(w, h)); mostFit->Filled = true; return GetTransform(...)`. -/
def PackMostFit.commitDirect (p : RectPacker) (mostFit : Nat) (w h : Int) (rotated : Bool) :
    Option (Transform × RectPacker) := do
  let cell ← p.m_BoundingBoxes[mostFit]?
  let (p, mostFit) ← Segment p mostFit (cell.CheckFit w h)
  let cell ← p.m_BoundingBoxes[mostFit]?
  let p := { p with m_BoundingBoxes := p.m_BoundingBoxes.set mostFit { cell with Filled := true } }
  let t ← GetTransform p mostFit cell.Width cell.Height rotated
  pure (t, p)

/-- The three assertions at the head of `Segment`, on the cell the iterator `box` designates. -/
def Segment.Pre (p : RectPacker) (box : Nat) (after : BoundingBox) : Prop :=
  ∃ cell, p.m_BoundingBoxes[box]? = some cell ∧
    (after.Width ≥ 0 ∧ after.Height ≥ 0) ∧
    (cell.Width ≥ 1 ∧ cell.Height ≥ 1) ∧
    (cell.Width > after.Width ∧ cell.Height > after.Height)

/-- The state, the iterator and the leftover with which `PackMostFit` reaches `Segment`: in the
single-cell commit `Segment(mostFit, mostFit->CheckFit(w, h))`, and in `PackCombined`, after
`GetCombined(false)`, the call
`Segment(data.second, { data.first.Width - width, data.first.Height - height })`. -/
def PackMostFit.segmentCall (sort : List Fit → List Fit) (p : RectPacker) (fits : List Fit)
    (width height : Int) : Option (RectPacker × Nat × BoundingBox) := do
  let fits := sort fits
  let best ← fits[0]?
  let w := if best.rotated then height else width
  let h := if best.rotated then width else height
  if best.combined then do
    let (q, combined, lastBox) ← GetCombined p best.box w h false
    pure (q, lastBox, ⟨combined.Width - w, combined.Height - h, false⟩)
  else do
    let cell ← p.m_BoundingBoxes[best.box]?
    pure (p, best.box, cell.CheckFit w h)

/-- The cell the specification puts in row `r`, column `j` after `Segment` has cut the leftover
`afterWidth × afterHeight` off the cell `(r0, c0)` of `p`: the cell comes from the old cell
`(r, j)`, shifted by the new column right of `c0` and by the new row below `r0`; column `c0`
is narrower by `afterWidth` and the new column `c0 + 1` is `afterWidth` wide, row `r0` is lower
by `afterHeight` and the new row `r0 + 1` is `afterHeight` high; the flag is copied. -/
def Segment.expectedCell (p : RectPacker) (r0 c0 : Nat) (afterWidth afterHeight : Int)
    (r j : Nat) : BoundingBox :=
  let j0 := if afterWidth ≠ 0 ∧ c0 < j then j - 1 else j
  let k0 := if afterHeight ≠ 0 ∧ r0 < r then r - 1 else r
  let src := p.cellAt k0 j0
  ⟨if afterWidth ≠ 0 ∧ j = c0 then src.Width - afterWidth
     else if afterWidth ≠ 0 ∧ j = c0 + 1 then afterWidth else src.Width,
   if afterHeight ≠ 0 ∧ r = r0 then src.Height - afterHeight
     else if afterHeight ≠ 0 ∧ r = r0 + 1 then afterHeight else src.Height,
   src.Filled⟩

/-- The uniform table invariant: `m_Rows * m_Columns` cells, every cell at least `1 × 1`, the
cells of a column equally wide and the cells of a row equally high. -/
def UniformTable (p : RectPacker) : Prop :=
  p.m_BoundingBoxes.length = p.m_Rows * p.m_Columns ∧
  ∀ r, r < p.m_Rows → ∀ c, c < p.m_Columns →
    1 ≤ (p.cellAt r c).Width ∧ 1 ≤ (p.cellAt r c).Height ∧
    (p.cellAt r c).Width = (p.cellAt 0 c).Width ∧
    (p.cellAt r c).Height = (p.cellAt r 0).Height

instance (p : RectPacker) : Decidable p.UniformTable := by
  unfold UniformTable; infer_instance

/-- The table invariant: a uniform table with at least one row and one column whose rows are
as wide and whose columns are as high as the canvas. -/
def TableInvariant (p : RectPacker) : Prop :=
  1 ≤ p.m_Rows ∧ 1 ≤ p.m_Columns ∧ p.UniformTable ∧ p.GridInvariant

instance (p : RectPacker) : Decidable p.TableInvariant := by
  unfold TableInvariant; infer_instance

/-- The block of a combine scan from the cell `(r, c)` for `width × height`: `c2` is the first
column at which the widths of columns `c..c2` reach `width`, `r2` the first row at which the
heights of rows `r..r2` reach `height`, both inside the grid. -/
def ScanBlock (p : RectPacker) (r c : Nat) (width height : Int) (r2 c2 : Nat) : Prop :=
  r ≤ r2 ∧ r2 < p.m_Rows ∧ c ≤ c2 ∧ c2 < p.m_Columns ∧
  p.cellX r c2 - p.cellX r c < width ∧ width ≤ p.cellX r (c2 + 1) - p.cellX r c ∧
  p.cellY r2 c - p.cellY r c < height ∧ height ≤ p.cellY (r2 + 1) c - p.cellY r c

instance (p : RectPacker) (r c : Nat) (width height : Int) (r2 c2 : Nat) :
    Decidable (p.ScanBlock r c width height r2 c2) := by
  unfold ScanBlock; infer_instance

/-- Every cell in rows `r..r2` and columns `c..c2` is free. -/
def FreeCells (p : RectPacker) (r c r2 c2 : Nat) : Prop :=
  ∀ k, k < r2 + 1 → ∀ j, j < c2 + 1 → r ≤ k → c ≤ j → (p.cellAt k j).Filled = false

instance (p : RectPacker) (r c r2 c2 : Nat) : Decidable (p.FreeCells r c r2 c2) := by
  unfold FreeCells; infer_instance

/-- Width of the cell `(k, j)` inside the block that starts in column `c`: the cell's width,
trimmed to what is left of `width` after the columns `c..j-1`. -/
def trimmedWidth (p : RectPacker) (k c j : Nat) (width : Int) : Int :=
  min (p.cellAt k j).Width (width - (p.cellX k j - p.cellX k c))

/-- Height of the cell `(k, j)` inside the block that starts in row `r`: the cell's height,
trimmed to what is left of `height` after the rows `r..k-1`. -/
def trimmedHeight (p : RectPacker) (r j k : Nat) (height : Int) : Int :=
  min (p.cellAt k j).Height (height - (p.cellY k j - p.cellY r j))

/-- Outer-edge score of row `k` of the block, over its first `n` columns `c, .., c + n - 1`. -/
def outerEdgeScore.row (p : RectPacker) (r c r2 c2 : Nat) (width height : Int) (k : Nat) :
    Nat → Option Int
  | 0 => some 0
  | n + 1 => do
    let acc ← outerEdgeScore.row p r c r2 c2 width height k n
    let j := c + n
    let e ← p.GetExposedSurfaceArea
      ⟨p.trimmedWidth k c j width, p.trimmedHeight r j k height, false⟩ (k * p.m_Columns + j)
      (j == c) (k == r) (j == c2) (k == r2)
    pure (acc + e)

/-- Outer-edge score of the first `m` rows `r, .., r + m - 1` of the block. -/
def outerEdgeScore.rows (p : RectPacker) (r c r2 c2 : Nat) (width height : Int) :
    Nat → Option Int
  | 0 => some 0
  | m + 1 => do
    let acc ← outerEdgeScore.rows p r c r2 c2 width height m
    let e ← outerEdgeScore.row p r c r2 c2 width height (r + m) (c2 - c + 1)
    pure (acc + e)

/-- The score the specification gives the block of rows `r..r2` and columns `c..c2`: the sum
over its cells of `GetExposedSurfaceArea` at the trimmed size, with the left edge counted in
column `c` only, the top edge in row `r` only, the right edge in column `c2` only and the
bottom edge in row `r2` only. -/
def outerEdgeScore (p : RectPacker) (r c r2 c2 : Nat) (width height : Int) : Option Int :=
  outerEdgeScore.rows p r c r2 c2 width height (r2 - r + 1)

end RectPacker

/-! ## Index arithmetic and list surgery -/

theorem idx_lt {rows cols r c : Nat} (hr : r < rows) (hc : c < cols) :
    r * cols + c < rows * cols := by
  have h : (r + 1) * cols ≤ rows * cols := Nat.mul_le_mul_right cols hr
  rw [Nat.succ_mul] at h
  omega

theorem idx_mod {cols c : Nat} (r : Nat) (hc : c < cols) : (r * cols + c) % cols = c := by
  rw [Nat.mul_comm, Nat.mul_add_mod, Nat.mod_eq_of_lt hc]

theorem idx_div {cols c : Nat} (r : Nat) (hc : c < cols) : (r * cols + c) / cols = r := by
  have hpos : 0 < cols := by omega
  rw [Nat.mul_comm, Nat.mul_add_div hpos, Nat.div_eq_of_lt hc, Nat.add_zero]

theorem idx_decomp {cols : Nat} (hpos : 0 < cols) (i : Nat) :
    i = (i / cols) * cols + i % cols ∧ i % cols < cols := by
  refine ⟨?_, Nat.mod_lt _ hpos⟩
  have := Nat.div_add_mod i cols
  rw [Nat.mul_comm] at this
  omega

theorem idx_row_lt {rows cols i : Nat} (h : i < rows * cols) : i / cols < rows := by
  rw [Nat.mul_comm] at h
  exact Nat.div_lt_of_lt_mul h

namespace RectPacker

theorem getElem?_insertAt (l : List BoundingBox) (i : Nat) (x : BoundingBox) (j : Nat)
    (hi : i ≤ l.length) :
    (insertAt l i x)[j]? = if j < i then l[j]? else if j = i then some x else l[j - 1]? := by
  unfold insertAt
  rw [List.getElem?_append]
  simp only [List.length_take, Nat.min_eq_left hi]
  by_cases h1 : j < i
  · simp [h1, List.getElem?_take]
  · simp only [h1, if_false]
    by_cases h2 : j = i
    · simp [h2]
    · simp only [h2, if_false]
      have : j - i = (j - i - 1) + 1 := by omega
      rw [this, List.getElem?_cons_succ, List.getElem?_drop]
      congr 1
      omega

theorem length_insertAt (l : List BoundingBox) (i : Nat) (x : BoundingBox) :
    (insertAt l i x).length = l.length + 1 := by
  unfold insertAt
  simp only [List.length_append, List.length_take, List.length_cons, List.length_drop]
  omega

theorem getElem?_insertMany (l : List BoundingBox) (i n : Nat) (x : BoundingBox) (j : Nat)
    (hi : i ≤ l.length) :
    (insertMany l i n x)[j]? =
      if j < i then l[j]? else if j < i + n then some x else l[j - n]? := by
  unfold insertMany
  rw [List.getElem?_append]
  simp only [List.length_take, Nat.min_eq_left hi]
  by_cases h1 : j < i
  · simp [h1, List.getElem?_take]
  · simp only [h1, if_false]
    rw [List.getElem?_append]
    simp only [List.length_replicate]
    by_cases h2 : j < i + n
    · have h3 : j - i < n := by omega
      simp [h2, h3]
    · have h3 : ¬ j - i < n := by omega
      simp only [h2, h3, if_false]
      rw [List.getElem?_drop]
      congr 1
      omega

theorem length_insertMany (l : List BoundingBox) (i n : Nat) (x : BoundingBox) :
    (insertMany l i n x).length = l.length + n := by
  unfold insertMany
  simp only [List.length_append, List.length_take, List.length_replicate, List.length_drop]
  omega

end RectPacker

/-! ## Prefix sums -/

theorem psum_congr {f g : Nat → Int} (n : Nat) (h : ∀ i, i < n → f i = g i) :
    psum f n = psum g n := by
  induction n with
  | zero => rfl
  | succ n ih =>
    simp only [psum]
    rw [ih (fun i hi => h i (by omega)), h n (by omega)]

theorem psum_mono {f : Nat → Int} {n : Nat} (h : ∀ i, i < n → 1 ≤ f i) {a b : Nat}
    (hab : a ≤ b) (hb : b ≤ n) : psum f a + ((b - a : Nat) : Int) ≤ psum f b := by
  induction b with
  | zero =>
    have : a = 0 := by omega
    subst this
    simp
  | succ b ih =>
    by_cases hab' : a = b + 1
    · subst hab'
      simp
    · have h1 := ih (by omega) (by omega)
      have h2 := h b (by omega)
      simp only [psum]
      have : ((b + 1 - a : Nat) : Int) = ((b - a : Nat) : Int) + 1 := by omega
      omega

theorem psum_lt {f : Nat → Int} {n : Nat} (h : ∀ i, i < n → 1 ≤ f i) {a b : Nat}
    (hab : a < b) (hb : b ≤ n) : psum f a < psum f b := by
  have := psum_mono h (Nat.le_of_lt hab) hb
  omega

theorem psum_le {f : Nat → Int} {n : Nat} (h : ∀ i, i < n → 1 ≤ f i) {a b : Nat}
    (hab : a ≤ b) (hb : b ≤ n) : psum f a ≤ psum f b := by
  have := psum_mono h hab hb
  omega

theorem psum_nonneg {f : Nat → Int} {n : Nat} (h : ∀ i, i < n → 1 ≤ f i) {a : Nat}
    (ha : a ≤ n) : 0 ≤ psum f a := by
  have := psum_le h (Nat.zero_le a) ha
  simpa [psum] using this

namespace Tbl

theorem X_succ (T : Tbl) (c : Nat) : T.X (c + 1) = T.X c + T.cw c := rfl

theorem Y_succ (T : Tbl) (r : Nat) : T.Y (r + 1) = T.Y r + T.rh r := rfl

theorem X_zero (T : Tbl) : T.X 0 = 0 := rfl

theorem Y_zero (T : Tbl) : T.Y 0 = 0 := rfl

theorem X_lt {T : Tbl} (hv : T.Valid) {a b : Nat} (hab : a < b) (hb : b ≤ T.cols) :
    T.X a < T.X b := psum_lt hv.cw_pos hab hb

theorem X_le {T : Tbl} (hv : T.Valid) {a b : Nat} (hab : a ≤ b) (hb : b ≤ T.cols) :
    T.X a ≤ T.X b := psum_le hv.cw_pos hab hb

theorem Y_lt {T : Tbl} (hv : T.Valid) {a b : Nat} (hab : a < b) (hb : b ≤ T.rows) :
    T.Y a < T.Y b := psum_lt hv.rh_pos hab hb

theorem Y_le {T : Tbl} (hv : T.Valid) {a b : Nat} (hab : a ≤ b) (hb : b ≤ T.rows) :
    T.Y a ≤ T.Y b := psum_le hv.rh_pos hab hb

end Tbl

/-! ## Reading a stored table -/

namespace Stores

theorem get_idx {boxes : List BoundingBox} {rows cols : Nat} {g : Nat → Nat → BoundingBox}
    (h : Stores boxes rows cols g) {i : Nat} (hi : i < rows * cols) :
    boxes[i]? = some (g (i / cols) (i % cols)) := by
  have hpos : 0 < cols := by
    rcases Nat.eq_zero_or_pos cols with h0 | h0
    · subst h0; simp at hi
    · exact h0
  have hd := idx_decomp hpos i
  have := h.get (i / cols) (i % cols) (idx_row_lt hi) hd.2
  rw [← hd.1] at this
  exact this

end Stores

namespace Represents

theorem get {p : RectPacker} {T : Tbl} (h : Represents p T) {r c : Nat}
    (hr : r < T.rows) (hc : c < T.cols) :
    p.m_BoundingBoxes[r * T.cols + c]? = some (T.cell r c) := h.stores.get r c hr hc

theorem get' {p : RectPacker} {T : Tbl} (h : Represents p T) {r c : Nat}
    (hr : r < T.rows) (hc : c < T.cols) :
    p.m_BoundingBoxes[r * p.m_Columns + c]? = some (T.cell r c) := by
  rw [h.cols]; exact h.get hr hc

theorem cellAt {p : RectPacker} {T : Tbl} (h : Represents p T) {r c : Nat}
    (hr : r < T.rows) (hc : c < T.cols) : p.cellAt r c = T.cell r c := by
  unfold RectPacker.cellAt
  rw [List.getD_eq_getElem?_getD, h.get' hr hc]
  rfl

theorem cellX {p : RectPacker} {T : Tbl} (h : Represents p T) {r c : Nat}
    (hr : r < T.rows) (hc : c ≤ T.cols) : p.cellX r c = T.X c := by
  unfold RectPacker.cellX Tbl.X
  apply psum_congr
  intro j hj
  rw [h.cellAt hr (by omega)]
  rfl

theorem cellY {p : RectPacker} {T : Tbl} (h : Represents p T) {r c : Nat}
    (hr : r ≤ T.rows) (hc : c < T.cols) : p.cellY r c = T.Y r := by
  unfold RectPacker.cellY Tbl.Y
  apply psum_congr
  intro k hk
  rw [h.cellAt (by omega) hc]
  rfl

theorem filledAt_iff {p : RectPacker} {T : Tbl} (h : Represents p T) (px py : Int) :
    p.FilledAt px py ↔ T.Covered px py := by
  unfold RectPacker.FilledAt Tbl.Covered
  constructor
  · rintro ⟨r, hr, c, hc, hf, hx⟩
    rw [h.rows] at hr
    rw [h.cols] at hc
    refine ⟨r, c, hr, hc, ?_⟩
    unfold RectPacker.cellRect Rect.Contains at hx
    simp only [h.cellAt hr hc, h.cellX hr (Nat.le_of_lt hc), h.cellY (Nat.le_of_lt hr) hc] at hf hx
    simp only [Tbl.cell] at hf hx
    rw [Tbl.X_succ, Tbl.Y_succ]
    exact ⟨hf, hx⟩
  · rintro ⟨r, c, hr, hc, hf, hx⟩
    refine ⟨r, by rw [h.rows]; exact hr, c, by rw [h.cols]; exact hc, ?_⟩
    unfold RectPacker.cellRect Rect.Contains
    simp only [h.cellAt hr hc, h.cellX hr (Nat.le_of_lt hc), h.cellY (Nat.le_of_lt hr) hc]
    simp only [Tbl.cell]
    rw [Tbl.X_succ, Tbl.Y_succ] at hx
    exact ⟨hf, hx⟩

end Represents

/-! ## `GetTransform` and `GetExposedSurfaceArea` on a stored table -/

namespace Represents

theorem sumWidths_eq {p : RectPacker} {T : Tbl} (h : Represents p T) {c : Nat}
    (hc : c ≤ T.cols) : RectPacker.GetTransform.sumWidths p.m_BoundingBoxes c = some (T.X c) := by
  induction c with
  | zero => rfl
  | succ c ih =>
    have hg := h.get (r := 0) (c := c) h.valid.rows_pos (by omega)
    simp only [Nat.zero_mul, Nat.zero_add] at hg
    simp only [RectPacker.GetTransform.sumWidths, ih (by omega), hg, Option.bind_eq_bind,
      Option.some_bind, Option.pure_def, Tbl.X_succ]
    rfl

theorem sumHeights_eq {p : RectPacker} {T : Tbl} (h : Represents p T) {r : Nat}
    (hr : r ≤ T.rows) :
    RectPacker.GetTransform.sumHeights p.m_BoundingBoxes T.cols r = some (T.Y r) := by
  induction r with
  | zero => rfl
  | succ r ih =>
    have hg := h.get (r := r) (c := 0) (by omega) h.valid.cols_pos
    simp only [Nat.add_zero] at hg
    simp only [RectPacker.GetTransform.sumHeights, ih (by omega), hg, Option.bind_eq_bind,
      Option.some_bind, Option.pure_def, Tbl.Y_succ]
    rfl

theorem getTransform_eq {p : RectPacker} {T : Tbl} (h : Represents p T) {r c : Nat}
    (hr : r < T.rows) (hc : c < T.cols) (width height : Int) (rotated : Bool) :
    p.GetTransform (r * T.cols + c) width height rotated = some ⟨T.X c, T.Y r, rotated⟩ := by
  unfold RectPacker.GetTransform
  simp only [h.cols, idx_mod r hc, idx_div r hc, h.sumWidths_eq (Nat.le_of_lt hc),
    h.sumHeights_eq (Nat.le_of_lt hr), Option.bind_eq_bind, Option.some_bind, Option.pure_def]

theorem get_left {p : RectPacker} {T : Tbl} (h : Represents p T) {r c : Nat}
    (hr : r < T.rows) (hc : c < T.cols) (h0 : c ≠ 0) :
    p.m_BoundingBoxes[r * T.cols + c - 1]? = some (T.cell r (c - 1)) := by
  have := h.get (r := r) (c := c - 1) hr (by omega)
  rw [← this]; congr 1; omega

theorem get_above {p : RectPacker} {T : Tbl} (h : Represents p T) {r c : Nat}
    (hr : r < T.rows) (hc : c < T.cols) (h0 : T.cols < r * T.cols + c) :
    p.m_BoundingBoxes[r * T.cols + c - T.cols]? = some (T.cell (r - 1) c) := by
  have hr0 : r ≠ 0 := by
    rintro rfl
    simp at h0
    omega
  have := h.get (r := r - 1) (c := c) (by omega) hc
  rw [← this]; congr 1
  obtain ⟨k, rfl⟩ : ∃ k, r = k + 1 := ⟨r - 1, by omega⟩
  simp only [Nat.add_sub_cancel, Nat.succ_mul]
  omega

theorem get_right {p : RectPacker} {T : Tbl} (h : Represents p T) {r c : Nat}
    (hr : r < T.rows) (hc : c + 1 < T.cols) :
    p.m_BoundingBoxes[r * T.cols + c + 1]? = some (T.cell r (c + 1)) := by
  have := h.get (r := r) (c := c + 1) hr hc
  rw [← this]; congr 1

theorem get_below {p : RectPacker} {T : Tbl} (h : Represents p T) {r c : Nat}
    (hr : r + 1 < T.rows) (hc : c < T.cols) :
    p.m_BoundingBoxes[r * T.cols + c + T.cols]? = some (T.cell (r + 1) c) := by
  have := h.get (r := r + 1) (c := c) hr hc
  rw [← this]; congr 1
  rw [Nat.succ_mul]; omega

theorem idx_succ_mod {cols : Nat} (r : Nat) {c : Nat} (hc : c < cols) :
    (r * cols + c + 1) % cols = 0 ↔ c + 1 = cols := by
  by_cases h : c + 1 = cols
  · have : r * cols + c + 1 = (r + 1) * cols := by rw [Nat.succ_mul]; omega
    rw [this]
    simp [h]
  · have h2 : c + 1 < cols := by omega
    have := idx_mod r h2
    rw [← Nat.add_assoc] at this
    rw [this]
    simp [h]

theorem idx_below_lt {rows cols : Nat} (r : Nat) {c : Nat} (hc : c < cols) :
    r * cols + c + cols < rows * cols ↔ r + 1 < rows := by
  have e : r * cols + c + cols = (r + 1) * cols + c := by rw [Nat.succ_mul]; omega
  rw [e]
  constructor
  · intro h
    by_contra hn
    have : rows * cols ≤ (r + 1) * cols := Nat.mul_le_mul_right cols (by omega)
    omega
  · intro h
    exact idx_lt h hc

theorem esa_left {p : RectPacker} {T : Tbl} (h : Represents p T) {r c : Nat}
    (hr : r < T.rows) (hc : c < T.cols) (test : BoundingBox) (left : Bool) (e : Int) :
    RectPacker.GetExposedSurfaceArea.left p test (r * T.cols + c) left e
      = some (e + (if left = true ∧ c ≠ 0 then
          (if T.fill r (c - 1) = true then 0 else test.Height) else 0)) := by
  unfold RectPacker.GetExposedSurfaceArea.left
  simp only [h.cols, idx_mod r hc]
  have hL : (left && (c != 0)) = true ↔ (left = true ∧ c ≠ 0) := by simp
  by_cases c1 : left = true ∧ c ≠ 0
  · rw [if_pos (hL.mpr c1), if_pos c1, h.get_left hr hc c1.2]
    rfl
  · rw [if_neg (fun hh => c1 (hL.mp hh)), if_neg c1]
    simp

theorem esa_top {p : RectPacker} {T : Tbl} (h : Represents p T) {r c : Nat}
    (hr : r < T.rows) (hc : c < T.cols) (test : BoundingBox) (top : Bool) (e : Int) :
    RectPacker.GetExposedSurfaceArea.top p test (r * T.cols + c) top e
      = some (e + (if top = true ∧ T.cols < r * T.cols + c then
          (if T.fill (r - 1) c = true then 0 else test.Width) else 0)) := by
  unfold RectPacker.GetExposedSurfaceArea.top
  simp only [h.cols]
  have hT : (top && decide (((r * T.cols + c : Nat) : Int) - (T.cols : Int) > 0)) = true ↔
      (top = true ∧ T.cols < r * T.cols + c) := by
    simp only [Bool.and_eq_true, decide_eq_true_eq]
    constructor <;> rintro ⟨a, b⟩ <;> exact ⟨a, by omega⟩
  by_cases c2 : top = true ∧ T.cols < r * T.cols + c
  · rw [if_pos (hT.mpr c2), if_pos c2, h.get_above hr hc c2.2]
    rfl
  · rw [if_neg (fun hh => c2 (hT.mp hh)), if_neg c2]
    simp

theorem esa_right {p : RectPacker} {T : Tbl} (h : Represents p T) {r c : Nat}
    (hr : r < T.rows) (hc : c < T.cols) (test : BoundingBox) (right : Bool) (e : Int) :
    RectPacker.GetExposedSurfaceArea.right p test (T.cell r c) (r * T.cols + c) right e
      = some (e + (if right = true then
          (if test.Width = T.cw c then
            (if c + 1 ≠ T.cols ∧ T.fill r (c + 1) = false then test.Height else 0)
           else test.Height) else 0)) := by
  unfold RectPacker.GetExposedSurfaceArea.right
  simp only [h.cols, ne_eq, idx_succ_mod r hc, Tbl.cell]
  by_cases c0 : right = true
  · by_cases c1 : test.Width = T.cw c
    · by_cases c3 : c + 1 = T.cols
      · simp [c0, c1, c3]
      · have := h.get_right hr (c := c) (by omega)
        simp only [c0, c1, c3, if_true, ne_eq, not_false_eq_true, true_and, this,
          Option.bind_eq_bind, Option.some_bind, Option.pure_def, Tbl.cell]
        cases T.fill r (c + 1) <;> simp
    · simp [c0, c1]
  · simp [c0]

theorem esa_bottom {p : RectPacker} {T : Tbl} (h : Represents p T) {r c : Nat}
    (hc : c < T.cols) (test : BoundingBox) (bottom : Bool) (e : Int) :
    RectPacker.GetExposedSurfaceArea.bottom p test (T.cell r c) (r * T.cols + c) bottom e
      = some (e + (if bottom = true then
          (if test.Height = T.rh r then
            (if r + 1 < T.rows ∧ T.fill (r + 1) c = false then test.Width else 0)
           else test.Width) else 0)) := by
  unfold RectPacker.GetExposedSurfaceArea.bottom
  simp only [h.cols, h.stores.len, idx_below_lt r hc, Tbl.cell]
  by_cases c0 : bottom = true
  · by_cases c1 : test.Height = T.rh r
    · by_cases c4 : r + 1 < T.rows
      · have := h.get_below c4 hc
        simp only [c0, c1, c4, if_true, true_and, this,
          Option.bind_eq_bind, Option.some_bind, Option.pure_def, Tbl.cell]
        cases T.fill (r + 1) c <;> simp
      · simp [c0, c1, c4]
    · simp [c0, c1]
  · simp [c0]

theorem esa_eq {p : RectPacker} {T : Tbl} (h : Represents p T) {r c : Nat}
    (hr : r < T.rows) (hc : c < T.cols) (test : BoundingBox) (left top right bottom : Bool) :
    p.GetExposedSurfaceArea test (r * T.cols + c) left top right bottom
      = some (T.esa test r c left top right bottom) := by
  unfold RectPacker.GetExposedSurfaceArea Tbl.esa
  simp only [h.get hr hc, h.esa_left hr hc, h.esa_top hr hc, h.esa_right hr hc,
    h.esa_bottom hc, Option.bind_eq_bind, Option.some_bind, Option.pure_def, Int.zero_add]

end Represents

/-! ## The combine scan `TryCombine` on a stored table -/

namespace Tbl

theorem ColSpan.unique_col {T : Tbl} (hv : T.Valid) {c : Nat} {w : Int} {a b : Nat}
    (ha : T.ColSpan c w a) (hb : T.ColSpan c w b) : a = b := by
  obtain ⟨_, ha2, ha3, ha4⟩ := ha
  obtain ⟨_, hb2, hb3, hb4⟩ := hb
  rcases Nat.lt_trichotomy a b with hlt | heq | hgt
  · have := X_le hv (a := a + 1) (b := b) hlt (Nat.le_of_lt hb2)
    omega
  · exact heq
  · have := X_le hv (a := b + 1) (b := a) hgt (Nat.le_of_lt ha2)
    omega

theorem RowSpan.unique_row {T : Tbl} (hv : T.Valid) {r : Nat} {h : Int} {a b : Nat}
    (ha : T.RowSpan r h a) (hb : T.RowSpan r h b) : a = b := by
  obtain ⟨_, ha2, ha3, ha4⟩ := ha
  obtain ⟨_, hb2, hb3, hb4⟩ := hb
  rcases Nat.lt_trichotomy a b with hlt | heq | hgt
  · have := Y_le hv (a := a + 1) (b := b) hlt (Nat.le_of_lt hb2)
    omega
  · exact heq
  · have := Y_le hv (a := b + 1) (b := a) hgt (Nat.le_of_lt ha2)
    omega

end Tbl

namespace Represents

theorem tryCombine_inner {p : RectPacker} {T : Tbl} (h : Represents p T) (width height : Int)
    (combined : BoundingBox) {k : Nat} (c : Nat) (hk : k < T.rows) :
    ∀ (fuel j : Nat) (s w e : Int), j < T.cols → T.cols - j ≤ fuel → w = T.X j - T.X c →
      w < width →
    ∃ res, RectPacker.TryCombine.inner p width height combined fuel (k * T.cols + j) s w e
        = some res ∧
      ((∃ c2 s' w' e', res = some (k * T.cols + c2, s', w', e')
          ∧ s' = s - ((c2 - j : Nat) : Int) ∧ w' = T.X (c2 + 1) - T.X c
          ∧ j ≤ c2 ∧ c2 < T.cols ∧ T.X c2 - T.X c < width ∧ width ≤ T.X (c2 + 1) - T.X c
          ∧ ∀ j', j < j' → j' ≤ c2 → T.fill k j' = false)
       ∨ (res = none ∧ ¬ ∃ c2, j ≤ c2 ∧ c2 < T.cols ∧ width ≤ T.X (c2 + 1) - T.X c
          ∧ ∀ j', j < j' → j' ≤ c2 → T.fill k j' = false)) := by
  intro fuel
  induction fuel with
  | zero => intro j s w e hj hf; omega
  | succ fuel ih =>
    intro j s w e hj hf hw hlt
    simp only [RectPacker.TryCombine.inner, h.get hk hj, h.esa_eq hk hj, Option.bind_eq_bind,
      Option.some_bind, Option.pure_def, h.cols, idx_succ_mod k hj]
    have hcw : (T.cell k j).Width = T.cw j := rfl
    have hX : w + T.cw j = T.X (j + 1) - T.X c := by rw [Tbl.X_succ]; omega
    by_cases h1 : w + (T.cell k j).Width ≥ width
    · rw [if_pos h1]
      refine ⟨_, rfl, Or.inl ⟨j, _, _, _, rfl, by simp, by rw [hcw, hX],
        Nat.le_refl j, hj, by omega, by rw [← hX]; exact h1, ?_⟩⟩
      intro j' h1' h2'; omega
    · rw [if_neg h1]
      have hnot : ∀ c2, c2 < T.cols → width ≤ T.X (c2 + 1) - T.X c → c2 ≠ j := by
        rintro c2 _ hc2w rfl
        rw [hcw, hX] at h1
        exact h1 hc2w
      by_cases h2 : j + 1 = T.cols
      · rw [if_pos h2]
        refine ⟨_, rfl, Or.inr ⟨rfl, ?_⟩⟩
        rintro ⟨c2, hc2a, hc2b, hc2w, _⟩
        exact hnot c2 hc2b hc2w (by omega)
      · rw [if_neg h2]
        have hj1 : j + 1 < T.cols := by omega
        rw [h.get_right hk hj1]
        simp only [Option.some_bind]
        have hfl : (T.cell k (j + 1)).Filled = T.fill k (j + 1) := rfl
        by_cases h3 : T.fill k (j + 1) = true
        · rw [hfl, if_pos h3]
          refine ⟨_, rfl, Or.inr ⟨rfl, ?_⟩⟩
          rintro ⟨c2, hc2a, hc2b, hc2w, hfree⟩
          have hne := hnot c2 hc2b hc2w
          have := hfree (j + 1) (by omega) (by omega)
          rw [this] at h3
          exact Bool.noConfusion h3
        · rw [hfl, if_neg h3]
          have h3' : T.fill k (j + 1) = false := by simpa using h3
          have hidx : k * T.cols + j + 1 = k * T.cols + (j + 1) := by omega
          rw [hidx]
          rw [hcw] at h1
          obtain ⟨res, hres, hcase⟩ := ih (j + 1) (s - 1) (w + (T.cell k j).Width)
            (e + T.esa _ k j _ _ _ _) hj1 (by omega) (by rw [hcw, hX]) (by rw [hcw]; omega)
          refine ⟨res, hres, ?_⟩
          rcases hcase with ⟨c2, s', w', e', hr, hs', hw', ha, hb, hc, hd, hfree⟩ | ⟨hr, hno⟩
          · left
            refine ⟨c2, s', w', e', hr, ?_, hw', by omega, hb, hc, hd, ?_⟩
            · have : ((c2 - j : Nat) : Int) = ((c2 - (j + 1) : Nat) : Int) + 1 := by omega
              omega
            · intro j' hj' hj''
              by_cases hje : j' = j + 1
              · rw [hje]; exact h3'
              · exact hfree j' (by omega) hj''
          · right
            refine ⟨hr, ?_⟩
            rintro ⟨c2, hc2a, hc2b, hc2w, hfree⟩
            have hne := hnot c2 hc2b hc2w
            exact hno ⟨c2, by omega, hc2b, hc2w, fun j' a b => hfree j' (by omega) b⟩

theorem tryCombine_outer {p : RectPacker} {T : Tbl} (h : Represents p T) (width height : Int)
    {r c : Nat} (hc : c < T.cols) (hw : 0 < width) :
    ∀ (fuel k : Nat) (combined : BoundingBox) (e : Int), k < T.rows → r ≤ k →
      T.rows - k ≤ fuel → combined.Height = T.Y k - T.Y r → T.Y k - T.Y r < height →
      T.fill k c = false →
    ∃ res, RectPacker.TryCombine.outer p width height fuel (k * T.cols + c) combined e
        = some res ∧
      (res.isSome = true ↔ ∃ r2 c2, k ≤ r2 ∧ r2 < T.rows ∧ T.Y r2 - T.Y r < height ∧
        height ≤ T.Y (r2 + 1) - T.Y r ∧ T.ColSpan c width c2 ∧
        ∀ k' j, k ≤ k' → k' ≤ r2 → c ≤ j → j ≤ c2 → T.fill k' j = false) := by
  intro fuel
  induction fuel with
  | zero => intro k combined e hk; omega
  | succ fuel ih =>
    intro k combined e hk hrk hf hcomb hlt hfree
    have hlen : T.cols - c ≤ p.m_BoundingBoxes.length := by
      rw [h.stores.len]
      have := Nat.le_mul_of_pos_left T.cols h.valid.rows_pos
      omega
    obtain ⟨res, hres, hcase⟩ := h.tryCombine_inner width height combined c hk
      p.m_BoundingBoxes.length c (p.m_Columns : Int) 0 e hc hlen (by omega) hw
    simp only [RectPacker.TryCombine.outer, hres, Option.bind_eq_bind, Option.some_bind,
      Option.pure_def]
    rcases hcase with ⟨c2, s', w', e', hr, hs', hw', ha, hb, hc3, hd, hfr⟩ | ⟨hr, hno⟩
    · subst hr
      simp only [h.get hk hb, Option.some_bind]
      have hch : (T.cell k c2).Height = T.rh k := rfl
      have hY : combined.Height + T.rh k = T.Y (k + 1) - T.Y r := by rw [Tbl.Y_succ]; omega
      have hspan : T.ColSpan c width c2 := ⟨ha, hb, hc3, hd⟩
      have hrow : ∀ j, c ≤ j → j ≤ c2 → T.fill k j = false := by
        intro j hj1 hj2
        by_cases hjc : j = c
        · rw [hjc]; exact hfree
        · exact hfr j (by omega) hj2
      by_cases h1 : combined.Height + (T.cell k c2).Height ≥ height
      · rw [if_pos h1]
        refine ⟨_, rfl, ?_⟩
        simp only [Option.isSome_some, true_iff]
        refine ⟨k, c2, Nat.le_refl k, hk, hlt, by rw [← hY]; exact h1, hspan, ?_⟩
        intro k' j hk1 hk2 hj1 hj2
        have : k' = k := by omega
        rw [this]
        exact hrow j hj1 hj2
      · rw [if_neg h1]
        rw [hch, hY] at h1
        have hnext : ((k * T.cols + c2 : Nat) : Int) + s' = (((k + 1) * T.cols + c : Nat) : Int) := by
          rw [hs', h.cols, Nat.succ_mul]
          push_cast
          omega
        rw [hnext]
        have hnotk : ∀ r2, k ≤ r2 → height ≤ T.Y (r2 + 1) - T.Y r → k + 1 ≤ r2 := by
          intro r2 hr2 hh
          by_contra hcon
          have : r2 = k := by omega
          rw [this] at hh
          exact h1 hh
        by_cases h2 : k + 1 < T.rows
        · have hidx := idx_lt h2 hc
          have hcond : ¬ ((((k + 1) * T.cols + c : Nat) : Int) < 0 ∨
              (((k + 1) * T.cols + c : Nat) : Int) ≥ (p.m_BoundingBoxes.length : Int)) := by
            rw [h.stores.len]; omega
          rw [if_neg hcond]
          simp only [Int.toNat_ofNat, h.get h2 hc, Option.some_bind]
          have hfl : (T.cell (k + 1) c).Filled = T.fill (k + 1) c := rfl
          by_cases h3 : T.fill (k + 1) c = true
          · rw [hfl, if_pos h3]
            refine ⟨_, rfl, ?_⟩
            simp only [Option.isSome_none, Bool.false_eq_true, false_iff]
            rintro ⟨r2, c2', hr2a, hr2b, hr2c, hr2d, hsp, hfree2⟩
            have := hfree2 (k + 1) c (by omega) (hnotk r2 hr2a hr2d) (Nat.le_refl c) hsp.1
            rw [this] at h3
            exact Bool.noConfusion h3
          · rw [hfl, if_neg h3]
            have h3' : T.fill (k + 1) c = false := by simpa using h3
            obtain ⟨res, hres2, hiff⟩ := ih (k + 1)
              ⟨w', combined.Height + (T.cell k c2).Height, combined.Filled⟩ e' h2 (by omega)
              (by omega) (by simp only [hch]; exact hY) (by omega) h3'
            refine ⟨res, hres2, ?_⟩
            rw [hiff]
            constructor
            · rintro ⟨r2, c2', hr2a, hr2b, hr2c, hr2d, hsp, hfree2⟩
              refine ⟨r2, c2', by omega, hr2b, hr2c, hr2d, hsp, ?_⟩
              intro k' j hk1 hk2 hj1 hj2
              by_cases hkk : k' = k
              · have hcc : c2' = c2 := Tbl.ColSpan.unique_col h.valid hsp hspan
                rw [hkk]
                exact hrow j hj1 (by omega)
              · exact hfree2 k' j (by omega) hk2 hj1 hj2
            · rintro ⟨r2, c2', hr2a, hr2b, hr2c, hr2d, hsp, hfree2⟩
              refine ⟨r2, c2', hnotk r2 hr2a hr2d, hr2b, hr2c, hr2d, hsp, ?_⟩
              intro k' j hk1 hk2 hj1 hj2
              exact hfree2 k' j (by omega) hk2 hj1 hj2
        · have hge : T.rows * T.cols ≤ (k + 1) * T.cols := Nat.mul_le_mul_right T.cols (by omega)
          have hcond : ((((k + 1) * T.cols + c : Nat) : Int) < 0 ∨
              (((k + 1) * T.cols + c : Nat) : Int) ≥ (p.m_BoundingBoxes.length : Int)) := by
            rw [h.stores.len]; right; omega
          rw [if_pos hcond]
          refine ⟨_, rfl, ?_⟩
          simp only [Option.isSome_none, Bool.false_eq_true, false_iff]
          rintro ⟨r2, c2', hr2a, hr2b, hr2c, hr2d, hsp, hfree2⟩
          have := hnotk r2 hr2a hr2d
          omega
    · subst hr
      refine ⟨_, rfl, ?_⟩
      simp only [Option.isSome_none, Bool.false_eq_true, false_iff]
      rintro ⟨r2, c2', hr2a, hr2b, hr2c, hr2d, hsp, hfree2⟩
      exact hno ⟨c2', hsp.1, hsp.2.1, hsp.2.2.2, fun j' a b =>
        hfree2 k j' (Nat.le_refl k) hr2a (by omega) b⟩

/-- Correctness of `TryCombine` on a free start cell of a stored table: it returns (no out-of-range access,
enough fuel), and it finds a score exactly when the block of cells that starts at the cell
and covers `width × height` exists and is free. -/
theorem tryCombine_spec {p : RectPacker} {T : Tbl} (h : Represents p T) {r c : Nat}
    (hr : r < T.rows) (hc : c < T.cols) (hfree : T.fill r c = false) {width height : Int}
    (hw : 0 < width) (hh : 0 < height) :
    ∃ res, p.TryCombine (r * T.cols + c) width height = some res ∧
      (res.isSome = true ↔ T.BlockFree r c width height) := by
  have hlen : T.rows - r ≤ p.m_BoundingBoxes.length := by
    rw [h.stores.len]
    have := Nat.le_mul_of_pos_right T.rows h.valid.cols_pos
    omega
  obtain ⟨res, hres, hiff⟩ := h.tryCombine_outer width height hc hw p.m_BoundingBoxes.length r
    ⟨0, 0, false⟩ 0 hr (Nat.le_refl r) hlen (by simp) (by omega) hfree
  refine ⟨res, hres, ?_⟩
  rw [hiff]
  unfold Tbl.BlockFree Tbl.RowSpan
  constructor
  · rintro ⟨r2, c2, a, b, c', d, e, f⟩
    exact ⟨r2, c2, ⟨a, b, c', d⟩, e, f⟩
  · rintro ⟨r2, c2, ⟨a, b, c', d⟩, e, f⟩
    exact ⟨r2, c2, a, b, c', d, e, f⟩

end Represents

/-! ## Writing into a stored table, and the block walk `GetCombined` -/

theorem idx_inj {cols r c k j : Nat} (hc : c < cols) (hj : j < cols)
    (h : r * cols + c = k * cols + j) : r = k ∧ c = j := by
  have h1 := idx_div r hc
  have h2 := idx_mod r hc
  rw [h, idx_div k hj] at h1
  rw [h, idx_mod k hj] at h2
  exact ⟨h1.symm, h2.symm⟩

namespace Stores

theorem congr {boxes : List BoundingBox} {rows cols : Nat} {g g' : Nat → Nat → BoundingBox}
    (h : Stores boxes rows cols g) (hg : ∀ r c, r < rows → c < cols → g r c = g' r c) :
    Stores boxes rows cols g' :=
  ⟨h.len, fun r c hr hc => by rw [h.get r c hr hc, hg r c hr hc]⟩

theorem set {boxes : List BoundingBox} {rows cols : Nat} {g : Nat → Nat → BoundingBox}
    (h : Stores boxes rows cols g) {k j : Nat} (hk : k < rows) (hj : j < cols)
    (v : BoundingBox) :
    Stores (boxes.set (k * cols + j) v) rows cols
      (fun a b => if a = k ∧ b = j then v else g a b) := by
  refine ⟨by rw [List.length_set]; exact h.len, ?_⟩
  intro r c hr hc
  rw [List.getElem?_set]
  by_cases he : k * cols + j = r * cols + c
  · obtain ⟨h1, h2⟩ := idx_inj hc hj he.symm
    have hlt : k * cols + j < boxes.length := by rw [h.len]; exact idx_lt hk hj
    rw [if_pos he, if_pos hlt, if_pos ⟨h1, h2⟩]
  · have hne : ¬ (r = k ∧ c = j) := by
      rintro ⟨rfl, rfl⟩
      exact he rfl
    rw [if_neg he, if_neg hne]
    exact h.get r c hr hc

end Stores

namespace Tbl

theorem withFill_valid {T : Tbl} (hv : T.Valid) (F : Nat → Nat → Bool) : (T.withFill F).Valid :=
  ⟨hv.rows_pos, hv.cols_pos, hv.cw_pos, hv.rh_pos⟩

theorem withFill_self (T : Tbl) : T.withFill T.fill = T := rfl

theorem ColSpan.lt_of_lt_col {T : Tbl} (hv : T.Valid) {c c2 j : Nat} {w : Int}
    (hsp : T.ColSpan c w c2) (hj : j < c2) : T.X (j + 1) - T.X c < w := by
  have := X_le hv (a := j + 1) (b := c2) hj (Nat.le_of_lt hsp.2.1)
  have := hsp.2.2.1
  omega

theorem RowSpan.lt_of_lt_row {T : Tbl} (hv : T.Valid) {r r2 k : Nat} {h : Int}
    (hsp : T.RowSpan r h r2) (hk : k < r2) : T.Y (k + 1) - T.Y r < h := by
  have := Y_le hv (a := k + 1) (b := r2) hk (Nat.le_of_lt hsp.2.1)
  have := hsp.2.2.1
  omega

theorem getCombined_inner {T : Tbl} (hv : T.Valid) (width : Int) (fill : Bool)
    {k c c2 : Nat} (hk : k < T.rows) (hsp : T.ColSpan c width c2) :
    ∀ (fuel j : Nat) (boxes : List BoundingBox) (F : Nat → Nat → Bool) (s : Int),
      c ≤ j → j ≤ c2 → c2 - j < fuel → Stores boxes T.rows T.cols (T.withFill F).cell →
    ∃ boxes', RectPacker.GetCombined.inner width fill fuel boxes (k * T.cols + j) s
        (T.X j - T.X c)
        = some (boxes', k * T.cols + c2, s - ((c2 - j : Nat) : Int), T.X (c2 + 1) - T.X c) ∧
      Stores boxes' T.rows T.cols
        (T.withFill (fun a b => if a = k ∧ j ≤ b ∧ b ≤ c2 then fill else F a b)).cell := by
  intro fuel
  induction fuel with
  | zero => intro j boxes F s _ _ hf; omega
  | succ fuel ih =>
    intro j boxes F s hcj hj hf hst
    have hjc : j < T.cols := by have := hsp.2.1; omega
    have hX : T.X j - T.X c + T.cw j = T.X (j + 1) - T.X c := by rw [Tbl.X_succ]; omega
    simp only [RectPacker.GetCombined.inner, hst.get k j hk hjc, Option.bind_eq_bind,
      Option.some_bind, Option.pure_def, Tbl.cell, Tbl.withFill, hX]
    have hst' := hst.set hk hjc ⟨T.cw j, T.rh k, fill⟩
    by_cases h1 : T.X (j + 1) - T.X c ≥ width
    · have hjeq : j = c2 := by
        by_contra hne
        have := hsp.lt_of_lt_col hv (j := j) (by omega)
        omega
      subst hjeq
      rw [if_pos h1]
      refine ⟨_, by simp, hst'.congr ?_⟩
      intro a b _ _
      simp only [Tbl.cell, Tbl.withFill]
      by_cases hab : a = k ∧ b = j
      · have : a = k ∧ j ≤ b ∧ b ≤ j := ⟨hab.1, by omega, by omega⟩
        rw [if_pos hab, if_pos this, hab.1, hab.2]
      · have : ¬ (a = k ∧ j ≤ b ∧ b ≤ j) := fun hh => hab ⟨hh.1, by omega⟩
        rw [if_neg hab, if_neg this]
    · have hjlt : j < c2 := by
        by_contra hne
        have : j = c2 := by omega
        subst this
        exact h1 hsp.2.2.2
      rw [if_neg h1]
      have hidx : k * T.cols + j + 1 = k * T.cols + (j + 1) := by omega
      rw [hidx]
      obtain ⟨boxes', hres, hst2⟩ := ih (j + 1) _
        (fun a b => if a = k ∧ b = j then fill else F a b) (s - 1) (by omega) hjlt (by omega)
        (hst'.congr (by
          intro a b _ _
          simp only [Tbl.cell, Tbl.withFill]
          by_cases hab : a = k ∧ b = j
          · rw [if_pos hab, if_pos hab, hab.1, hab.2]
          · rw [if_neg hab, if_neg hab]))
      refine ⟨boxes', ?_, hst2.congr ?_⟩
      · rw [hres]
        have : ((c2 - j : Nat) : Int) = ((c2 - (j + 1) : Nat) : Int) + 1 := by omega
        rw [this]
        simp only [Option.some.injEq, Prod.mk.injEq, true_and, and_true]
        omega
      · intro a b _ _
        simp only [Tbl.cell, Tbl.withFill]
        by_cases hab : a = k ∧ j ≤ b ∧ b ≤ c2
        · rw [if_pos hab]
          by_cases hab2 : a = k ∧ j + 1 ≤ b ∧ b ≤ c2
          · rw [if_pos hab2]
          · have : a = k ∧ b = j := ⟨hab.1, by omega⟩
            rw [if_neg hab2, if_pos this]
        · have h1' : ¬ (a = k ∧ j + 1 ≤ b ∧ b ≤ c2) := fun hh => hab ⟨hh.1, by omega, hh.2.2⟩
          have h2' : ¬ (a = k ∧ b = j) := fun hh => hab ⟨hh.1, by omega, by omega⟩
          rw [if_neg hab, if_neg h1', if_neg h2']

theorem getCombined_outer {T : Tbl} (hv : T.Valid) (width height : Int) (fill : Bool)
    {r r2 c c2 : Nat} (hrs : T.RowSpan r height r2) (hsp : T.ColSpan c width c2) :
    ∀ (fuel k : Nat) (boxes : List BoundingBox) (F : Nat → Nat → Bool) (combined : BoundingBox),
      r ≤ k → k ≤ r2 → r2 - k < fuel → Stores boxes T.rows T.cols (T.withFill F).cell →
      combined.Height = T.Y k - T.Y r → combined.Filled = true →
    ∃ boxes', RectPacker.GetCombined.outer T.cols width height fill fuel boxes
        (k * T.cols + c) combined
        = some (boxes', ⟨T.X (c2 + 1) - T.X c, T.Y (r2 + 1) - T.Y r, true⟩, r2 * T.cols + c2) ∧
      Stores boxes' T.rows T.cols
        (T.withFill (fun a b =>
          if k ≤ a ∧ a ≤ r2 ∧ c ≤ b ∧ b ≤ c2 then fill else F a b)).cell := by
  intro fuel
  induction fuel with
  | zero => intro k boxes F combined _ _ hf; omega
  | succ fuel ih =>
    intro k boxes F combined hrk hk hf hst hcomb hfl
    have hkr : k < T.rows := by have := hrs.2.1; omega
    have hc2 : c2 < T.cols := hsp.2.1
    have hlen : c2 - c < boxes.length := by
      rw [hst.len]
      have := Nat.le_mul_of_pos_left T.cols hv.rows_pos
      omega
    obtain ⟨boxes1, hres, hst1⟩ := getCombined_inner hv width fill hkr hsp boxes.length c boxes F
      (T.cols : Int) (Nat.le_refl c) hsp.1 hlen hst
    rw [Int.sub_self] at hres
    have hget := hst1.get k c2 hkr hc2
    have hY : combined.Height + T.rh k = T.Y (k + 1) - T.Y r := by rw [Tbl.Y_succ]; omega
    simp only [RectPacker.GetCombined.outer, hres, hget, Option.bind_eq_bind, Option.some_bind,
      Option.pure_def, Tbl.cell, Tbl.withFill, hY]
    by_cases h1 : T.Y (k + 1) - T.Y r ≥ height
    · have hkeq : k = r2 := by
        by_contra hne
        have := hrs.lt_of_lt_row hv (k := k) (by omega)
        omega
      subst hkeq
      rw [if_pos h1]
      refine ⟨boxes1, by rw [hfl], hst1.congr ?_⟩
      intro a b _ _
      simp only [Tbl.cell, Tbl.withFill]
      by_cases hab : a = k ∧ c ≤ b ∧ b ≤ c2
      · have : k ≤ a ∧ a ≤ k ∧ c ≤ b ∧ b ≤ c2 := ⟨by omega, by omega, hab.2⟩
        rw [if_pos hab, if_pos this]
      · have : ¬ (k ≤ a ∧ a ≤ k ∧ c ≤ b ∧ b ≤ c2) := fun hh => hab ⟨by omega, hh.2.2⟩
        rw [if_neg hab, if_neg this]
    · have hklt : k < r2 := by
        by_contra hne
        have : k = r2 := by omega
        subst this
        exact h1 hrs.2.2.2
      rw [if_neg h1]
      have hnext : ((k * T.cols + c2 : Nat) : Int) + ((T.cols : Int) - ((c2 - c : Nat) : Int))
          = (((k + 1) * T.cols + c : Nat) : Int) := by
        rw [Nat.succ_mul]
        push_cast
        have := hsp.1
        omega
      rw [hnext]
      have hnn : ¬ ((((k + 1) * T.cols + c : Nat) : Int) < 0) := by omega
      rw [if_neg hnn]
      simp only [Int.toNat_ofNat]
      obtain ⟨boxes', hres2, hst2⟩ := ih (k + 1) boxes1
        (fun a b => if a = k ∧ c ≤ b ∧ b ≤ c2 then fill else F a b)
        ⟨T.X (c2 + 1) - T.X c, T.Y (k + 1) - T.Y r, combined.Filled⟩
        (by omega) hklt (by omega) hst1 rfl hfl
      refine ⟨boxes', hres2, hst2.congr ?_⟩
      intro a b _ _
      simp only [Tbl.cell, Tbl.withFill]
      by_cases hab : k ≤ a ∧ a ≤ r2 ∧ c ≤ b ∧ b ≤ c2
      · rw [if_pos hab]
        by_cases hab2 : k + 1 ≤ a ∧ a ≤ r2 ∧ c ≤ b ∧ b ≤ c2
        · rw [if_pos hab2]
        · have : a = k ∧ c ≤ b ∧ b ≤ c2 := ⟨by omega, hab.2.2⟩
          rw [if_neg hab2, if_pos this]
      · have h1' : ¬ (k + 1 ≤ a ∧ a ≤ r2 ∧ c ≤ b ∧ b ≤ c2) :=
          fun hh => hab ⟨by omega, hh.2⟩
        have h2' : ¬ (a = k ∧ c ≤ b ∧ b ≤ c2) := fun hh => hab ⟨by omega, by omega, hh.2⟩
        rw [if_neg hab, if_neg h1', if_neg h2']

end Tbl

namespace Represents

theorem withFill {p : RectPacker} {T : Tbl} (h : Represents p T) {boxes : List BoundingBox}
    {F : Nat → Nat → Bool} (hst : Stores boxes T.rows T.cols (T.withFill F).cell) :
    Represents { p with m_BoundingBoxes := boxes } (T.withFill F) :=
  ⟨h.rows, h.cols, hst, Tbl.withFill_valid h.valid F, h.width, h.height⟩

/-- The walk `GetCombined` over the block of a stored table: it returns the size of the
block and its last cell, and sets the fill flag of exactly the cells of the block. -/
theorem getCombined_spec {p : RectPacker} {T : Tbl} (h : Represents p T) {r r2 c c2 : Nat}
    {width height : Int} (hrs : T.RowSpan r height r2) (hsp : T.ColSpan c width c2)
    (fill : Bool) :
    ∃ q, p.GetCombined (r * T.cols + c) width height fill
        = some (q, ⟨T.X (c2 + 1) - T.X c, T.Y (r2 + 1) - T.Y r, true⟩, r2 * T.cols + c2) ∧
      Represents q (T.setBlock r r2 c c2 fill) ∧
      q.m_MaxWidth = p.m_MaxWidth ∧ q.m_MaxHeight = p.m_MaxHeight := by
  have hlen : r2 - r < p.m_BoundingBoxes.length := by
    rw [h.stores.len]
    have := Nat.le_mul_of_pos_right T.rows h.valid.cols_pos
    have := hrs.2.1
    omega
  obtain ⟨boxes', hres, hst⟩ := Tbl.getCombined_outer h.valid width height fill hrs hsp
    p.m_BoundingBoxes.length r p.m_BoundingBoxes T.fill ⟨0, 0, true⟩ (Nat.le_refl r) hrs.1
    hlen h.stores (by simp) rfl
  refine ⟨{ p with m_BoundingBoxes := boxes' }, ?_, h.withFill hst, rfl, rfl⟩
  simp only [RectPacker.GetCombined, h.cols, hres, Option.bind_eq_bind, Option.some_bind,
    Option.pure_def]

end Represents

/-! ## `Segment` on a stored table -/

namespace Tbl

/-- State of the cell sequence after the column loop of `Segment` has split the first `k`
rows: they have one more cell each, the rows below are as before. -/
structure ColInv (T : Tbl) (c0 : Nat) (aw : Int) (k : Nat) (L : List BoundingBox) : Prop where
  len : L.length = T.rows * T.cols + k
  done : ∀ r j, r < k → j < T.cols + 1 → L[r * T.cols + r + j]? = some ((T.splitCol c0 aw).cell r j)
  todo : ∀ r j, k ≤ r → r < T.rows → j < T.cols → L[r * T.cols + k + j]? = some (T.cell r j)

theorem ColInv.step {T : Tbl} {c0 : Nat} {aw : Int} {k : Nat} {L : List BoundingBox}
    (hc0 : c0 < T.cols) (hk : k < T.rows) (h : T.ColInv c0 aw k L) :
    T.ColInv c0 aw (k + 1)
      (RectPacker.insertAt (L.set (k * T.cols + k + c0) ⟨T.cw c0 - aw, T.rh k, T.fill k c0⟩)
        (k * T.cols + k + c0 + 1) ⟨aw, T.rh k, T.fill k c0⟩) := by
  have hidx : k * T.cols + c0 < T.rows * T.cols := idx_lt hk hc0
  have hlen : k * T.cols + k + c0 + 1 ≤ (L.set (k * T.cols + k + c0)
      ⟨T.cw c0 - aw, T.rh k, T.fill k c0⟩).length := by
    rw [List.length_set, h.len]; omega
  have hlt : k * T.cols + k + c0 < L.length := by rw [h.len]; omega
  refine ⟨?_, ?_, ?_⟩
  · rw [RectPacker.length_insertAt, List.length_set, h.len]; omega
  · intro r j hr hj
    rw [RectPacker.getElem?_insertAt _ _ _ _ hlen, List.getElem?_set]
    by_cases hrk : r < k
    · have hmul : (r + 1) * T.cols ≤ k * T.cols := Nat.mul_le_mul_right T.cols hrk
      rw [Nat.succ_mul] at hmul
      rw [if_pos (by omega), if_neg (by omega)]
      exact h.done r j hrk hj
    · have hre : r = k := by omega
      subst hre
      by_cases hj1 : j < c0
      · rw [if_pos (by omega), if_neg (by omega), h.todo r j (Nat.le_refl r) hk (by omega)]
        simp [Tbl.cell, Tbl.splitCol, hj1, Nat.le_of_lt hj1]
      · by_cases hj2 : j = c0
        · subst hj2
          rw [if_pos (by omega), if_pos rfl, if_pos hlt]
          simp [Tbl.cell, Tbl.splitCol]
        · by_cases hj3 : j = c0 + 1
          · subst hj3
            rw [if_neg (by omega), if_pos (by omega)]
            simp [Tbl.cell, Tbl.splitCol]
          · rw [if_neg (by omega), if_neg (by omega)]
            rw [List.getElem?_set, if_neg (by omega)]
            have hq : r * T.cols + r + j - 1 = r * T.cols + r + (j - 1) := by omega
            rw [hq, h.todo r (j - 1) (Nat.le_refl r) hk (by omega)]
            have e1 : ¬ j < c0 := hj1
            have e2 : ¬ j ≤ c0 := by omega
            simp [Tbl.cell, Tbl.splitCol, e1, e2, hj2, hj3]
  · intro r j hr1 hr2 hj
    have hmul : (k + 1) * T.cols ≤ r * T.cols := Nat.mul_le_mul_right T.cols hr1
    rw [Nat.succ_mul] at hmul
    rw [RectPacker.getElem?_insertAt _ _ _ _ hlen, if_neg (by omega), if_neg (by omega),
      List.getElem?_set, if_neg (by omega)]
    have hq : r * T.cols + (k + 1) + j - 1 = r * T.cols + k + j := by omega
    rw [hq]
    exact h.todo r j (by omega) hr2 hj

theorem ColInv.init {T : Tbl} {c0 : Nat} {aw : Int} {L : List BoundingBox}
    (h : Stores L T.rows T.cols T.cell) : T.ColInv c0 aw 0 L :=
  ⟨by rw [h.len]; rfl, fun r j hr _ => absurd hr (Nat.not_lt_zero r),
    fun r j _ hr hj => by rw [Nat.add_zero]; exact h.get r j hr hj⟩

theorem ColInv.final {T : Tbl} {c0 : Nat} {aw : Int} {L : List BoundingBox}
    (h : T.ColInv c0 aw T.rows L) :
    Stores L (T.splitCol c0 aw).rows (T.splitCol c0 aw).cols (T.splitCol c0 aw).cell := by
  refine ⟨?_, ?_⟩
  · rw [h.len]
    show T.rows * T.cols + T.rows = T.rows * (T.cols + 1)
    rw [Nat.mul_succ]
  · intro r j hr hj
    show L[r * (T.cols + 1) + j]? = _
    rw [Nat.mul_succ]
    exact h.done r j hr hj

theorem columnLoop_spec {T : Tbl} {c0 r0 : Nat} {aw : Int} (hc0 : c0 < T.cols)
    (hr0 : r0 < T.rows) :
    ∀ (fuel k : Nat) (L : List BoundingBox) (index : Nat), k < T.rows → T.rows - k ≤ fuel →
      T.ColInv c0 aw k L →
    ∃ L', RectPacker.Segment.columnLoop aw T.rows (T.cols + 1) (r0 + 1) fuel L k index
        (k * T.cols + k + c0 + 1) = some (L', index + (r0 - k)) ∧
      Stores L' (T.splitCol c0 aw).rows (T.splitCol c0 aw).cols (T.splitCol c0 aw).cell := by
  intro fuel
  induction fuel with
  | zero => intro k L index hk hf; omega
  | succ fuel ih =>
    intro k L index hk hf hinv
    have hget := hinv.todo k c0 (Nat.le_refl k) hk hc0
    have hne : ¬ (k * T.cols + k + c0 + 1 = 0) := by omega
    simp only [RectPacker.Segment.columnLoop, if_neg hne, Nat.add_sub_cancel, hget,
      Option.bind_eq_bind, Option.some_bind, Option.pure_def, Tbl.cell]
    have hstep := hinv.step hc0 hk
    by_cases hlast : k + 1 = T.rows
    · rw [if_pos hlast]
      rw [hlast] at hstep
      refine ⟨_, ?_, hstep.final⟩
      have : r0 - k = 0 := by omega
      rw [this]
      rfl
    · rw [if_neg hlast]
      have he : k * T.cols + k + c0 + 1 + (T.cols + 1) = (k + 1) * T.cols + (k + 1) + c0 + 1 := by
        rw [Nat.succ_mul]; omega
      rw [he]
      obtain ⟨L', hres, hst⟩ := ih (k + 1) _ (if k + 1 < r0 + 1 then index + 1 else index)
        (by omega) (by omega) hstep
      refine ⟨L', ?_, hst⟩
      rw [hres]
      by_cases hlt : k + 1 < r0 + 1
      · rw [if_pos hlt]
        have : index + 1 + (r0 - (k + 1)) = index + (r0 - k) := by omega
        rw [this]
      · rw [if_neg hlt]
        have : r0 - (k + 1) = r0 - k := by omega
        rw [this]

theorem rowStage_init {T : Tbl} {r0 : Nat} (ah : Int) {L : List BoundingBox}
    (h : Stores L T.rows T.cols T.cell) (hr0 : r0 < T.rows) :
    Stores (RectPacker.insertMany L ((r0 + 1) * T.cols) T.cols ⟨0, 0, false⟩)
      (T.rows + 1) T.cols (T.rowStage r0 ah 0) := by
  have hins : (r0 + 1) * T.cols ≤ L.length := by
    rw [h.len]; exact Nat.mul_le_mul_right T.cols hr0
  refine ⟨?_, ?_⟩
  · rw [RectPacker.length_insertMany, h.len, Nat.succ_mul]
  · intro r j hr hj
    rw [RectPacker.getElem?_insertMany _ _ _ _ _ hins]
    unfold Tbl.rowStage
    by_cases h1 : r ≤ r0
    · have hmul : r * T.cols ≤ r0 * T.cols := Nat.mul_le_mul_right T.cols h1
      rw [Nat.succ_mul, if_pos (by omega), h.get r j (by omega) hj]
      by_cases h2 : r < r0
      · rw [if_pos h2]
      · have : r = r0 := by omega
        subst this
        simp
    · by_cases h2 : r = r0 + 1
      · subst h2
        rw [if_neg (by omega), if_pos (by omega)]
        simp
      · have hmul : (r0 + 2) * T.cols ≤ r * T.cols := Nat.mul_le_mul_right T.cols (by omega)
        rw [Nat.succ_mul] at hmul
        rw [if_neg (by omega), if_neg (by omega)]
        have hq : r * T.cols + j - T.cols = (r - 1) * T.cols + j := by
          obtain ⟨m, rfl⟩ : ∃ m, r = m + 1 := ⟨r - 1, by omega⟩
          rw [Nat.succ_mul, Nat.add_sub_cancel]
          omega
        rw [hq, h.get (r - 1) j (by omega) hj]
        have e1 : ¬ r < r0 := by omega
        have e2 : ¬ r = r0 := by omega
        simp [e1, e2, h2]

theorem rowStage_step {T : Tbl} {r0 : Nat} {ah : Int} {i : Nat} {M : List BoundingBox}
    (hr0 : r0 < T.rows) (hi : i < T.cols)
    (h : Stores M (T.rows + 1) T.cols (T.rowStage r0 ah i)) :
    Stores ((M.set (r0 * T.cols + i) ⟨T.cw i, T.rh r0 - ah, T.fill r0 i⟩).set
        ((r0 + 1) * T.cols + i) ⟨T.cw i, ah, T.fill r0 i⟩)
      (T.rows + 1) T.cols (T.rowStage r0 ah (i + 1)) := by
  have h1 := h.set (k := r0) (j := i) (by omega) hi ⟨T.cw i, T.rh r0 - ah, T.fill r0 i⟩
  have h2 := h1.set (k := r0 + 1) (j := i) (by omega) hi ⟨T.cw i, ah, T.fill r0 i⟩
  refine h2.congr ?_
  intro r j _ hj
  unfold Tbl.rowStage
  by_cases c1 : r = r0 + 1 ∧ j = i
  · obtain ⟨rfl, rfl⟩ := c1
    simp
  · rw [if_neg c1]
    by_cases c2 : r = r0 ∧ j = i
    · obtain ⟨rfl, rfl⟩ := c2
      simp
    · rw [if_neg c2]
      by_cases e1 : r < r0
      · simp [e1]
      · by_cases e2 : r = r0
        · subst e2
          have hji : j ≠ i := fun hh => c2 ⟨rfl, hh⟩
          by_cases e3 : j < i
          · have : j < i + 1 := by omega
            simp [e3, this]
          · have : ¬ j < i + 1 := by omega
            simp [e3, this]
        · by_cases e4 : r = r0 + 1
          · subst e4
            have hji : j ≠ i := fun hh => c1 ⟨rfl, hh⟩
            by_cases e3 : j < i
            · have : j < i + 1 := by omega
              simp [e3, this]
            · have : ¬ j < i + 1 := by omega
              simp [e3, this]
          · simp [e1, e2, e4]

theorem rowStage_final {T : Tbl} {r0 : Nat} {ah : Int} {M : List BoundingBox}
    (h : Stores M (T.rows + 1) T.cols (T.rowStage r0 ah T.cols)) :
    Stores M (T.splitRow r0 ah).rows (T.splitRow r0 ah).cols (T.splitRow r0 ah).cell := by
  refine ⟨h.len, ?_⟩
  intro r j hr hj
  have hj' : j < T.cols := hj
  have := h.get r j hr hj
  show M[r * T.cols + j]? = _
  rw [this]
  unfold Tbl.rowStage Tbl.cell Tbl.splitRow
  by_cases e1 : r < r0
  · simp [e1, Nat.le_of_lt e1]
  · by_cases e2 : r = r0
    · subst e2
      simp [hj']
    · by_cases e4 : r = r0 + 1
      · subst e4
        simp [hj']
      · have e5 : ¬ r ≤ r0 := by omega
        simp [e1, e2, e4, e5]

theorem rowLoop_spec {T : Tbl} {r0 : Nat} {ah : Int} (hr0 : r0 < T.rows) :
    ∀ (n i : Nat) (M : List BoundingBox), i + n = T.cols →
      Stores M (T.rows + 1) T.cols (T.rowStage r0 ah i) →
    ∃ M', RectPacker.Segment.rowLoop ah T.cols n M ((r0 + 1) * T.cols + i) = some M' ∧
      Stores M' (T.splitRow r0 ah).rows (T.splitRow r0 ah).cols (T.splitRow r0 ah).cell := by
  intro n
  induction n with
  | zero =>
    intro i M hi h
    have : i = T.cols := by omega
    subst this
    exact ⟨M, rfl, rowStage_final h⟩
  | succ n ih =>
    intro i M hi h
    have hic : i < T.cols := by omega
    have hge : ¬ ((r0 + 1) * T.cols + i < T.cols) := by rw [Nat.succ_mul]; omega
    have habove : (r0 + 1) * T.cols + i - T.cols = r0 * T.cols + i := by
      rw [Nat.succ_mul]; omega
    have hget := h.get r0 i (by omega) hic
    have hcell : T.rowStage r0 ah i r0 i = T.cell r0 i := by
      unfold Tbl.rowStage; simp
    rw [hcell] at hget
    have hlen : ¬ ((r0 + 1) * T.cols + i ≥ (M.set (r0 * T.cols + i)
        ⟨T.cw i, T.rh r0 - ah, T.fill r0 i⟩).length) := by
      rw [List.length_set, h.len]
      have := @idx_lt (T.rows + 1) T.cols (r0 + 1) i (by omega) hic
      omega
    simp only [RectPacker.Segment.rowLoop, if_neg hge, habove, hget, Option.bind_eq_bind,
      Option.some_bind, Tbl.cell, if_neg hlen]
    have hidx : (r0 + 1) * T.cols + i + 1 = (r0 + 1) * T.cols + (i + 1) := by omega
    rw [hidx]
    exact ih (i + 1) _ (by omega) (rowStage_step hr0 hic h)

end Tbl

/-! ## The table after a cut -/

namespace Tbl

theorem splitCol_X_le (T : Tbl) (c0 : Nat) (aw : Int) {j : Nat} (hj : j ≤ c0) :
    (T.splitCol c0 aw).X j = T.X j := by
  unfold Tbl.X
  apply psum_congr
  intro i hi
  have : i < c0 := by omega
  simp [Tbl.splitCol, this]

theorem splitCol_X_succ (T : Tbl) (c0 : Nat) (aw : Int) :
    (T.splitCol c0 aw).X (c0 + 1) = T.X (c0 + 1) - aw := by
  rw [Tbl.X_succ, Tbl.X_succ, splitCol_X_le T c0 aw (Nat.le_refl c0)]
  simp [Tbl.splitCol]
  omega

theorem splitCol_X_gt (T : Tbl) (c0 : Nat) (aw : Int) {j : Nat} (hj : c0 + 1 ≤ j) :
    (T.splitCol c0 aw).X (j + 1) = T.X j := by
  induction j with
  | zero => omega
  | succ j ih =>
    by_cases hje : j = c0
    · subst hje
      rw [Tbl.X_succ, splitCol_X_succ]
      simp [Tbl.splitCol]
    · rw [Tbl.X_succ, ih (by omega), Tbl.X_succ]
      have e1 : ¬ j + 1 < c0 := by omega
      have e2 : ¬ j + 1 = c0 := by omega
      simp [Tbl.splitCol, e1, e2, hje]

theorem splitCol_Y (T : Tbl) (c0 : Nat) (aw : Int) (r : Nat) :
    (T.splitCol c0 aw).Y r = T.Y r := rfl

theorem splitCol_valid {T : Tbl} (hv : T.Valid) {c0 : Nat} {aw : Int} (hc0 : c0 < T.cols)
    (h1 : 0 < aw) (h2 : aw < T.cw c0) : (T.splitCol c0 aw).Valid := by
  refine ⟨hv.rows_pos, Nat.le_succ_of_le hv.cols_pos, ?_, hv.rh_pos⟩
  intro c hc
  have hc' : c < T.cols + 1 := hc
  show 1 ≤ (if c < c0 then T.cw c else if c = c0 then T.cw c0 - aw
    else if c = c0 + 1 then aw else T.cw (c - 1))
  split_ifs with a b d
  · exact hv.cw_pos c (by omega)
  · omega
  · omega
  · exact hv.cw_pos (c - 1) (by omega)

theorem splitRow_Y_le (T : Tbl) (r0 : Nat) (ah : Int) {k : Nat} (hk : k ≤ r0) :
    (T.splitRow r0 ah).Y k = T.Y k := by
  unfold Tbl.Y
  apply psum_congr
  intro i hi
  have : i < r0 := by omega
  simp [Tbl.splitRow, this]

theorem splitRow_Y_succ (T : Tbl) (r0 : Nat) (ah : Int) :
    (T.splitRow r0 ah).Y (r0 + 1) = T.Y (r0 + 1) - ah := by
  rw [Tbl.Y_succ, Tbl.Y_succ, splitRow_Y_le T r0 ah (Nat.le_refl r0)]
  simp [Tbl.splitRow]
  omega

theorem splitRow_Y_gt (T : Tbl) (r0 : Nat) (ah : Int) {k : Nat} (hk : r0 + 1 ≤ k) :
    (T.splitRow r0 ah).Y (k + 1) = T.Y k := by
  induction k with
  | zero => omega
  | succ k ih =>
    by_cases hke : k = r0
    · subst hke
      rw [Tbl.Y_succ, splitRow_Y_succ]
      simp [Tbl.splitRow]
    · rw [Tbl.Y_succ, ih (by omega), Tbl.Y_succ]
      have e1 : ¬ k + 1 < r0 := by omega
      have e2 : ¬ k + 1 = r0 := by omega
      simp [Tbl.splitRow, e1, e2, hke]

theorem splitRow_X (T : Tbl) (r0 : Nat) (ah : Int) (c : Nat) :
    (T.splitRow r0 ah).X c = T.X c := rfl

theorem splitRow_valid {T : Tbl} (hv : T.Valid) {r0 : Nat} {ah : Int} (hr0 : r0 < T.rows)
    (h1 : 0 < ah) (h2 : ah < T.rh r0) : (T.splitRow r0 ah).Valid := by
  refine ⟨Nat.le_succ_of_le hv.rows_pos, hv.cols_pos, hv.cw_pos, ?_⟩
  intro r hr
  have hr' : r < T.rows + 1 := hr
  show 1 ≤ (if r < r0 then T.rh r else if r = r0 then T.rh r0 - ah
    else if r = r0 + 1 then ah else T.rh (r - 1))
  split_ifs with a b d
  · exact hv.rh_pos r (by omega)
  · omega
  · omega
  · exact hv.rh_pos (r - 1) (by omega)

end Tbl

namespace Represents

theorem splitCol {p : RectPacker} {T : Tbl} (h : Represents p T) {c0 : Nat} {aw : Int}
    (hc0 : c0 < T.cols) (h1 : 0 < aw) (h2 : aw < T.cw c0) {L : List BoundingBox}
    (hst : Stores L (T.splitCol c0 aw).rows (T.splitCol c0 aw).cols (T.splitCol c0 aw).cell) :
    Represents { p with m_Columns := p.m_Columns + 1, m_BoundingBoxes := L }
      (T.splitCol c0 aw) := by
  refine ⟨h.rows, ?_, hst, Tbl.splitCol_valid h.valid hc0 h1 h2, ?_, ?_⟩
  · show p.m_Columns + 1 = T.cols + 1
    rw [h.cols]
  · show (T.splitCol c0 aw).X (T.cols + 1) = p.m_MaxWidth
    rw [Tbl.splitCol_X_gt T c0 aw (by omega)]
    exact h.width
  · exact h.height

theorem splitRow {p : RectPacker} {T : Tbl} (h : Represents p T) {r0 : Nat} {ah : Int}
    (hr0 : r0 < T.rows) (h1 : 0 < ah) (h2 : ah < T.rh r0) {L : List BoundingBox}
    (hst : Stores L (T.splitRow r0 ah).rows (T.splitRow r0 ah).cols (T.splitRow r0 ah).cell) :
    Represents { p with m_Rows := p.m_Rows + 1, m_BoundingBoxes := L }
      (T.splitRow r0 ah) := by
  refine ⟨?_, h.cols, hst, Tbl.splitRow_valid h.valid hr0 h1 h2, h.width, ?_⟩
  · show p.m_Rows + 1 = T.rows + 1
    rw [h.rows]
  · show (T.splitRow r0 ah).Y (T.rows + 1) = p.m_MaxHeight
    rw [Tbl.splitRow_Y_gt T r0 ah (by omega)]
    exact h.height

/-- The column cut of `Segment` as a step on states. -/
theorem segment_column {p : RectPacker} {T : Tbl} (h : Represents p T) {r0 c0 : Nat}
    (hr0 : r0 < T.rows) (hc0 : c0 < T.cols) {aw : Int} (h1 : 0 < aw) (h2 : aw < T.cw c0) :
    ∃ L, RectPacker.Segment.columnLoop aw p.m_Rows (p.m_Columns + 1)
        ((r0 * T.cols + c0) / p.m_Columns + 1) p.m_BoundingBoxes.length p.m_BoundingBoxes 0
        (r0 * T.cols + c0) ((r0 * T.cols + c0) % p.m_Columns + 1)
        = some (L, r0 * (T.cols + 1) + c0) ∧
      Represents { p with m_Columns := p.m_Columns + 1, m_BoundingBoxes := L }
        (T.splitCol c0 aw) := by
  have hlen : T.rows - 0 ≤ p.m_BoundingBoxes.length := by
    rw [h.stores.len]
    have := Nat.le_mul_of_pos_right T.rows h.valid.cols_pos
    omega
  obtain ⟨L, hres, hst⟩ := @Tbl.columnLoop_spec T c0 r0 aw hc0 hr0 p.m_BoundingBoxes.length 0
    p.m_BoundingBoxes (r0 * T.cols + c0) h.valid.rows_pos hlen (Tbl.ColInv.init h.stores)
  refine ⟨L, ?_, h.splitCol hc0 h1 h2 hst⟩
  rw [h.rows, h.cols, idx_div r0 hc0, idx_mod r0 hc0]
  simp only [Nat.zero_mul, Nat.zero_add, Nat.sub_zero] at hres
  have hidx : r0 * T.cols + c0 + r0 = r0 * (T.cols + 1) + c0 := by rw [Nat.mul_succ]; omega
  rw [hres, hidx]

/-- The row cut of `Segment` as a step on states. -/
theorem segment_row {p : RectPacker} {T : Tbl} (h : Represents p T) {r0 : Nat}
    (hr0 : r0 < T.rows) {ah : Int} (h1 : 0 < ah) (h2 : ah < T.rh r0) :
    ∃ L, RectPacker.Segment.rowLoop ah p.m_Columns p.m_Columns
        (RectPacker.insertMany p.m_BoundingBoxes ((r0 + 1) * p.m_Columns) p.m_Columns
          ⟨0, 0, false⟩) ((r0 + 1) * p.m_Columns) = some L ∧
      Represents { p with m_Rows := p.m_Rows + 1, m_BoundingBoxes := L }
        (T.splitRow r0 ah) := by
  obtain ⟨L, hres, hst⟩ := @Tbl.rowLoop_spec T r0 ah hr0 T.cols 0 _ (by omega)
    (Tbl.rowStage_init ah h.stores hr0)
  refine ⟨L, ?_, h.splitRow hr0 h1 h2 hst⟩
  rw [h.cols]
  rw [Nat.add_zero] at hres
  exact hres

end Represents

/-! ## `Segment` as a step on tables -/

namespace Represents

theorem split_cols (T : Tbl) (r0 c0 : Nat) (aw ah : Int) :
    (T.split r0 c0 aw ah).cols = if aw ≠ 0 then T.cols + 1 else T.cols := by
  unfold Tbl.split
  by_cases h1 : aw ≠ 0 <;> by_cases h2 : ah ≠ 0 <;> simp [h1, h2, Tbl.splitCol, Tbl.splitRow]

/-- Correctness of `Segment` on a cell of a stored table with a leftover that meets its three assertions:
it returns, the new state stores the cut table, and the updated iterator designates the
same row and column. -/
theorem segment_spec {p : RectPacker} {T : Tbl} (h : Represents p T) {r0 c0 : Nat}
    (hr0 : r0 < T.rows) (hc0 : c0 < T.cols) {aw ah : Int} (haw : 0 ≤ aw) (haw' : aw < T.cw c0)
    (hah : 0 ≤ ah) (hah' : ah < T.rh r0) (fl : Bool) :
    ∃ q, p.Segment (r0 * T.cols + c0) ⟨aw, ah, fl⟩
        = some (q, r0 * (T.split r0 c0 aw ah).cols + c0) ∧
      Represents q (T.split r0 c0 aw ah) ∧
      q.m_MaxWidth = p.m_MaxWidth ∧ q.m_MaxHeight = p.m_MaxHeight := by
  have hcw := h.valid.cw_pos c0 hc0
  have hrh := h.valid.rh_pos r0 hr0
  have a1 : ¬ ¬ (aw ≥ 0 ∧ ah ≥ 0) := fun hh => hh ⟨haw, hah⟩
  have a2 : ¬ ¬ ((T.cell r0 c0).Width ≥ 1 ∧ (T.cell r0 c0).Height ≥ 1) :=
    fun hh => hh ⟨hcw, hrh⟩
  have a3 : ¬ ¬ ((T.cell r0 c0).Width > aw ∧ (T.cell r0 c0).Height > ah) :=
    fun hh => hh ⟨haw', hah'⟩
  rw [split_cols]
  simp only [RectPacker.Segment, h.get hr0 hc0, Option.bind_eq_bind, Option.some_bind,
    Option.pure_def, if_neg a1, if_neg a2, if_neg a3]
  by_cases hw0 : aw = 0
  · by_cases hh0 : ah = 0
    · subst hw0 hh0
      refine ⟨p, by simp, ?_, rfl, rfl⟩
      simpa [Tbl.split] using h
    · have hne : ¬ (aw = 0 ∧ ah = 0) := fun hh => hh0 hh.2
      obtain ⟨L, hres, hrep⟩ := h.segment_row hr0 (lt_of_le_of_ne hah (Ne.symm hh0)) hah'
      have hins : ¬ ((r0 * T.cols + c0) / p.m_Columns + 1) * p.m_Columns
          > p.m_BoundingBoxes.length := by
        rw [h.cols, idx_div r0 hc0, h.stores.len]
        have := Nat.mul_le_mul_right T.cols (show r0 + 1 ≤ T.rows from hr0)
        omega
      have hbox : ¬ ((r0 * T.cols + c0) / p.m_Columns + 1) * p.m_Columns
          < r0 * T.cols + c0 := by
        rw [h.cols, idx_div r0 hc0, Nat.succ_mul]
        omega
      have hdiv : (r0 * T.cols + c0) / p.m_Columns = r0 := by rw [h.cols, idx_div r0 hc0]
      rw [hdiv] at hins hbox
      simp only [hne, hw0, hh0, ne_eq, not_true_eq_false, not_false_eq_true, if_true, if_false,
        Option.some_bind, hdiv, hins, hbox, hres]
      refine ⟨_, rfl, ?_, rfl, rfl⟩
      have : T.split r0 c0 0 ah = T.splitRow r0 ah := by simp [Tbl.split, hh0]
      rw [this]
      exact hrep
  · have hne : ¬ (aw = 0 ∧ ah = 0) := fun hh => hw0 hh.1
    obtain ⟨L1, hres1, hrep1⟩ := h.segment_column hr0 hc0 (lt_of_le_of_ne haw (Ne.symm hw0)) haw'
    simp only [hne, hw0, ne_eq, not_false_eq_true, if_true, if_false, hres1, Option.some_bind]
    by_cases hh0 : ah = 0
    · simp only [hh0, not_true_eq_false, if_false]
      refine ⟨_, rfl, ?_, rfl, rfl⟩
      have : T.split r0 c0 aw 0 = T.splitCol c0 aw := by simp [Tbl.split, hw0]
      rw [this]
      exact hrep1
    · have hr0' : r0 < (T.splitCol c0 aw).rows := hr0
      have hah2 : ah < (T.splitCol c0 aw).rh r0 := hah'
      obtain ⟨L, hres, hrep⟩ := hrep1.segment_row hr0' (lt_of_le_of_ne hah (Ne.symm hh0)) hah2
      have hdiv : (r0 * T.cols + c0) / p.m_Columns = r0 := by rw [h.cols, idx_div r0 hc0]
      have hins : ¬ (r0 + 1) * (p.m_Columns + 1) > L1.length := by
        rw [hrep1.stores.len, h.cols]
        have := Nat.mul_le_mul_right (T.cols + 1) (show r0 + 1 ≤ T.rows from hr0)
        show ¬ (r0 + 1) * (T.cols + 1) > T.rows * (T.cols + 1)
        omega
      have hbox : ¬ (r0 + 1) * (p.m_Columns + 1) < r0 * (T.cols + 1) + c0 := by
        rw [h.cols, Nat.succ_mul]
        omega
      simp only [hh0, not_false_eq_true, if_true, hdiv, hins, hbox, if_false]
      have hres' : RectPacker.Segment.rowLoop ah (p.m_Columns + 1) (p.m_Columns + 1)
          (RectPacker.insertMany L1 ((r0 + 1) * (p.m_Columns + 1)) (p.m_Columns + 1)
            ⟨0, 0, false⟩) ((r0 + 1) * (p.m_Columns + 1)) = some L := hres
      simp only [hres', and_self, if_false, Option.some_bind]
      refine ⟨_, rfl, ?_, rfl, rfl⟩
      have : T.split r0 c0 aw ah = (T.splitCol c0 aw).splitRow r0 ah := by
        simp [Tbl.split, hw0, hh0]
      rw [this]
      exact hrep

end Represents

/-! ## The filled region of a table under cuts and fills -/

theorem psum_locate (f : Nat → Int) {a b : Nat} {x : Int} (hab : a ≤ b) (h1 : psum f a ≤ x)
    (h2 : x < psum f b) : ∃ j, a ≤ j ∧ j < b ∧ psum f j ≤ x ∧ x < psum f (j + 1) := by
  induction b with
  | zero =>
    have : a = 0 := by omega
    subst this
    omega
  | succ b ih =>
    by_cases hae : a = b + 1
    · subst hae; omega
    · by_cases hx : x < psum f b
      · obtain ⟨j, hj1, hj2, hj3, hj4⟩ := ih (by omega) hx
        exact ⟨j, hj1, by omega, hj3, hj4⟩
      · exact ⟨b, by omega, by omega, by omega, h2⟩

namespace Tbl

theorem col_unique {T : Tbl} (hv : T.Valid) {j j' : Nat} {px : Int} (hj : j < T.cols)
    (hj' : j' < T.cols) (h1 : T.X j ≤ px) (h2 : px < T.X (j + 1)) (h1' : T.X j' ≤ px)
    (h2' : px < T.X (j' + 1)) : j = j' := by
  rcases Nat.lt_trichotomy j j' with hlt | heq | hgt
  · have := X_le hv (a := j + 1) (b := j') hlt (Nat.le_of_lt hj')
    omega
  · exact heq
  · have := X_le hv (a := j' + 1) (b := j) hgt (Nat.le_of_lt hj)
    omega

theorem row_unique {T : Tbl} (hv : T.Valid) {k k' : Nat} {py : Int} (hk : k < T.rows)
    (hk' : k' < T.rows) (h1 : T.Y k ≤ py) (h2 : py < T.Y (k + 1)) (h1' : T.Y k' ≤ py)
    (h2' : py < T.Y (k' + 1)) : k = k' := by
  rcases Nat.lt_trichotomy k k' with hlt | heq | hgt
  · have := Y_le hv (a := k + 1) (b := k') hlt (Nat.le_of_lt hk')
    omega
  · exact heq
  · have := Y_le hv (a := k' + 1) (b := k) hgt (Nat.le_of_lt hk)
    omega

theorem covered_splitCol {T : Tbl} {c0 : Nat} {aw : Int} (hc0 : c0 < T.cols)
    (h1 : 0 < aw) (h2 : aw < T.cw c0) (px py : Int) :
    (T.splitCol c0 aw).Covered px py ↔ T.Covered px py := by
  have hXs := T.X_succ c0
  constructor
  · rintro ⟨r, j, hr, hj, hf, hx1, hx2, hy⟩
    have hj' : j < T.cols + 1 := hj
    have hr' : r < T.rows := hr
    rw [splitCol_Y, splitCol_Y] at hy
    by_cases c1 : j ≤ c0
    · have hfill : T.fill r j = true := by
        have : (T.splitCol c0 aw).fill r j = T.fill r j := by simp [Tbl.splitCol, c1]
        rw [← this]; exact hf
      rw [splitCol_X_le T c0 aw c1] at hx1
      refine ⟨r, j, hr', by omega, hfill, hx1, ?_, hy⟩
      by_cases c2 : j = c0
      · subst c2
        rw [splitCol_X_succ] at hx2
        omega
      · rw [splitCol_X_le T c0 aw (by omega)] at hx2
        exact hx2
    · have hfill : T.fill r (j - 1) = true := by
        have : (T.splitCol c0 aw).fill r j = T.fill r (j - 1) := by simp [Tbl.splitCol, c1]
        rw [← this]; exact hf
      rw [splitCol_X_gt T c0 aw (by omega)] at hx2
      have hjj : j - 1 + 1 = j := by omega
      refine ⟨r, j - 1, hr', by omega, hfill, ?_, by rw [hjj]; exact hx2, hy⟩
      by_cases c2 : j = c0 + 1
      · subst c2
        rw [splitCol_X_succ] at hx1
        simp only [Nat.add_sub_cancel]
        omega
      · have := splitCol_X_gt T c0 aw (j := j - 1) (by omega)
        rw [hjj] at this
        rw [this] at hx1
        exact hx1
  · rintro ⟨r, j, hr, hj, hf, hx1, hx2, hy⟩
    have hr' : r < (T.splitCol c0 aw).rows := hr
    by_cases c1 : j < c0
    · refine ⟨r, j, hr', Nat.lt_succ_of_lt hj, ?_, ?_, ?_, hy⟩
      · simp [Tbl.splitCol, Nat.le_of_lt c1, hf]
      · rw [splitCol_X_le T c0 aw (Nat.le_of_lt c1)]; exact hx1
      · rw [splitCol_X_le T c0 aw (by omega)]; exact hx2
    · by_cases c2 : j = c0
      · subst c2
        by_cases c3 : px < T.X (j + 1) - aw
        · refine ⟨r, j, hr', Nat.lt_succ_of_lt hj, ?_, ?_, ?_, hy⟩
          · simp [Tbl.splitCol, hf]
          · rw [splitCol_X_le T j aw (Nat.le_refl j)]; exact hx1
          · rw [splitCol_X_succ]; exact c3
        · refine ⟨r, j + 1, hr', Nat.succ_lt_succ hj, ?_, ?_, ?_, hy⟩
          · simp [Tbl.splitCol, hf]
          · rw [splitCol_X_succ]; omega
          · rw [splitCol_X_gt T j aw (Nat.le_refl _)]; exact hx2
      · refine ⟨r, j + 1, hr', Nat.succ_lt_succ hj, ?_, ?_, ?_, hy⟩
        · have e : ¬ j + 1 ≤ c0 := by omega
          simp [Tbl.splitCol, e, hf]
        · rw [splitCol_X_gt T c0 aw (by omega)]; exact hx1
        · rw [splitCol_X_gt T c0 aw (by omega)]; exact hx2

theorem covered_splitRow {T : Tbl} {r0 : Nat} {ah : Int} (hr0 : r0 < T.rows)
    (h1 : 0 < ah) (h2 : ah < T.rh r0) (px py : Int) :
    (T.splitRow r0 ah).Covered px py ↔ T.Covered px py := by
  have hYs := T.Y_succ r0
  constructor
  · rintro ⟨r, j, hr, hj, hf, hx1, hx2, hy1, hy2⟩
    have hr' : r < T.rows + 1 := hr
    have hj' : j < T.cols := hj
    rw [splitRow_X] at hx1 hx2
    by_cases c1 : r ≤ r0
    · have hfill : T.fill r j = true := by
        have : (T.splitRow r0 ah).fill r j = T.fill r j := by simp [Tbl.splitRow, c1]
        rw [← this]; exact hf
      rw [splitRow_Y_le T r0 ah c1] at hy1
      refine ⟨r, j, by omega, hj', hfill, hx1, hx2, hy1, ?_⟩
      by_cases c2 : r = r0
      · subst c2
        rw [splitRow_Y_succ] at hy2
        omega
      · rw [splitRow_Y_le T r0 ah (by omega)] at hy2
        exact hy2
    · have hfill : T.fill (r - 1) j = true := by
        have : (T.splitRow r0 ah).fill r j = T.fill (r - 1) j := by simp [Tbl.splitRow, c1]
        rw [← this]; exact hf
      rw [splitRow_Y_gt T r0 ah (by omega)] at hy2
      have hrr : r - 1 + 1 = r := by omega
      refine ⟨r - 1, j, by omega, hj', hfill, hx1, hx2, ?_, by rw [hrr]; exact hy2⟩
      by_cases c2 : r = r0 + 1
      · subst c2
        rw [splitRow_Y_succ] at hy1
        simp only [Nat.add_sub_cancel]
        omega
      · have := splitRow_Y_gt T r0 ah (k := r - 1) (by omega)
        rw [hrr] at this
        rw [this] at hy1
        exact hy1
  · rintro ⟨r, j, hr, hj, hf, hx1, hx2, hy1, hy2⟩
    have hj' : j < (T.splitRow r0 ah).cols := hj
    by_cases c1 : r < r0
    · refine ⟨r, j, Nat.lt_succ_of_lt hr, hj', ?_, hx1, hx2, ?_, ?_⟩
      · simp [Tbl.splitRow, Nat.le_of_lt c1, hf]
      · rw [splitRow_Y_le T r0 ah (Nat.le_of_lt c1)]; exact hy1
      · rw [splitRow_Y_le T r0 ah (by omega)]; exact hy2
    · by_cases c2 : r = r0
      · subst c2
        by_cases c3 : py < T.Y (r + 1) - ah
        · refine ⟨r, j, Nat.lt_succ_of_lt hr, hj', ?_, hx1, hx2, ?_, ?_⟩
          · simp [Tbl.splitRow, hf]
          · rw [splitRow_Y_le T r ah (Nat.le_refl r)]; exact hy1
          · rw [splitRow_Y_succ]; exact c3
        · refine ⟨r + 1, j, Nat.succ_lt_succ hr, hj', ?_, hx1, hx2, ?_, ?_⟩
          · simp [Tbl.splitRow, hf]
          · rw [splitRow_Y_succ]; omega
          · rw [splitRow_Y_gt T r ah (Nat.le_refl _)]; exact hy2
      · refine ⟨r + 1, j, Nat.succ_lt_succ hr, hj', ?_, hx1, hx2, ?_, ?_⟩
        · have e : ¬ r + 1 ≤ r0 := by omega
          simp [Tbl.splitRow, e, hf]
        · rw [splitRow_Y_gt T r0 ah (by omega)]; exact hy1
        · rw [splitRow_Y_gt T r0 ah (by omega)]; exact hy2

theorem covered_split {T : Tbl} {r0 c0 : Nat} {aw ah : Int} (hr0 : r0 < T.rows)
    (hc0 : c0 < T.cols) (haw : 0 ≤ aw) (haw' : aw < T.cw c0) (hah : 0 ≤ ah)
    (hah' : ah < T.rh r0) (px py : Int) :
    (T.split r0 c0 aw ah).Covered px py ↔ T.Covered px py := by
  unfold Tbl.split
  by_cases hw0 : aw = 0
  · by_cases hh0 : ah = 0
    · simp [hw0, hh0]
    · simp only [hw0, ne_eq, not_true_eq_false, if_false, hh0, not_false_eq_true, if_true]
      exact covered_splitRow hr0 (lt_of_le_of_ne hah (Ne.symm hh0)) hah' px py
  · have hc := covered_splitCol hc0 (lt_of_le_of_ne haw (Ne.symm hw0)) haw' px py
    by_cases hh0 : ah = 0
    · simp only [ne_eq, hw0, not_false_eq_true, if_true, hh0, not_true_eq_false, if_false]
      exact hc
    · simp only [ne_eq, hw0, not_false_eq_true, if_true, hh0]
      rw [covered_splitRow (T := T.splitCol c0 aw) hr0 (lt_of_le_of_ne hah (Ne.symm hh0)) hah'
        px py]
      exact hc

theorem covered_setBlock {T : Tbl} (hv : T.Valid) {r r2 c c2 : Nat} (hr : r ≤ r2)
    (hr2 : r2 < T.rows) (hc : c ≤ c2) (hc2 : c2 < T.cols) (px py : Int) :
    (T.setBlock r r2 c c2 true).Covered px py ↔
      (T.Covered px py ∨
        (T.X c ≤ px ∧ px < T.X (c2 + 1) ∧ T.Y r ≤ py ∧ py < T.Y (r2 + 1))) := by
  constructor
  · rintro ⟨k, j, hk, hj, hf, hx1, hx2, hy1, hy2⟩
    have hk' : k < T.rows := hk
    have hj' : j < T.cols := hj
    have hx1' : T.X j ≤ px := hx1
    have hx2' : px < T.X (j + 1) := hx2
    have hy1' : T.Y k ≤ py := hy1
    have hy2' : py < T.Y (k + 1) := hy2
    by_cases hin : r ≤ k ∧ k ≤ r2 ∧ c ≤ j ∧ j ≤ c2
    · right
      have a1 := X_le hv hin.2.2.1 (Nat.le_of_lt hj')
      have a2 := X_le hv (a := j + 1) (b := c2 + 1) (by omega) (by omega)
      have a3 := Y_le hv hin.1 (Nat.le_of_lt hk')
      have a4 := Y_le hv (a := k + 1) (b := r2 + 1) (by omega) (by omega)
      exact ⟨by omega, by omega, by omega, by omega⟩
    · left
      have : (T.setBlock r r2 c c2 true).fill k j = T.fill k j := by
        simp only [Tbl.setBlock]
        rw [if_neg hin]
      rw [this] at hf
      exact ⟨k, j, hk', hj', hf, hx1', hx2', hy1', hy2'⟩
  · rintro (⟨k, j, hk, hj, hf, hx⟩ | ⟨hx1, hx2, hy1, hy2⟩)
    · refine ⟨k, j, hk, hj, ?_, hx⟩
      simp only [Tbl.setBlock]
      split_ifs
      · rfl
      · exact hf
    · obtain ⟨j, hj1, hj2, hj3, hj4⟩ := psum_locate T.cw (Nat.le_succ_of_le hc) hx1 hx2
      obtain ⟨k, hk1, hk2, hk3, hk4⟩ := psum_locate T.rh (Nat.le_succ_of_le hr) hy1 hy2
      refine ⟨k, j, by show k < T.rows; omega, by show j < T.cols; omega, ?_, hj3, hj4, hk3, hk4⟩
      simp only [Tbl.setBlock]
      rw [if_pos ⟨hk1, by omega, hj1, by omega⟩]

/-- A point of the region spanned by a free block is not covered. -/
theorem not_covered_of_free {T : Tbl} (hv : T.Valid) {r r2 c c2 : Nat}
    (hr : r ≤ r2) (hr2 : r2 < T.rows) (hc : c ≤ c2) (hc2 : c2 < T.cols)
    (hfree : ∀ k j, r ≤ k → k ≤ r2 → c ≤ j → j ≤ c2 → T.fill k j = false) {px py : Int}
    (hx1 : T.X c ≤ px) (hx2 : px < T.X (c2 + 1)) (hy1 : T.Y r ≤ py) (hy2 : py < T.Y (r2 + 1)) :
    ¬ T.Covered px py := by
  rintro ⟨k, j, hk, hj, hf, h1, h2, h3, h4⟩
  have hjc2 : j ≤ c2 := by
    by_contra hcon
    have := X_le hv (a := c2 + 1) (b := j) (by omega) (Nat.le_of_lt hj)
    omega
  have hcj : c ≤ j := by
    by_contra hcon
    have := X_le hv (a := j + 1) (b := c) (by omega) (by omega)
    omega
  have hkr2 : k ≤ r2 := by
    by_contra hcon
    have := Y_le hv (a := r2 + 1) (b := k) (by omega) (Nat.le_of_lt hk)
    omega
  have hrk : r ≤ k := by
    by_contra hcon
    have := Y_le hv (a := k + 1) (b := r) (by omega) (by omega)
    omega
  rw [hfree k j hrk hkr2 hcj hjc2] at hf
  exact Bool.noConfusion hf

end Tbl

/-! ## Committing a placement -/

namespace Tbl

theorem split_eq (T : Tbl) (r0 c0 : Nat) (aw ah : Int) :
    T.split r0 c0 aw ah =
      if aw = 0 then (if ah = 0 then T else T.splitRow r0 ah)
      else (if ah = 0 then T.splitCol c0 aw else (T.splitCol c0 aw).splitRow r0 ah) := by
  unfold Tbl.split
  by_cases h1 : aw = 0 <;> by_cases h2 : ah = 0 <;> simp [h1, h2]

theorem split_X_le (T : Tbl) (r0 c0 : Nat) (aw ah : Int) {j : Nat} (hj : j ≤ c0) :
    (T.split r0 c0 aw ah).X j = T.X j := by
  rw [split_eq]
  split_ifs <;> simp only [splitRow_X, splitCol_X_le T c0 aw hj]

theorem split_X_succ (T : Tbl) (r0 c0 : Nat) (aw ah : Int) :
    (T.split r0 c0 aw ah).X (c0 + 1) = T.X (c0 + 1) - aw := by
  rw [split_eq]
  split_ifs with h1 h2 h2 <;> simp only [splitRow_X, splitCol_X_succ, h1, Int.sub_zero]

theorem split_Y_le (T : Tbl) (r0 c0 : Nat) (aw ah : Int) {k : Nat} (hk : k ≤ r0) :
    (T.split r0 c0 aw ah).Y k = T.Y k := by
  rw [split_eq]
  split_ifs <;> simp only [splitRow_Y_le _ r0 ah hk, splitCol_Y]

theorem split_Y_succ (T : Tbl) (r0 c0 : Nat) (aw ah : Int) :
    (T.split r0 c0 aw ah).Y (r0 + 1) = T.Y (r0 + 1) - ah := by
  rw [split_eq]
  split_ifs with h1 h2 h2 <;> simp only [splitRow_Y_succ, splitCol_Y, h2, Int.sub_zero]

theorem split_rows_ge (T : Tbl) (r0 c0 : Nat) (aw ah : Int) :
    T.rows ≤ (T.split r0 c0 aw ah).rows := by
  rw [split_eq]
  split_ifs <;> simp [Tbl.splitCol, Tbl.splitRow]

theorem split_cols_ge (T : Tbl) (r0 c0 : Nat) (aw ah : Int) :
    T.cols ≤ (T.split r0 c0 aw ah).cols := by
  rw [split_eq]
  split_ifs <;> simp [Tbl.splitCol, Tbl.splitRow]

theorem split_valid {T : Tbl} (hv : T.Valid) {r0 c0 : Nat} {aw ah : Int} (hr0 : r0 < T.rows)
    (hc0 : c0 < T.cols) (haw : 0 ≤ aw) (haw' : aw < T.cw c0) (hah : 0 ≤ ah)
    (hah' : ah < T.rh r0) : (T.split r0 c0 aw ah).Valid := by
  unfold Tbl.split
  by_cases hw0 : aw = 0
  · by_cases hh0 : ah = 0
    · simpa [hw0, hh0] using hv
    · simp only [hw0, ne_eq, not_true_eq_false, if_false, hh0, not_false_eq_true, if_true]
      exact splitRow_valid hv hr0 (lt_of_le_of_ne hah (Ne.symm hh0)) hah'
  · have hc := splitCol_valid hv hc0 (lt_of_le_of_ne haw (Ne.symm hw0)) haw'
    by_cases hh0 : ah = 0
    · simp only [ne_eq, hw0, not_false_eq_true, if_true, hh0, not_true_eq_false, if_false]
      exact hc
    · simp only [ne_eq, hw0, not_false_eq_true, if_true, hh0]
      exact splitRow_valid (T := T.splitCol c0 aw) hc hr0 (lt_of_le_of_ne hah (Ne.symm hh0)) hah'

namespace Block

variable {T : Tbl} {r c r2 c2 : Nat} {w h : Int}

theorem aw_nonneg (hb : T.Block r c r2 c2 w h) : 0 ≤ T.X (c2 + 1) - T.X c - w := by
  have := hb.cs.2.2.2; omega

theorem aw_lt (hb : T.Block r c r2 c2 w h) : T.X (c2 + 1) - T.X c - w < T.cw c2 := by
  have := hb.cs.2.2.1
  have := T.X_succ c2
  omega

theorem ah_nonneg (hb : T.Block r c r2 c2 w h) : 0 ≤ T.Y (r2 + 1) - T.Y r - h := by
  have := hb.rs.2.2.2; omega

theorem ah_lt (hb : T.Block r c r2 c2 w h) : T.Y (r2 + 1) - T.Y r - h < T.rh r2 := by
  have := hb.rs.2.2.1
  have := T.Y_succ r2
  omega

theorem setBlock_false (hb : T.Block r c r2 c2 w h) : T.setBlock r r2 c c2 false = T := by
  have : (fun k j => if r ≤ k ∧ k ≤ r2 ∧ c ≤ j ∧ j ≤ c2 then false else T.fill k j) = T.fill := by
    funext k j
    by_cases hin : r ≤ k ∧ k ≤ r2 ∧ c ≤ j ∧ j ≤ c2
    · rw [if_pos hin, hb.free k j hin.1 hin.2.1 hin.2.2.1 hin.2.2.2]
    · rw [if_neg hin]
  unfold Tbl.setBlock
  rw [this]

/-- After the cut the block spans exactly `w` in width. -/
theorem split_colSpan (hb : T.Block r c r2 c2 w h) :
    (T.split r2 c2 (T.X (c2 + 1) - T.X c - w) (T.Y (r2 + 1) - T.Y r - h)).ColSpan c w c2 := by
  refine ⟨hb.cs.1, Nat.lt_of_lt_of_le hb.cs.2.1 (split_cols_ge _ _ _ _ _), ?_, ?_⟩
  · rw [split_X_le _ _ _ _ _ (Nat.le_refl c2), split_X_le _ _ _ _ _ hb.cs.1]
    exact hb.cs.2.2.1
  · rw [split_X_succ, split_X_le _ _ _ _ _ hb.cs.1]
    omega

/-- After the cut the block spans exactly `h` in height. -/
theorem split_rowSpan (hb : T.Block r c r2 c2 w h) :
    (T.split r2 c2 (T.X (c2 + 1) - T.X c - w) (T.Y (r2 + 1) - T.Y r - h)).RowSpan r h r2 := by
  refine ⟨hb.rs.1, Nat.lt_of_lt_of_le hb.rs.2.1 (split_rows_ge _ _ _ _ _), ?_, ?_⟩
  · rw [split_Y_le _ _ _ _ _ (Nat.le_refl r2), split_Y_le _ _ _ _ _ hb.rs.1]
    exact hb.rs.2.2.1
  · rw [split_Y_succ, split_Y_le _ _ _ _ _ hb.rs.1]
    omega

theorem place_X (hb : T.Block r c r2 c2 w h) : (T.place r c r2 c2 w h).X c = T.X c := by
  show (T.split r2 c2 _ _).X c = T.X c
  exact split_X_le _ _ _ _ _ hb.cs.1

theorem place_Y (hb : T.Block r c r2 c2 w h) : (T.place r c r2 c2 w h).Y r = T.Y r := by
  show (T.split r2 c2 _ _).Y r = T.Y r
  exact split_Y_le _ _ _ _ _ hb.rs.1

/-- The filled region after a commit is the filled region before it plus the placed
rectangle. -/
theorem place_covered (hv : T.Valid) (hb : T.Block r c r2 c2 w h) (px py : Int) :
    (T.place r c r2 c2 w h).Covered px py ↔
      (T.Covered px py ∨ (Rect.mk (T.X c) (T.Y r) w h).Contains px py) := by
  have hv1 := split_valid hv hb.rs.2.1 hb.cs.2.1 hb.aw_nonneg hb.aw_lt hb.ah_nonneg hb.ah_lt
  unfold Tbl.place
  rw [covered_setBlock hv1 hb.rs.1 (Nat.lt_of_lt_of_le hb.rs.2.1 (split_rows_ge _ _ _ _ _))
    hb.cs.1 (Nat.lt_of_lt_of_le hb.cs.2.1 (split_cols_ge _ _ _ _ _)),
    covered_split hb.rs.2.1 hb.cs.2.1 hb.aw_nonneg hb.aw_lt hb.ah_nonneg hb.ah_lt,
    split_X_le _ _ _ _ _ hb.cs.1, split_Y_le _ _ _ _ _ hb.rs.1, split_X_succ, split_Y_succ]
  unfold Rect.Contains
  have e1 : T.X (c2 + 1) - (T.X (c2 + 1) - T.X c - w) = T.X c + w := by omega
  have e2 : T.Y (r2 + 1) - (T.Y (r2 + 1) - T.Y r - h) = T.Y r + h := by omega
  rw [e1, e2]

/-- The placed rectangle was free before the commit. -/
theorem rect_free (hv : T.Valid) (hb : T.Block r c r2 c2 w h) {px py : Int}
    (hin : (Rect.mk (T.X c) (T.Y r) w h).Contains px py) : ¬ T.Covered px py := by
  obtain ⟨h1, h2, h3, h4⟩ := hin
  have := hb.cs.2.2.2
  have := hb.rs.2.2.2
  exact not_covered_of_free hv hb.rs.1 hb.rs.2.1 hb.cs.1 hb.cs.2.1 hb.free h1
    (by simp only at h2; omega) h3 (by simp only at h4; omega)

/-- The placed rectangle lies on the canvas. -/
theorem rect_inside (hv : T.Valid) (hb : T.Block r c r2 c2 w h) :
    0 ≤ T.X c ∧ T.X c + w ≤ T.X T.cols ∧ 0 ≤ T.Y r ∧ T.Y r + h ≤ T.Y T.rows := by
  have a1 := X_le hv (Nat.zero_le c) (by have := hb.cs.1; have := hb.cs.2.1; omega)
  have a2 := X_le hv (a := c2 + 1) (b := T.cols) hb.cs.2.1 (Nat.le_refl _)
  have a3 := Y_le hv (Nat.zero_le r) (by have := hb.rs.1; have := hb.rs.2.1; omega)
  have a4 := Y_le hv (a := r2 + 1) (b := T.rows) hb.rs.2.1 (Nat.le_refl _)
  have := hb.cs.2.2.2
  have := hb.rs.2.2.2
  rw [X_zero] at a1
  rw [Y_zero] at a3
  exact ⟨a1, by omega, a3, by omega⟩

end Block

end Tbl

/-! ## The two commit paths of `PackMostFit` -/

namespace Represents

theorem place_cols (T : Tbl) (r c r2 c2 : Nat) (w h : Int) :
    (T.place r c r2 c2 w h).cols
      = (T.split r2 c2 (T.X (c2 + 1) - T.X c - w) (T.Y (r2 + 1) - T.Y r - h)).cols := rfl

/-- Correctness of `PackCombined` on a free block of a stored table: it returns the origin of the block and
leaves the table with the block cut to size and filled. -/
theorem packCombined_spec {p : RectPacker} {T : Tbl} (h : Represents p T) {r c r2 c2 : Nat}
    {w hh : Int} (hb : T.Block r c r2 c2 w hh) (rotated : Bool) :
    ∃ q, p.PackCombined (r * T.cols + c) w hh rotated = some (⟨T.X c, T.Y r, rotated⟩, q) ∧
      Represents q (T.place r c r2 c2 w hh) ∧
      q.m_MaxWidth = p.m_MaxWidth ∧ q.m_MaxHeight = p.m_MaxHeight := by
  have hc : c < T.cols := by have := hb.cs.1; have := hb.cs.2.1; omega
  have hr : r < T.rows := by have := hb.rs.1; have := hb.rs.2.1; omega
  obtain ⟨q1, hq1, hrep1, hw1, hh1⟩ := h.getCombined_spec hb.rs hb.cs false
  rw [hb.setBlock_false] at hrep1
  obtain ⟨q2, hq2, hrep2, hw2, hh2⟩ := hrep1.segment_spec hb.rs.2.1 hb.cs.2.1 hb.aw_nonneg
    hb.aw_lt hb.ah_nonneg hb.ah_lt false
  have hbox : r * T.cols + c + (if q1.m_Columns = q2.m_Columns then 0
      else (r * T.cols + c) / p.m_Columns)
      = r * (T.split r2 c2 (T.X (c2 + 1) - T.X c - w) (T.Y (r2 + 1) - T.Y r - hh)).cols + c := by
    rw [hrep1.cols, hrep2.cols, h.cols, idx_div r hc, split_cols]
    by_cases h0 : T.X (c2 + 1) - T.X c - w = 0
    · simp [h0]
    · simp only [ne_eq, h0, not_false_eq_true, if_true]
      have : ¬ (T.cols = T.cols + 1) := by omega
      rw [if_neg this, Nat.mul_succ]
      omega
  obtain ⟨q3, hq3, hrep3, hw3, hh3⟩ := hrep2.getCombined_spec hb.split_rowSpan hb.split_colSpan
    true
  have hrep3' : Represents q3 (T.place r c r2 c2 w hh) := hrep3
  have hr3 : r < (T.place r c r2 c2 w hh).rows := Nat.lt_of_lt_of_le hr (Tbl.split_rows_ge _ _ _ _ _)
  have hc3 : c < (T.place r c r2 c2 w hh).cols := Nat.lt_of_lt_of_le hc (Tbl.split_cols_ge _ _ _ _ _)
  have ht := hrep3'.getTransform_eq hr3 hc3 (T.X (c2 + 1) - T.X c) 0 rotated
  refine ⟨q3, ?_, hrep3', by rw [hw3, hw2, hw1], by rw [hh3, hh2, hh1]⟩
  simp only [RectPacker.PackCombined, hq1, Option.bind_eq_bind, Option.some_bind, hq2, hbox, hq3,
    Option.pure_def]
  rw [place_cols] at ht
  unfold RectPacker.GetTransform at ht ⊢
  rw [hb.place_X, hb.place_Y] at ht
  simp only [Option.bind_eq_bind, Option.pure_def] at ht ⊢
  rw [ht]
  rfl

/-- The single-cell commit of `PackMostFit` on a free cell the request fits: `Segment` with
the dead space, mark the cell filled, return its origin. -/
theorem packDirect_spec {p : RectPacker} {T : Tbl} (h : Represents p T) {r c : Nat}
    {w hh : Int} (hb : T.Block r c r c w hh) (rotated : Bool) :
    ∃ q1 q i cell, p.Segment (r * T.cols + c) ((T.cell r c).CheckFit w hh) = some (q1, i) ∧
      q1.m_BoundingBoxes[i]? = some cell ∧
      q = { q1 with m_BoundingBoxes := q1.m_BoundingBoxes.set i { cell with Filled := true } } ∧
      q.GetTransform i cell.Width cell.Height rotated = some ⟨T.X c, T.Y r, rotated⟩ ∧
      Represents q (T.place r c r c w hh) ∧
      q.m_MaxWidth = p.m_MaxWidth ∧ q.m_MaxHeight = p.m_MaxHeight := by
  have hc : c < T.cols := hb.cs.2.1
  have hr : r < T.rows := hb.rs.2.1
  have hXs := T.X_succ c
  have hYs := T.Y_succ r
  have hfit : (T.cell r c).CheckFit w hh
      = ⟨T.X (c + 1) - T.X c - w, T.Y (r + 1) - T.Y r - hh, true⟩ := by
    have h1 := hb.aw_nonneg
    have h2 := hb.ah_nonneg
    have hn : ¬ (T.cw c - w < 0 ∨ T.rh r - hh < 0) := by omega
    simp only [BoundingBox.CheckFit, Tbl.cell, if_neg hn]
    congr 1 <;> omega
  obtain ⟨q1, hq1, hrep1, hw1, hh1⟩ := h.segment_spec hr hc hb.aw_nonneg hb.aw_lt hb.ah_nonneg
    hb.ah_lt true
  have hr1 := Nat.lt_of_lt_of_le hr (Tbl.split_rows_ge T r c (T.X (c + 1) - T.X c - w)
    (T.Y (r + 1) - T.Y r - hh))
  have hc1 := Nat.lt_of_lt_of_le hc (Tbl.split_cols_ge T r c (T.X (c + 1) - T.X c - w)
    (T.Y (r + 1) - T.Y r - hh))
  have hget := hrep1.get hr1 hc1
  have hst := hrep1.stores.set hr1 hc1
    { (T.split r c (T.X (c + 1) - T.X c - w) (T.Y (r + 1) - T.Y r - hh)).cell r c with
      Filled := true }
  have hrep2 : Represents
      { q1 with m_BoundingBoxes := (q1.m_BoundingBoxes.set
        (r * (T.split r c (T.X (c + 1) - T.X c - w) (T.Y (r + 1) - T.Y r - hh)).cols + c)
        { (T.split r c (T.X (c + 1) - T.X c - w) (T.Y (r + 1) - T.Y r - hh)).cell r c with
          Filled := true }) }
      (T.place r c r c w hh) := by
    refine hrep1.withFill (F := fun k j => if r ≤ k ∧ k ≤ r ∧ c ≤ j ∧ j ≤ c then true
      else (T.split r c (T.X (c + 1) - T.X c - w) (T.Y (r + 1) - T.Y r - hh)).fill k j)
      (hst.congr ?_)
    intro a b _ _
    simp only [Tbl.withFill, Tbl.cell]
    by_cases hab : a = r ∧ b = c
    · have : r ≤ a ∧ a ≤ r ∧ c ≤ b ∧ b ≤ c := by omega
      rw [if_pos hab, if_pos this, hab.1, hab.2]
    · have : ¬ (r ≤ a ∧ a ≤ r ∧ c ≤ b ∧ b ≤ c) := fun hh' => hab (by omega)
      rw [if_neg hab, if_neg this]
  refine ⟨q1, _, _, _, by rw [hfit]; exact hq1, hget, rfl, ?_, hrep2, hw1, hh1⟩
  have ht := hrep2.getTransform_eq (r := r) (c := c) hr1 hc1
    ((T.split r c (T.X (c + 1) - T.X c - w) (T.Y (r + 1) - T.Y r - hh)).cell r c).Width
    ((T.split r c (T.X (c + 1) - T.X c - w) (T.Y (r + 1) - T.Y r - hh)).cell r c).Height rotated
  rw [hb.place_X, hb.place_Y] at ht
  exact ht

end Represents

/-! ## `Pack` as a step on tables -/

namespace Represents

theorem block_of_fits {T : Tbl} {r c : Nat} {w h : Int} (hr : r < T.rows) (hc : c < T.cols)
    (hfree : T.fill r c = false) (hw : 0 < w) (hh : 0 < h) (hfw : w ≤ T.cw c)
    (hfh : h ≤ T.rh r) : T.Block r c r c w h := by
  have hXs := T.X_succ c
  have hYs := T.Y_succ r
  refine ⟨⟨Nat.le_refl r, hr, by omega, by omega⟩, ⟨Nat.le_refl c, hc, by omega, by omega⟩, ?_⟩
  intro k j h1 h2 h3 h4
  have e1 : k = r := by omega
  have e2 : j = c := by omega
  rw [e1, e2]
  exact hfree

theorem blockFree_iff {T : Tbl} {r c : Nat} {w h : Int} :
    T.BlockFree r c w h ↔ ∃ r2 c2, T.Block r c r2 c2 w h := by
  constructor
  · rintro ⟨r2, c2, a, b, d⟩
    exact ⟨r2, c2, ⟨a, b, d⟩⟩
  · rintro ⟨r2, c2, ⟨a, b, d⟩⟩
    exact ⟨r2, c2, a, b, d⟩

/-- Correctness of `EvaluateBox` on a free cell of a stored table: it returns, and it records a candidate
exactly when the block that starts at the cell and covers the request in the given
orientation exists and is free. -/
theorem evaluateBox_spec {p : RectPacker} {T : Tbl} (h : Represents p T) {r c : Nat}
    (hr : r < T.rows) (hc : c < T.cols) (hfree : T.fill r c = false) {width height : Int}
    (hw : 0 < width) (hh : 0 < height) (rot : Bool) (acc : List Fit) :
    ∃ out, p.EvaluateBox width height (r * T.cols + c) rot acc = some out ∧
      ((out = acc ∧ ¬ T.BlockFree r c (if rot then height else width)
          (if rot then width else height)) ∨
       (∃ f, out = acc ++ [f] ∧ f.box = r * T.cols + c ∧ f.rotated = rot ∧
          T.Cand width height f)) := by
  have hw' : 0 < (if rot then height else width) := by split_ifs <;> assumption
  have hh' : 0 < (if rot then width else height) := by split_ifs <;> assumption
  simp only [RectPacker.EvaluateBox, h.get hr hc, Option.bind_eq_bind, Option.some_bind,
    Option.pure_def]
  by_cases hfit : (if rot then height else width) ≤ T.cw c ∧
      (if rot then width else height) ≤ T.rh r
  · have hn : ¬ (T.cw c - (if rot = true then height else width) < 0 ∨
        T.rh r - (if rot = true then width else height) < 0) := by omega
    have hcf : ((T.cell r c).CheckFit (if rot = true then height else width)
        (if rot = true then width else height)).Filled = true := by
      simp only [BoundingBox.CheckFit, Tbl.cell, if_neg hn]
    rw [if_pos hcf, h.esa_eq hr hc]
    simp only [Option.some_bind]
    refine ⟨_, rfl, Or.inr ⟨_, rfl, rfl, rfl, r, c, r, c, rfl, ?_, fun _ => ⟨rfl, rfl⟩⟩⟩
    exact block_of_fits hr hc hfree hw' hh' hfit.1 hfit.2
  · have hn : (T.cw c - (if rot = true then height else width) < 0 ∨
        T.rh r - (if rot = true then width else height) < 0) := by omega
    have hcf : ¬ ((T.cell r c).CheckFit (if rot = true then height else width)
        (if rot = true then width else height)).Filled = true := by
      simp only [BoundingBox.CheckFit, Tbl.cell, if_pos hn]
      exact Bool.noConfusion
    rw [if_neg hcf]
    obtain ⟨res, hres, hiff⟩ := h.tryCombine_spec hr hc hfree hw' hh'
    rw [hres]
    simp only [Option.some_bind]
    cases res with
    | none =>
      refine ⟨_, rfl, Or.inl ⟨rfl, ?_⟩⟩
      intro hbf
      have := hiff.mpr hbf
      simp at this
    | some e =>
      obtain ⟨r2, c2, hb⟩ := blockFree_iff.mp (hiff.mp rfl)
      refine ⟨_, rfl, Or.inr ⟨_, rfl, rfl, rfl, r, c, r2, c2, rfl, hb, ?_⟩⟩
      intro hcomb
      exact Bool.noConfusion hcomb

/-- The candidate loop of `Pack` on a stored table: it returns; every recorded candidate is
a free block; when nothing is recorded, no free cell of the scanned range starts a free
block in either orientation. -/
theorem scan_spec {p : RectPacker} {T : Tbl} (h : Represents p T) {width height : Int}
    (hw : 0 < width) (hh : 0 < height) :
    ∀ (idxs : List Nat) (acc : List Fit), (∀ i ∈ idxs, i < T.rows * T.cols) →
      (∀ f ∈ acc, T.Cand width height f) →
    ∃ out, RectPacker.Pack.scan p width height idxs acc = some out ∧
      (∀ f ∈ out, T.Cand width height f) ∧
      (out = [] → acc = [] ∧ ∀ i ∈ idxs, ∀ rot : Bool,
        T.fill (i / T.cols) (i % T.cols) = false →
        ¬ T.BlockFree (i / T.cols) (i % T.cols) (if rot then height else width)
          (if rot then width else height)) := by
  intro idxs
  induction idxs with
  | nil =>
    intro acc _ hacc
    exact ⟨acc, rfl, hacc, fun he => ⟨he, fun i hi => absurd hi (List.not_mem_nil i)⟩⟩
  | cons i rest ih =>
    intro acc hidx hacc
    have hi : i < T.rows * T.cols := hidx i (List.mem_cons_self i rest)
    have hrest : ∀ j ∈ rest, j < T.rows * T.cols :=
      fun j hj => hidx j (List.mem_cons_of_mem i hj)
    have hd := idx_decomp h.valid.cols_pos i
    have hr : i / T.cols < T.rows := idx_row_lt hi
    have hget := h.get hr hd.2
    rw [← hd.1] at hget
    simp only [RectPacker.Pack.scan, hget, Option.bind_eq_bind, Option.some_bind]
    have hfl : (T.cell (i / T.cols) (i % T.cols)).Filled = T.fill (i / T.cols) (i % T.cols) := rfl
    rw [hfl]
    by_cases hfill : T.fill (i / T.cols) (i % T.cols) = true
    · rw [if_pos hfill]
      obtain ⟨out, hout, hc1, hc2⟩ := ih acc hrest hacc
      refine ⟨out, hout, hc1, fun he => ⟨(hc2 he).1, ?_⟩⟩
      intro j hj rot hjfree
      rcases List.mem_cons.mp hj with rfl | hj'
      · rw [hjfree] at hfill
        exact Bool.noConfusion hfill
      · exact (hc2 he).2 j hj' rot hjfree
    · rw [if_neg hfill]
      have hfree : T.fill (i / T.cols) (i % T.cols) = false := by simpa using hfill
      have e1 := h.evaluateBox_spec hr hd.2 hfree hw hh false acc
      rw [← hd.1] at e1
      obtain ⟨out1, ho1, hcase1⟩ := e1
      have hacc1 : ∀ f ∈ out1, T.Cand width height f := by
        rcases hcase1 with ⟨he, _⟩ | ⟨f, he, _, _, hcand⟩
        · rw [he]; exact hacc
        · rw [he]
          intro g hg
          rcases List.mem_append.mp hg with hg | hg
          · exact hacc g hg
          · rw [List.mem_singleton.mp hg]; exact hcand
      have e2 := h.evaluateBox_spec hr hd.2 hfree hw hh true out1
      rw [← hd.1] at e2
      obtain ⟨out2, ho2, hcase2⟩ := e2
      have hacc2 : ∀ f ∈ out2, T.Cand width height f := by
        rcases hcase2 with ⟨he, _⟩ | ⟨f, he, _, _, hcand⟩
        · rw [he]; exact hacc1
        · rw [he]
          intro g hg
          rcases List.mem_append.mp hg with hg | hg
          · exact hacc1 g hg
          · rw [List.mem_singleton.mp hg]; exact hcand
      rw [ho1]
      simp only [Option.some_bind, ho2]
      obtain ⟨out, hout, hc1, hc2⟩ := ih out2 hrest hacc2
      refine ⟨out, hout, hc1, ?_⟩
      intro he
      obtain ⟨he2, hno⟩ := hc2 he
      have hn2 : out2 = out1 ∧ ¬ T.BlockFree (i / T.cols) (i % T.cols)
          (if true = true then height else width) (if true = true then width else height) := by
        rcases hcase2 with hh2 | ⟨f, hf, _⟩
        · exact hh2
        · rw [he2] at hf
          exact absurd hf.symm (List.append_ne_nil_of_right_ne_nil _ (List.cons_ne_nil f []))
      have he1 : out1 = [] := by rw [← hn2.1]; exact he2
      have hn1 : out1 = acc ∧ ¬ T.BlockFree (i / T.cols) (i % T.cols)
          (if false = true then height else width) (if false = true then width else height) := by
        rcases hcase1 with hh1 | ⟨f, hf, _⟩
        · exact hh1
        · rw [he1] at hf
          exact absurd hf.symm (List.append_ne_nil_of_right_ne_nil _ (List.cons_ne_nil f []))
      refine ⟨by rw [← hn1.1]; exact he1, ?_⟩
      intro j hj rot hjfree
      rcases List.mem_cons.mp hj with rfl | hj'
      · cases rot
        · exact hn1.2
        · exact hn2.2
      · exact hno j hj' rot hjfree

end Represents

/-! ## The specification of `Pack` on a stored table -/

theorem SortsByScore.head_mem {sort : List Fit → List Fit} (hs : SortsByScore sort)
    {fits : List Fit} (hne : fits ≠ []) : ∃ best, (sort fits)[0]? = some best ∧ best ∈ fits := by
  have hperm := (hs fits).1
  cases hsf : sort fits with
  | nil =>
    rw [hsf] at hperm
    exact absurd (List.Perm.nil_eq hperm) (fun e => hne e.symm)
  | cons a l =>
    rw [hsf] at hperm
    exact ⟨a, List.getElem?_cons_zero, hperm.mem_iff.mp (List.mem_cons_self a l)⟩

namespace Represents

/-- Behaviour of `Pack` on a stored table with a positive request.  It always returns.  Either it returns
the sentinel, leaves the state as it was, and no free cell starts a free block for the
request in either orientation; or it commits a free block `(r, c)..(r2, c2)` for one
orientation, returns the origin of that block, and the new state stores the table with the
block cut to size and filled. -/
theorem pack_spec {sort : List Fit → List Fit} (hs : SortsByScore sort) {p : RectPacker}
    {T : Tbl} (h : Represents p T) {width height : Int} (hw : 0 < width) (hh : 0 < height) :
    ∃ t q, p.Pack sort width height = some (t, q) ∧
      ((t = sentinel ∧ q = p ∧ ∀ r c, r < T.rows → c < T.cols → ∀ rot : Bool,
          T.fill r c = false →
          ¬ T.BlockFree r c (if rot then height else width) (if rot then width else height)) ∨
       (∃ r c r2 c2, ∃ rot : Bool,
          T.Block r c r2 c2 (if rot then height else width) (if rot then width else height) ∧
          t = ⟨T.X c, T.Y r, rot⟩ ∧
          Represents q (T.place r c r2 c2 (if rot then height else width)
            (if rot then width else height)) ∧
          q.m_MaxWidth = p.m_MaxWidth ∧ q.m_MaxHeight = p.m_MaxHeight)) := by
  have hidx : ∀ i ∈ List.range p.m_BoundingBoxes.length, i < T.rows * T.cols := by
    intro i hi
    rw [← h.stores.len]
    exact List.mem_range.mp hi
  obtain ⟨fits, hscan, hcand, hempty⟩ := h.scan_spec hw hh (List.range p.m_BoundingBoxes.length) []
    hidx (fun f hf => absurd hf (List.not_mem_nil f))
  simp only [RectPacker.Pack, hscan, Option.bind_eq_bind, Option.some_bind, Option.pure_def]
  by_cases hfe : fits = []
  · subst hfe
    refine ⟨_, _, rfl, Or.inl ⟨rfl, rfl, ?_⟩⟩
    intro r c hr hc rot hfree
    have hlt := idx_lt hr hc
    have := (hempty rfl).2 (r * T.cols + c)
      (List.mem_range.mpr (by rw [h.stores.len]; exact hlt)) rot
    rw [idx_div r hc, idx_mod r hc] at this
    exact this hfree
  · have hne : ¬ fits.isEmpty = true := by
      rw [List.isEmpty_iff]; exact hfe
    rw [if_neg hne]
    obtain ⟨best, hbest, hmem⟩ := hs.head_mem hfe
    obtain ⟨r, c, r2, c2, hbox, hb, hdir⟩ := hcand best hmem
    simp only [RectPacker.PackMostFit, hbest, Option.bind_eq_bind, Option.some_bind,
      Option.pure_def]
    by_cases hcomb : best.combined = true
    · rw [if_pos hcomb, hbox]
      obtain ⟨q, hq, hrep, hmw, hmh⟩ := h.packCombined_spec hb best.rotated
      exact ⟨_, q, hq, Or.inr ⟨r, c, r2, c2, best.rotated, hb, rfl, hrep, hmw, hmh⟩⟩
    · rw [if_neg hcomb]
      have hcf : best.combined = false := by simpa using hcomb
      obtain ⟨e1, e2⟩ := hdir hcf
      subst e1 e2
      obtain ⟨q1, q, i, cell, hseg, hget, hqe, htr, hrep, hmw, hmh⟩ :=
        h.packDirect_spec hb best.rotated
      have hc : c2 < T.cols := hb.cs.2.1
      have hr : r2 < T.rows := hb.rs.2.1
      rw [hbox, h.get hr hc]
      simp only [Option.some_bind, hseg, hget]
      rw [← hqe, htr]
      exact ⟨_, q, rfl, Or.inr ⟨r2, c2, r2, c2, best.rotated, hb, rfl, hrep, hmw, hmh⟩⟩

end Represents

/-! ## Reachable states -/

theorem stableSort_sorts : SortsByScore stableSort := by
  intro fits
  haveI : IsTotal Fit (fun a b => a.exposed ≤ b.exposed) := ⟨fun a b => le_total _ _⟩
  haveI : IsTrans Fit (fun a b => a.exposed ≤ b.exposed) := ⟨fun _ _ _ h1 h2 => le_trans h1 h2⟩
  exact ⟨List.perm_insertionSort _ fits,
    List.sorted_insertionSort (fun a b : Fit => a.exposed ≤ b.exposed) fits⟩

theorem represents_single {W H : Int} (hW : 0 < W) (hH : 0 < H) (b : Bool) :
    Represents ⟨W, H, 1, 1, [⟨W, H, b⟩]⟩ (Tbl.single W H b) := by
  refine ⟨rfl, rfl, ⟨rfl, ?_⟩, ⟨Nat.le_refl 1, Nat.le_refl 1, fun _ _ => hW, fun _ _ => hH⟩, ?_, ?_⟩
  · intro r c hr hc
    have hr0 : r = 0 := by
      have : r < 1 := hr
      omega
    have hc0 : c = 0 := by
      have : c < 1 := hc
      omega
    subst hr0 hc0
    rfl
  · show psum (fun _ => W) 1 = W
    simp [psum]
  · show psum (fun _ => H) 1 = H
    simp [psum]

theorem represents_new {W H : Int} (hW : 0 < W) (hH : 0 < H) :
    Represents (RectPacker.new W H) (Tbl.single W H false) :=
  represents_single hW hH false

namespace Represents

/-- The two outcomes of a `Pack` call, read off its result. -/
theorem pack_result {sort : List Fit → List Fit} (hs : SortsByScore sort) {p : RectPacker}
    {T : Tbl} (h : Represents p T) {width height : Int} (hw : 0 < width) (hh : 0 < height)
    {t : Transform} {q : RectPacker} (hq : p.Pack sort width height = some (t, q)) :
    (t = sentinel ∧ q = p ∧ ∀ r c, r < T.rows → c < T.cols → ∀ rot : Bool,
        T.fill r c = false →
        ¬ T.BlockFree r c (if rot then height else width) (if rot then width else height)) ∨
    (∃ r c r2 c2, ∃ rot : Bool,
        T.Block r c r2 c2 (if rot then height else width) (if rot then width else height) ∧
        t = ⟨T.X c, T.Y r, rot⟩ ∧
        Represents q (T.place r c r2 c2 (if rot then height else width)
          (if rot then width else height)) ∧
        q.m_MaxWidth = p.m_MaxWidth ∧ q.m_MaxHeight = p.m_MaxHeight) := by
  obtain ⟨t', q', hq', hcase⟩ := h.pack_spec hs hw hh
  rw [hq] at hq'
  obtain ⟨e1, e2⟩ := Prod.mk.inj (Option.some.inj hq')
  subst e1 e2
  exact hcase

theorem origin_ne_sentinel {T : Tbl} (hv : T.Valid) {c : Nat} (hc : c ≤ T.cols) (y : Int)
    (rot : Bool) : (⟨T.X c, y, rot⟩ : Transform) ≠ sentinel := by
  intro he
  have h1 : T.X c = -1 := congrArg Transform.xOffset he
  have h2 := Tbl.X_le hv (Nat.zero_le c) hc
  rw [Tbl.X_zero] at h2
  omega

theorem gridInvariant {p : RectPacker} {T : Tbl} (h : Represents p T) : p.GridInvariant := by
  refine ⟨by rw [h.stores.len, h.rows, h.cols], ?_, ?_⟩
  · intro r hr
    rw [h.rows] at hr
    unfold RectPacker.rowWidth
    rw [h.cols, ← h.width]
    exact h.cellX hr (Nat.le_refl _)
  · intro c hc
    rw [h.cols] at hc
    unfold RectPacker.columnHeight
    rw [h.rows, ← h.height]
    exact h.cellY (Nat.le_refl _) hc

end Represents

theorem Reachable.wf {sort : List Fit → List Fit} (hs : SortsByScore sort) {p : RectPacker}
    (hp : Reachable sort p) : WF p := by
  induction hp with
  | init W H hW hH => exact ⟨_, represents_new hW hH⟩
  | pack p width height t q _ hw hh hq ih =>
    obtain ⟨T, hT⟩ := ih
    rcases hT.pack_result hs hw hh hq with ⟨_, he, _⟩ | ⟨r, c, r2, c2, rot, _, _, hrep, _, _⟩
    · rw [he]; exact ⟨T, hT⟩
    · exact ⟨_, hrep⟩

/-- A sequence of `Pack` calls with positive requests on a well-formed state returns, and
every state on the way is reachable when the first one is. -/
theorem packAll_total {sort : List Fit → List Fit} (hs : SortsByScore sort) :
    ∀ (reqs : List (Int × Int)) (p : RectPacker), WF p → (∀ q ∈ reqs, 0 < q.1 ∧ 0 < q.2) →
    ∃ ts q, RectPacker.PackAll sort p reqs = some (ts, q) ∧ WF q ∧
      q.m_MaxWidth = p.m_MaxWidth ∧ q.m_MaxHeight = p.m_MaxHeight ∧
      (Reachable sort p → Reachable sort q) := by
  intro reqs
  induction reqs with
  | nil => intro p hp _; exact ⟨[], p, rfl, hp, rfl, rfl, id⟩
  | cons rq rest ih =>
    intro p hp hpos
    obtain ⟨width, height⟩ := rq
    have hwh := hpos (width, height) (List.mem_cons_self _ _)
    obtain ⟨T, hT⟩ := hp
    obtain ⟨t, q, hq, hcase⟩ := hT.pack_spec hs hwh.1 hwh.2
    have hwfq : WF q ∧ q.m_MaxWidth = p.m_MaxWidth ∧ q.m_MaxHeight = p.m_MaxHeight := by
      rcases hcase with ⟨_, he, _⟩ | ⟨r, c, r2, c2, rot, _, _, hrep, hm1, hm2⟩
      · rw [he]; exact ⟨⟨T, hT⟩, rfl, rfl⟩
      · exact ⟨⟨_, hrep⟩, hm1, hm2⟩
    obtain ⟨ts, q', hq', hwf', hm1, hm2, hreach⟩ := ih q hwfq.1
      (fun x hx => hpos x (List.mem_cons_of_mem _ hx))
    refine ⟨t :: ts, q', ?_, hwf', by rw [hm1, hwfq.2.1], by rw [hm2, hwfq.2.2], ?_⟩
    · simp only [RectPacker.PackAll, hq, Option.bind_eq_bind, Option.some_bind, hq',
        Option.pure_def]
    · intro hr
      exact hreach (Reachable.pack p width height t q hr hwh.1 hwh.2 hq)

/-! ## Placements and blocks -/

theorem placedRect_eq (x y : Int) (rot : Bool) (width height : Int) :
    placedRect ⟨x, y, rot⟩ width height
      = ⟨x, y, if rot then height else width, if rot then width else height⟩ := by
  cases rot <;> rfl

theorem Rect.exists_common_point {A B : Rect} (hA : 0 < A.w ∧ 0 < A.h) (hB : 0 < B.w ∧ 0 < B.h)
    (h : A.Overlaps B) : ∃ px py, A.Contains px py ∧ B.Contains px py := by
  obtain ⟨h1, h2, h3, h4⟩ := h
  refine ⟨max A.x B.x, max A.y B.y, ⟨?_, ?_, ?_, ?_⟩, ⟨?_, ?_, ?_, ?_⟩⟩ <;> omega

namespace Tbl

/-- A rectangle on the canvas that meets no filled cell can be moved left and up to the
origin of the cell that holds its top-left corner; there it is a free block. -/
theorem block_of_placement {T : Tbl} (hv : T.Valid) {w h x y : Int} (hw : 0 < w) (hh : 0 < h)
    (hx0 : 0 ≤ x) (hx1 : x + w ≤ T.X T.cols) (hy0 : 0 ≤ y) (hy1 : y + h ≤ T.Y T.rows)
    (hfree : ∀ px py, (Rect.mk x y w h).Contains px py → ¬ T.Covered px py) :
    ∃ r c, r < T.rows ∧ c < T.cols ∧ T.fill r c = false ∧ T.BlockFree r c w h := by
  obtain ⟨c, _, hc, hc1, hc2⟩ := psum_locate T.cw (Nat.zero_le T.cols)
    (x := x) (by simpa [psum] using hx0) (by unfold Tbl.X at hx1; omega)
  obtain ⟨r, _, hr, hr1, hr2⟩ := psum_locate T.rh (Nat.zero_le T.rows)
    (x := y) (by simpa [psum] using hy0) (by unfold Tbl.Y at hy1; omega)
  have hXc : T.X c ≤ x := hc1
  have hXc1 : x < T.X (c + 1) := hc2
  have hYr : T.Y r ≤ y := hr1
  have hYr1 : y < T.Y (r + 1) := hr2
  obtain ⟨c2, hc2a, hc2b, hc2c, hc2d⟩ := psum_locate T.cw (Nat.le_of_lt hc)
    (x := T.X c + w - 1) (by show T.X c ≤ _; omega) (by show _ < T.X T.cols; omega)
  obtain ⟨r2, hr2a, hr2b, hr2c, hr2d⟩ := psum_locate T.rh (Nat.le_of_lt hr)
    (x := T.Y r + h - 1) (by show T.Y r ≤ _; omega) (by show _ < T.Y T.rows; omega)
  have hX2 : T.X c2 ≤ T.X c + w - 1 := hc2c
  have hX2' : T.X c + w - 1 < T.X (c2 + 1) := hc2d
  have hY2 : T.Y r2 ≤ T.Y r + h - 1 := hr2c
  have hY2' : T.Y r + h - 1 < T.Y (r2 + 1) := hr2d
  have hblock : ∀ k j, r ≤ k → k ≤ r2 → c ≤ j → j ≤ c2 → T.fill k j = false := by
    intro k j hk1 hk2 hj1 hj2
    by_contra hne
    have hfill : T.fill k j = true := by simpa using hne
    have a1 := X_le hv (a := c + 1) (b := j + 1) (by omega) (by omega)
    have a2 := X_le hv (a := j) (b := c2) hj2 (Nat.le_of_lt hc2b)
    have a3 := X_lt hv (a := j) (b := j + 1) (Nat.lt_succ_self j) (by omega)
    have b1 := Y_le hv (a := r + 1) (b := k + 1) (by omega) (by omega)
    have b2 := Y_le hv (a := k) (b := r2) hk2 (Nat.le_of_lt hr2b)
    have b3 := Y_lt hv (a := k) (b := k + 1) (Nat.lt_succ_self k) (by omega)
    refine hfree (max x (T.X j)) (max y (T.Y k)) ⟨?_, ?_, ?_, ?_⟩
      ⟨k, j, by omega, by omega, hfill, ?_, ?_, ?_, ?_⟩
    all_goals first | omega | (simp only; omega)
  refine ⟨r, c, hr, hc, hblock r c (Nat.le_refl r) hr2a (Nat.le_refl c) hc2a, r2, c2,
    ⟨hr2a, hr2b, by omega, by omega⟩, ⟨hc2a, hc2b, by omega, by omega⟩, hblock⟩

end Tbl

namespace Represents

/-- A free block of the table is a placement on the state. -/
theorem placement_of_block {p : RectPacker} {T : Tbl} (h : Represents p T) {r c r2 c2 : Nat}
    {w hh : Int} (hb : T.Block r c r2 c2 w hh) : p.Placement w hh (T.X c) (T.Y r) := by
  obtain ⟨a1, a2, a3, a4⟩ := hb.rect_inside h.valid
  rw [h.width] at a2
  rw [h.height] at a4
  refine ⟨a1, a2, a3, a4, ?_⟩
  intro px py hin
  rw [h.filledAt_iff]
  exact hb.rect_free h.valid hin

/-- A placement on the state yields a free block of the table. -/
theorem block_of_state_placement {p : RectPacker} {T : Tbl} (h : Represents p T) {w hh x y : Int}
    (hw : 0 < w) (hh' : 0 < hh) (hpl : p.Placement w hh x y) :
    ∃ r c, r < T.rows ∧ c < T.cols ∧ T.fill r c = false ∧ T.BlockFree r c w hh := by
  obtain ⟨a1, a2, a3, a4, a5⟩ := hpl
  rw [← h.width] at a2
  rw [← h.height] at a4
  refine Tbl.block_of_placement h.valid hw hh' a1 a2 a3 a4 ?_
  intro px py hin
  rw [← h.filledAt_iff]
  exact a5 px py hin

end Represents

/-! ## Sequences of calls -/

/-- Along a sequence of `Pack` calls on a stored table the placed rectangles are pairwise
disjoint, have positive size, and lay in the free part of the table the sequence started
from. -/
theorem packAll_disjoint {sort : List Fit → List Fit} (hs : SortsByScore sort) :
    ∀ (reqs : List (Int × Int)) (p : RectPacker) (T : Tbl), Represents p T →
      (∀ q ∈ reqs, 0 < q.1 ∧ 0 < q.2) →
    ∃ ts q, RectPacker.PackAll sort p reqs = some (ts, q) ∧
      (placedRects reqs ts).Pairwise (fun A B => ¬ A.Overlaps B) ∧
      ∀ R ∈ placedRects reqs ts, (0 < R.w ∧ 0 < R.h) ∧
        ∀ px py, R.Contains px py → ¬ T.Covered px py := by
  intro reqs
  induction reqs with
  | nil =>
    intro p T _ _
    exact ⟨[], p, rfl, List.Pairwise.nil, fun R hR => absurd hR (List.not_mem_nil R)⟩
  | cons rq rest ih =>
    intro p T hT hpos
    obtain ⟨width, height⟩ := rq
    have hwh := hpos (width, height) (List.mem_cons_self _ _)
    have hrest : ∀ q ∈ rest, 0 < q.1 ∧ 0 < q.2 := fun x hx => hpos x (List.mem_cons_of_mem _ hx)
    obtain ⟨t, q, hq, hcase⟩ := hT.pack_spec hs hwh.1 hwh.2
    rcases hcase with ⟨ht, he, _⟩ | ⟨r, c, r2, c2, rot, hb, ht, hrep, _, _⟩
    · subst he
      obtain ⟨ts, q', hq', hpw, hfree⟩ := ih q T hT hrest
      refine ⟨t :: ts, q', ?_, ?_, ?_⟩
      · simp only [RectPacker.PackAll, hq, Option.bind_eq_bind, Option.some_bind, hq',
          Option.pure_def]
      · simp only [placedRects, ht, if_true]
        exact hpw
      · simp only [placedRects, ht, if_true]
        exact hfree
    · obtain ⟨ts, q', hq', hpw, hfree⟩ := ih q _ hrep hrest
      have hcle : c ≤ T.cols := by have := hb.cs.1; have := hb.cs.2.1; omega
      have hne : ¬ t = sentinel := by
        rw [ht]; exact Represents.origin_ne_sentinel hT.valid hcle _ _
      have hw' : 0 < (if rot then height else width) := by split_ifs <;> first | exact hwh.1 | exact hwh.2
      have hh' : 0 < (if rot then width else height) := by split_ifs <;> first | exact hwh.1 | exact hwh.2
      have hR0 : placedRect t width height
          = ⟨T.X c, T.Y r, if rot then height else width, if rot then width else height⟩ := by
        rw [ht]; exact placedRect_eq _ _ _ _ _
      refine ⟨t :: ts, q', ?_, ?_, ?_⟩
      · simp only [RectPacker.PackAll, hq, Option.bind_eq_bind, Option.some_bind, hq',
          Option.pure_def]
      · simp only [placedRects, if_neg hne]
        refine List.Pairwise.cons ?_ hpw
        intro R hR hov
        obtain ⟨hRpos, hRfree⟩ := hfree R hR
        have hpos0 : 0 < (placedRect t width height).w ∧ 0 < (placedRect t width height).h := by
          rw [hR0]; exact ⟨hw', hh'⟩
        obtain ⟨px, py, hin0, hinR⟩ := Rect.exists_common_point hpos0 hRpos hov
        rw [hR0] at hin0
        exact hRfree px py hinR ((hb.place_covered hT.valid px py).mpr (Or.inr hin0))
      · simp only [placedRects, if_neg hne]
        intro R hR
        rcases List.mem_cons.mp hR with rfl | hR'
        · rw [hR0]
          exact ⟨⟨hw', hh'⟩, fun px py hin => hb.rect_free hT.valid hin⟩
        · obtain ⟨hRpos, hRfree⟩ := hfree R hR'
          exact ⟨hRpos, fun px py hin hcov =>
            hRfree px py hin ((hb.place_covered hT.valid px py).mpr (Or.inl hcov))⟩

/-! ## The claims -/

/-- C1 (no overlap).  On an allocator built with positive bounds, every finite sequence of
`Pack` calls with positive width and height returns, and the rectangles of its successful
calls, each `[xOffset, xOffset + w') × [yOffset, yOffset + h')` with `(w', h')` the request
swapped when rotated, are pairwise non-overlapping.  This holds for every tie-break of
`std::sort`. -/
theorem no_overlap (sort : List Fit → List Fit) (hs : SortsByScore sort)
    (maxWidth maxHeight : Int) (hW : 0 < maxWidth) (hH : 0 < maxHeight)
    (reqs : List (Int × Int)) (hreqs : ∀ q ∈ reqs, 0 < q.1 ∧ 0 < q.2) :
    ∃ ts q, RectPacker.PackAll sort (RectPacker.new maxWidth maxHeight) reqs = some (ts, q) ∧
      (placedRects reqs ts).Pairwise (fun A B => ¬ A.Overlaps B) := by
  obtain ⟨ts, q, hq, hpw, _⟩ := packAll_disjoint hs reqs _ _ (represents_new hW hH) hreqs
  exact ⟨ts, q, hq, hpw⟩

theorem no_overlap_witness :
    ∃ ts q, RectPacker.PackAll stableSort (RectPacker.new 10 10) [(4, 4), (6, 4), (3, 7)]
        = some (ts, q) ∧
      (placedRects [(4, 4), (6, 4), (3, 7)] ts).Pairwise (fun A B => ¬ A.Overlaps B) :=
  no_overlap stableSort stableSort_sorts 10 10 (by decide) (by decide)
    [(4, 4), (6, 4), (3, 7)] (by decide)

/-- C2 (rotation validity).  On a reachable state, a successful `Pack(width, height)` with
positive arguments and result `t` fills exactly its placed rectangle: the points that are
filled after the call and were free before it are the points of the rectangle with origin
`(t.xOffset, t.yOffset)` and size `height × width` when `t.rotated`, `width × height`
otherwise.  Both commit paths (single cell and combined) go through `Pack`. -/
theorem rotation_validity (sort : List Fit → List Fit) (hs : SortsByScore sort)
    (p : RectPacker) (hp : Reachable sort p) (width height : Int) (hw : 0 < width)
    (hh : 0 < height) (t : Transform) (q : RectPacker)
    (hq : p.Pack sort width height = some (t, q)) (hne : t ≠ sentinel) :
    ∀ px py, (q.FilledAt px py ∧ ¬ p.FilledAt px py) ↔
      (placedRect t width height).Contains px py := by
  obtain ⟨T, hT⟩ := hp.wf hs
  rcases hT.pack_result hs hw hh hq with ⟨ht, _, _⟩ | ⟨r, c, r2, c2, rot, hb, ht, hrep, _, _⟩
  · exact absurd ht hne
  · intro px py
    rw [hrep.filledAt_iff, hT.filledAt_iff, hb.place_covered hT.valid, ht, placedRect_eq]
    constructor
    · rintro ⟨h1 | h1, h2⟩
      · exact absurd h1 h2
      · exact h1
    · intro hin
      exact ⟨Or.inr hin, hb.rect_free hT.valid hin⟩

theorem rotation_validity_witness :
    ((RectPacker.mk 5 3 2 2 [⟨4, 2, true⟩, ⟨1, 2, false⟩, ⟨4, 1, false⟩,
        ⟨1, 1, false⟩]).FilledAt 3 1 ∧ ¬ (RectPacker.new 5 3).FilledAt 3 1) ↔
      (placedRect ⟨0, 0, true⟩ 2 4).Contains 3 1 :=
  rotation_validity stableSort stableSort_sorts (RectPacker.new 5 3)
    (Reachable.init 5 3 (by decide) (by decide)) 2 4 (by decide) (by decide) ⟨0, 0, true⟩
    ⟨5, 3, 2, 2, [⟨4, 2, true⟩, ⟨1, 2, false⟩, ⟨4, 1, false⟩, ⟨1, 1, false⟩]⟩
    (by decide) (by decide) 3 1

/-- C3 (grid invariant).  On an allocator built with positive bounds, after every sequence
of `Pack` calls with positive arguments (each successful or not) the cell sequence has
exactly `m_Rows * m_Columns` elements, the cell widths of every row sum to `maxWidth` and
the cell heights of every column sum to `maxHeight`. -/
theorem grid_invariant (sort : List Fit → List Fit) (hs : SortsByScore sort)
    (maxWidth maxHeight : Int) (hW : 0 < maxWidth) (hH : 0 < maxHeight)
    (reqs : List (Int × Int)) (hreqs : ∀ q ∈ reqs, 0 < q.1 ∧ 0 < q.2) :
    ∃ ts q, RectPacker.PackAll sort (RectPacker.new maxWidth maxHeight) reqs = some (ts, q) ∧
      q.GridInvariant ∧ q.m_MaxWidth = maxWidth ∧ q.m_MaxHeight = maxHeight := by
  obtain ⟨ts, q, hq, ⟨T, hT⟩, hm1, hm2, _⟩ :=
    packAll_total hs reqs _ ⟨_, represents_new hW hH⟩ hreqs
  exact ⟨ts, q, hq, hT.gridInvariant, hm1, hm2⟩

theorem grid_invariant_witness :
    ∃ ts q, RectPacker.PackAll stableSort (RectPacker.new 7 5) [(2, 3), (9, 9), (4, 1)]
        = some (ts, q) ∧
      q.GridInvariant ∧ q.m_MaxWidth = 7 ∧ q.m_MaxHeight = 5 :=
  grid_invariant stableSort stableSort_sorts 7 5 (by decide) (by decide)
    [(2, 3), (9, 9), (4, 1)] (by decide)

/-! ## Sentinel, offsets and boundary claims -/

namespace Represents

/-- On a table without a free cell every positive request returns the sentinel and leaves the
state as it was. -/
theorem pack_full {sort : List Fit → List Fit} (hs : SortsByScore sort) {p : RectPacker}
    {T : Tbl} (h : Represents p T) (hfull : ∀ r c, T.fill r c = true) {width height : Int}
    (hw : 0 < width) (hh : 0 < height) : p.Pack sort width height = some (sentinel, p) := by
  obtain ⟨t, q, hq, hcase⟩ := h.pack_spec hs hw hh
  rcases hcase with ⟨ht, he, _⟩ | ⟨r, c, r2, c2, rot, hb, _⟩
  · rw [hq, ht, he]
  · have h1 := hb.free r c (Nat.le_refl r) hb.rs.1 (Nat.le_refl c) hb.cs.1
    rw [hfull r c] at h1
    exact Bool.noConfusion h1

theorem packAll_full {sort : List Fit → List Fit} (hs : SortsByScore sort) {p : RectPacker}
    {T : Tbl} (h : Represents p T) (hfull : ∀ r c, T.fill r c = true) :
    ∀ reqs : List (Int × Int), (∀ q ∈ reqs, 0 < q.1 ∧ 0 < q.2) →
    ∃ ts, RectPacker.PackAll sort p reqs = some (ts, p) ∧ ∀ t ∈ ts, t = sentinel := by
  intro reqs
  induction reqs with
  | nil => intro _; exact ⟨[], rfl, fun t ht => absurd ht (List.not_mem_nil t)⟩
  | cons rq rest ih =>
    intro hpos
    obtain ⟨width, height⟩ := rq
    have hwh := hpos (width, height) (List.mem_cons_self _ _)
    obtain ⟨ts, hts, hall⟩ := ih (fun x hx => hpos x (List.mem_cons_of_mem _ hx))
    refine ⟨sentinel :: ts, ?_, ?_⟩
    · simp only [RectPacker.PackAll, h.pack_full hs hfull hwh.1 hwh.2, Option.bind_eq_bind,
        Option.some_bind, hts, Option.pure_def]
    · intro t ht
      rcases List.mem_cons.mp ht with rfl | ht'
      · rfl
      · exact hall t ht'

/-- A state that stores a one-cell table is that cell. -/
theorem eq_of_single {p : RectPacker} {T : Tbl} (h : Represents p T) (hr : T.rows = 1)
    (hc : T.cols = 1) :
    p = ⟨p.m_MaxWidth, p.m_MaxHeight, 1, 1, [T.cell 0 0]⟩ := by
  have hlen : p.m_BoundingBoxes.length = 1 := by rw [h.stores.len, hr, hc]
  have hget := h.get (r := 0) (c := 0) (by omega) (by omega)
  simp only [Nat.zero_mul, Nat.zero_add] at hget
  have hrows := h.rows
  have hcols := h.cols
  rw [hr] at hrows
  rw [hc] at hcols
  obtain ⟨mw, mh, rows, cols, boxes⟩ := p
  simp only at hlen hget hrows hcols
  subst hrows hcols
  match boxes, hlen, hget with
  | [b], _, hget =>
    simp only [List.getElem?_cons_zero, Option.some.injEq] at hget
    rw [hget]

end Represents

/-- C5 (sentinel exactly when nothing fits).  On a reachable state and for positive
`(width, height)`, `Pack` returns, and it returns the sentinel if and only if there is no
position at which the request, in either orientation, lies on the canvas and meets no filled
cell. -/
theorem sentinel_iff_no_placement (sort : List Fit → List Fit) (hs : SortsByScore sort)
    (p : RectPacker) (hp : Reachable sort p) (width height : Int) (hw : 0 < width)
    (hh : 0 < height) :
    ∃ t q, p.Pack sort width height = some (t, q) ∧
      (t = sentinel ↔
        ¬ ∃ x y, p.Placement width height x y ∨ p.Placement height width x y) := by
  obtain ⟨T, hT⟩ := hp.wf hs
  obtain ⟨t, q, hq, hcase⟩ := hT.pack_spec hs hw hh
  refine ⟨t, q, hq, ?_⟩
  rcases hcase with ⟨ht, _, hno⟩ | ⟨r, c, r2, c2, rot, hb, ht, _, _, _⟩
  · refine ⟨fun _ => ?_, fun _ => ht⟩
    rintro ⟨x, y, hpl | hpl⟩
    · obtain ⟨r, c, hr, hc, hfree, hbf⟩ := hT.block_of_state_placement hw hh hpl
      exact hno r c hr hc false hfree hbf
    · obtain ⟨r, c, hr, hc, hfree, hbf⟩ := hT.block_of_state_placement hh hw hpl
      exact hno r c hr hc true hfree hbf
  · have hcle : c ≤ T.cols := by have := hb.cs.1; have := hb.cs.2.1; omega
    have hne : ¬ t = sentinel := by
      rw [ht]; exact Represents.origin_ne_sentinel hT.valid hcle _ _
    refine ⟨fun h => absurd h hne, fun hnone => absurd ?_ hnone⟩
    have hpl := hT.placement_of_block hb
    cases rot
    · exact ⟨T.X c, T.Y r, Or.inl hpl⟩
    · exact ⟨T.X c, T.Y r, Or.inr hpl⟩

theorem sentinel_iff_no_placement_witness :
    ∃ t q, (RectPacker.new 4 3).Pack stableSort 2 5 = some (t, q) ∧
      (t = sentinel ↔
        ¬ ∃ x y, (RectPacker.new 4 3).Placement 2 5 x y ∨
          (RectPacker.new 4 3).Placement 5 2 x y) :=
  sentinel_iff_no_placement stableSort stableSort_sorts (RectPacker.new 4 3)
    (Reachable.init 4 3 (by decide) (by decide)) 2 5 (by decide) (by decide)

/-- C6 (offsets in range).  On a reachable state, a successful `Pack` with positive
arguments returns offsets with `0 ≤ xOffset < m_MaxWidth` and `0 ≤ yOffset < m_MaxHeight`;
in particular a successful result never has the sentinel's offsets. -/
theorem offsets_in_range (sort : List Fit → List Fit) (hs : SortsByScore sort)
    (p : RectPacker) (hp : Reachable sort p) (width height : Int) (hw : 0 < width)
    (hh : 0 < height) (t : Transform) (q : RectPacker)
    (hq : p.Pack sort width height = some (t, q)) (hne : t ≠ sentinel) :
    0 ≤ t.xOffset ∧ t.xOffset < p.m_MaxWidth ∧ 0 ≤ t.yOffset ∧ t.yOffset < p.m_MaxHeight := by
  obtain ⟨T, hT⟩ := hp.wf hs
  rcases hT.pack_result hs hw hh hq with ⟨ht, _, _⟩ | ⟨r, c, r2, c2, rot, hb, ht, _, _, _⟩
  · exact absurd ht hne
  · have hc : c < T.cols := by have := hb.cs.1; have := hb.cs.2.1; omega
    have hr : r < T.rows := by have := hb.rs.1; have := hb.rs.2.1; omega
    have a1 := Tbl.X_le hT.valid (Nat.zero_le c) (Nat.le_of_lt hc)
    have a2 := Tbl.X_lt hT.valid hc (Nat.le_refl _)
    have a3 := Tbl.Y_le hT.valid (Nat.zero_le r) (Nat.le_of_lt hr)
    have a4 := Tbl.Y_lt hT.valid hr (Nat.le_refl _)
    rw [Tbl.X_zero] at a1
    rw [Tbl.Y_zero] at a3
    rw [hT.width] at a2
    rw [hT.height] at a4
    rw [ht]
    exact ⟨a1, a2, a3, a4⟩

theorem offsets_in_range_witness :
    (0 : Int) ≤ (Transform.mk 0 0 true).xOffset ∧
      (Transform.mk 0 0 true).xOffset < (RectPacker.new 5 3).m_MaxWidth ∧
      0 ≤ (Transform.mk 0 0 true).yOffset ∧
      (Transform.mk 0 0 true).yOffset < (RectPacker.new 5 3).m_MaxHeight :=
  offsets_in_range stableSort stableSort_sorts (RectPacker.new 5 3)
    (Reachable.init 5 3 (by decide) (by decide)) 2 4 (by decide) (by decide) ⟨0, 0, true⟩
    ⟨5, 3, 2, 2, [⟨4, 2, true⟩, ⟨1, 2, false⟩, ⟨4, 1, false⟩, ⟨1, 1, false⟩]⟩
    (by decide) (by decide)

/-- C8 (scenario 10x10).  On a fresh allocator of size `(10, 10)`, with ties resolved to the
first candidate discovered (`stableSort`), the calls `Pack(4,4)`, `Pack(6,4)`, `Pack(10,6)`,
`Pack(1,1)` return `(0,0,false)`, `(4,0,false)`, `(0,4,false)` and `(-1,-1,false)`. -/
theorem scenario_10x10 :
    (RectPacker.PackAll stableSort (RectPacker.new 10 10)
        [(4, 4), (6, 4), (10, 6), (1, 1)]).map Prod.fst
      = some [⟨0, 0, false⟩, ⟨4, 0, false⟩, ⟨0, 4, false⟩, ⟨-1, -1, false⟩] := by
  rfl

/-- C9 (boundary).  For positive bounds, `Pack(maxWidth, maxHeight)` on a fresh allocator
succeeds with offset `(0, 0)` and leaves the grid as one filled cell, one row and one
column; every sequence of following `Pack` calls with positive arguments returns only
sentinels and leaves that state as it is. -/
theorem boundary (sort : List Fit → List Fit) (hs : SortsByScore sort)
    (maxWidth maxHeight : Int) (hW : 0 < maxWidth) (hH : 0 < maxHeight) :
    ∃ t, (RectPacker.new maxWidth maxHeight).Pack sort maxWidth maxHeight
        = some (t, ⟨maxWidth, maxHeight, 1, 1, [⟨maxWidth, maxHeight, true⟩]⟩) ∧
      t.xOffset = 0 ∧ t.yOffset = 0 ∧
      ∀ reqs : List (Int × Int), (∀ q ∈ reqs, 0 < q.1 ∧ 0 < q.2) →
        ∃ ts, RectPacker.PackAll sort ⟨maxWidth, maxHeight, 1, 1, [⟨maxWidth, maxHeight, true⟩]⟩
            reqs = some (ts, ⟨maxWidth, maxHeight, 1, 1, [⟨maxWidth, maxHeight, true⟩]⟩) ∧
          ∀ t' ∈ ts, t' = sentinel := by
  have hT := represents_new hW hH
  have hX1 : (Tbl.single maxWidth maxHeight false).X 1 = maxWidth := by
    simp [Tbl.X, Tbl.single, psum]
  have hY1 : (Tbl.single maxWidth maxHeight false).Y 1 = maxHeight := by
    simp [Tbl.Y, Tbl.single, psum]
  obtain ⟨t, q, hq, hcase⟩ := hT.pack_spec hs hW hH
  have hfull := (represents_single hW hH true).packAll_full hs (fun _ _ => rfl)
  rcases hcase with ⟨_, _, hno⟩ | ⟨r, c, r2, c2, rot, hb, ht, hrep, hm1, hm2⟩
  · exfalso
    have hblock : (Tbl.single maxWidth maxHeight false).Block 0 0 0 0 maxWidth maxHeight :=
      Represents.block_of_fits (T := Tbl.single maxWidth maxHeight false) (Nat.lt_succ_self 0)
        (Nat.lt_succ_self 0) rfl hW hH (le_refl _) (le_refl _)
    exact hno 0 0 (Nat.lt_succ_self 0) (Nat.lt_succ_self 0) false rfl
      (Represents.blockFree_iff.mpr ⟨0, 0, hblock⟩)
  · have hr2 : r2 = 0 := by
      have : r2 < 1 := hb.rs.2.1
      omega
    have hc2 : c2 = 0 := by
      have : c2 < 1 := hb.cs.2.1
      omega
    have hr0 : r = 0 := by have := hb.rs.1; omega
    have hc0 : c = 0 := by have := hb.cs.1; omega
    subst hr2 hc2 hr0 hc0
    have hwle := hb.cs.2.2.2
    have hhle := hb.rs.2.2.2
    rw [Nat.zero_add, hX1, Tbl.X_zero] at hwle
    rw [Nat.zero_add, hY1, Tbl.Y_zero] at hhle
    have hsz : (if rot = true then maxHeight else maxWidth) = maxWidth ∧
        (if rot = true then maxWidth else maxHeight) = maxHeight := by
      cases rot
      · exact ⟨rfl, rfl⟩
      · simp only [if_true] at hwle hhle ⊢
        omega
    rw [hsz.1, hsz.2] at hrep
    have hplace : Tbl.place (Tbl.single maxWidth maxHeight false) 0 0 0 0 maxWidth maxHeight
        = (Tbl.single maxWidth maxHeight false).setBlock 0 0 0 0 true := by
      unfold Tbl.place
      rw [Nat.zero_add, hX1, hY1, Tbl.X_zero, Tbl.Y_zero, Tbl.split_eq]
      simp
    rw [hplace] at hrep
    have hqe := hrep.eq_of_single rfl rfl
    rw [hm1, hm2] at hqe
    have hcell : ((Tbl.single maxWidth maxHeight false).setBlock 0 0 0 0 true).cell 0 0
        = ⟨maxWidth, maxHeight, true⟩ := by
      simp [Tbl.cell, Tbl.setBlock, Tbl.single]
    rw [hcell] at hqe
    have hqe' : q = ⟨maxWidth, maxHeight, 1, 1, [⟨maxWidth, maxHeight, true⟩]⟩ := hqe
    rw [hqe'] at hq
    refine ⟨t, hq, ?_, ?_, hfull⟩
    · rw [ht]; rfl
    · rw [ht]; rfl

theorem boundary_witness :
    ∃ t, (RectPacker.new 6 4).Pack stableSort 6 4 = some (t, ⟨6, 4, 1, 1, [⟨6, 4, true⟩]⟩) ∧
      t.xOffset = 0 ∧ t.yOffset = 0 ∧
      ∀ reqs : List (Int × Int), (∀ q ∈ reqs, 0 < q.1 ∧ 0 < q.2) →
        ∃ ts, RectPacker.PackAll stableSort ⟨6, 4, 1, 1, [⟨6, 4, true⟩]⟩ reqs
            = some (ts, ⟨6, 4, 1, 1, [⟨6, 4, true⟩]⟩) ∧
          ∀ t' ∈ ts, t' = sentinel :=
  boundary stableSort stableSort_sorts 6 4 (by decide) (by decide)

/-- C10 (oversized request fails).  On a reachable state, a positive request that fits the
canvas in neither orientation, `(width > maxWidth ∨ height > maxHeight)` and
`(height > maxWidth ∨ width > maxHeight)`, returns the sentinel and leaves the state as it
was. -/
theorem oversized_fails (sort : List Fit → List Fit) (hs : SortsByScore sort)
    (p : RectPacker) (hp : Reachable sort p) (width height : Int) (hw : 0 < width)
    (hh : 0 < height) (h1 : width > p.m_MaxWidth ∨ height > p.m_MaxHeight)
    (h2 : height > p.m_MaxWidth ∨ width > p.m_MaxHeight) :
    p.Pack sort width height = some (sentinel, p) := by
  obtain ⟨T, hT⟩ := hp.wf hs
  obtain ⟨t, q, hq, hcase⟩ := hT.pack_spec hs hw hh
  rcases hcase with ⟨ht, he, _⟩ | ⟨r, c, r2, c2, rot, hb, _⟩
  · rw [hq, ht, he]
  · exfalso
    obtain ⟨_, a2, _, a4⟩ := hb.rect_inside hT.valid
    have b1 := Tbl.X_le hT.valid (Nat.zero_le c) (by have := hb.cs.1; have := hb.cs.2.1; omega)
    have b2 := Tbl.Y_le hT.valid (Nat.zero_le r) (by have := hb.rs.1; have := hb.rs.2.1; omega)
    rw [Tbl.X_zero] at b1
    rw [Tbl.Y_zero] at b2
    rw [hT.width] at a2
    rw [hT.height] at a4
    cases rot
    · simp only [Bool.false_eq_true, if_false] at a2 a4
      omega
    · simp only [if_true] at a2 a4
      omega

theorem oversized_fails_witness :
    (RectPacker.new 5 5).Pack stableSort 3 6 = some (sentinel, RectPacker.new 5 5) :=
  oversized_fails stableSort stableSort_sorts (RectPacker.new 5 5)
    (Reachable.init 5 5 (by decide) (by decide)) 3 6 (by decide) (by decide)
    (Or.inr (by decide)) (Or.inl (by decide))

/-! ## Requests that are not positive

`Pack` is specified for positive `width` and `height`.  With a request that is not positive
every candidate runs into the third assertion of `Segment`, so such a call either finds no
candidate and returns the sentinel, or does not return. -/

theorem NonNegCells.set_filled {boxes : List BoundingBox} (h : NonNegCells boxes) {i : Nat}
    {cell : BoundingBox} (hc : boxes[i]? = some cell) (fill : Bool) :
    NonNegCells (boxes.set i { cell with Filled := fill }) := by
  intro j b hb
  rw [List.getElem?_set] at hb
  by_cases hij : i = j
  · rw [if_pos hij] at hb
    split_ifs at hb
    have hb' := Option.some.inj hb
    rw [← hb']
    exact h i cell hc
  · rw [if_neg hij] at hb
    exact h j b hb

theorem getCombined_inner_last (width : Int) (fill : Bool) :
    ∀ (fuel : Nat) (boxes : List BoundingBox) (lastBox : Nat) (s w : Int)
      (boxes' : List BoundingBox) (last : Nat) (s' w' : Int),
      NonNegCells boxes → 0 ≤ w →
      RectPacker.GetCombined.inner width fill fuel boxes lastBox s w
        = some (boxes', last, s', w') →
      NonNegCells boxes' ∧ ∃ cell, boxes'[last]? = some cell ∧ cell.Width ≤ w' := by
  intro fuel
  induction fuel with
  | zero =>
    intro boxes lastBox s w boxes' last s' w' _ _ h
    exact Option.noConfusion h
  | succ fuel ih =>
    intro boxes lastBox s w boxes' last s' w' hnn hw h
    simp only [RectPacker.GetCombined.inner, Option.bind_eq_bind, Option.pure_def] at h
    cases hc : boxes[lastBox]? with
    | none =>
      rw [hc] at h
      exact Option.noConfusion h
    | some cell =>
      rw [hc] at h
      simp only [Option.some_bind] at h
      have hlt : lastBox < boxes.length := by
        by_contra hcon
        rw [List.getElem?_eq_none (by omega)] at hc
        exact Option.noConfusion hc
      have hnn' := hnn.set_filled hc fill
      have hcw := (hnn lastBox cell hc).1
      by_cases h1 : w + cell.Width ≥ width
      · rw [if_pos h1] at h
        obtain ⟨e1, e2, _, e4⟩ := Prod.mk.inj (Option.some.inj h) |> fun ⟨a, b⟩ =>
          (⟨a, (Prod.mk.inj b).1, (Prod.mk.inj (Prod.mk.inj b).2).1,
            (Prod.mk.inj (Prod.mk.inj b).2).2⟩ :
            _ ∧ _ ∧ _ ∧ _)
        subst e1 e2 e4
        refine ⟨hnn', _, List.getElem?_set_self hlt, ?_⟩
        simp only
        omega
      · rw [if_neg h1] at h
        exact ih _ _ _ _ _ _ _ _ hnn' (by omega) h

theorem getCombined_outer_last (columns : Nat) (width height : Int) (fill : Bool) :
    ∀ (fuel : Nat) (boxes : List BoundingBox) (lastBox : Nat) (combined : BoundingBox)
      (boxes' : List BoundingBox) (comb : BoundingBox) (last : Nat),
      NonNegCells boxes → 0 ≤ combined.Height →
      RectPacker.GetCombined.outer columns width height fill fuel boxes lastBox combined
        = some (boxes', comb, last) →
      ∃ cell, boxes'[last]? = some cell ∧ cell.Width ≤ comb.Width ∧
        cell.Height ≤ comb.Height := by
  intro fuel
  induction fuel with
  | zero =>
    intro boxes lastBox combined boxes' comb last _ _ h
    exact Option.noConfusion h
  | succ fuel ih =>
    intro boxes lastBox combined boxes' comb last hnn hH h
    simp only [RectPacker.GetCombined.outer, Option.bind_eq_bind, Option.pure_def] at h
    cases hin : RectPacker.GetCombined.inner width fill boxes.length boxes lastBox
        (columns : Int) 0 with
    | none =>
      rw [hin] at h
      exact Option.noConfusion h
    | some res =>
      obtain ⟨boxes1, last1, s1, w1⟩ := res
      rw [hin] at h
      simp only [Option.some_bind] at h
      obtain ⟨hnn1, cell, hcell, hcw⟩ := getCombined_inner_last width fill _ _ _ _ _ _ _ _ _
        hnn (le_refl 0) hin
      rw [hcell] at h
      simp only [Option.some_bind] at h
      have hch := (hnn1 last1 cell hcell).2
      by_cases h1 : combined.Height + cell.Height ≥ height
      · rw [if_pos h1] at h
        obtain ⟨e1, e2⟩ := Prod.mk.inj (Option.some.inj h)
        obtain ⟨e2, e3⟩ := Prod.mk.inj e2
        subst e1 e2 e3
        exact ⟨cell, hcell, hcw, by simp only; omega⟩
      · rw [if_neg h1] at h
        by_cases h2 : (last1 : Int) + s1 < 0
        · rw [if_pos h2] at h
          exact Option.noConfusion h
        · rw [if_neg h2] at h
          exact ih _ _ _ _ _ _ hnn1 (by simp only; omega) h

theorem Represents.nonNegCells {p : RectPacker} {T : Tbl} (h : Represents p T) :
    NonNegCells p.m_BoundingBoxes := by
  intro i b hb
  have hlt : i < T.rows * T.cols := by
    rw [← h.stores.len]
    by_contra hcon
    rw [List.getElem?_eq_none (by omega)] at hb
    exact Option.noConfusion hb
  rw [h.stores.get_idx hlt] at hb
  have hb' := Option.some.inj hb
  rw [← hb']
  have h1 := h.valid.cw_pos (i % T.cols) (Nat.mod_lt _ h.valid.cols_pos)
  have h2 := h.valid.rh_pos (i / T.cols) (idx_row_lt hlt)
  exact ⟨by show 0 ≤ T.cw _; omega, by show 0 ≤ T.rh _; omega⟩

/-- Method `Segment` does not return when the leftover is not smaller than the cell (its third
assertion). -/
theorem segment_none_of_not_lt (p : RectPacker) (box : Nat) (after cell : BoundingBox)
    (hc : p.m_BoundingBoxes[box]? = some cell)
    (h : ¬ (cell.Width > after.Width ∧ cell.Height > after.Height)) :
    p.Segment box after = none := by
  simp only [RectPacker.Segment, hc, Option.bind_eq_bind, Option.some_bind]
  split_ifs <;> rfl

theorem getCombined_last {p q : RectPacker} {box last : Nat} {width height : Int}
    {fill : Bool} {comb : BoundingBox} (hnn : NonNegCells p.m_BoundingBoxes)
    (h : p.GetCombined box width height fill = some (q, comb, last)) :
    ∃ cell, q.m_BoundingBoxes[last]? = some cell ∧ cell.Width ≤ comb.Width ∧
      cell.Height ≤ comb.Height := by
  simp only [RectPacker.GetCombined, Option.bind_eq_bind, Option.pure_def] at h
  cases hout : RectPacker.GetCombined.outer p.m_Columns width height fill
      p.m_BoundingBoxes.length p.m_BoundingBoxes box ⟨0, 0, true⟩ with
  | none =>
    rw [hout] at h
    exact Option.noConfusion h
  | some res =>
    obtain ⟨boxes', comb', last'⟩ := res
    rw [hout] at h
    simp only [Option.some_bind] at h
    obtain ⟨e1, e2⟩ := Prod.mk.inj (Option.some.inj h)
    obtain ⟨e2, e3⟩ := Prod.mk.inj e2
    subst e1 e2 e3
    exact getCombined_outer_last _ _ _ _ _ _ _ _ _ _ _ hnn (le_refl 0) hout

/-- Method `PackCombined` does not return for a request that is not positive. -/
theorem packCombined_none_of_nonpos (p : RectPacker) (hnn : NonNegCells p.m_BoundingBoxes)
    (box : Nat) (w h : Int) (rotated : Bool) (hwh : w ≤ 0 ∨ h ≤ 0) :
    p.PackCombined box w h rotated = none := by
  simp only [RectPacker.PackCombined, Option.bind_eq_bind, Option.pure_def]
  cases hg : p.GetCombined box w h false with
  | none => rfl
  | some res =>
    obtain ⟨q1, comb, last⟩ := res
    obtain ⟨cell, hcell, hcw, hch⟩ := getCombined_last hnn hg
    have hseg : q1.Segment last ⟨comb.Width - w, comb.Height - h, false⟩ = none := by
      apply segment_none_of_not_lt q1 last _ cell hcell
      simp only
      omega
    simp only [Option.some_bind, hseg, Option.none_bind]

theorem checkFit_width (cell : BoundingBox) (w h : Int) :
    (cell.CheckFit w h).Width = cell.Width - w := by
  unfold BoundingBox.CheckFit
  by_cases hc : cell.Width - w < 0 ∨ cell.Height - h < 0
  · simp only [if_pos hc]
  · simp only [if_neg hc]

theorem checkFit_height (cell : BoundingBox) (w h : Int) :
    (cell.CheckFit w h).Height = cell.Height - h := by
  unfold BoundingBox.CheckFit
  by_cases hc : cell.Width - w < 0 ∨ cell.Height - h < 0
  · simp only [if_pos hc]
  · simp only [if_neg hc]

/-- Method `PackMostFit` does not return for a request that is not positive. -/
theorem packMostFit_none_of_nonpos (sort : List Fit → List Fit) (p : RectPacker)
    (hnn : NonNegCells p.m_BoundingBoxes) (fits : List Fit) (w h : Int)
    (hwh : w ≤ 0 ∨ h ≤ 0) : p.PackMostFit sort fits w h = none := by
  simp only [RectPacker.PackMostFit, Option.bind_eq_bind, Option.pure_def]
  cases hb : (sort fits)[0]? with
  | none => rfl
  | some best =>
    simp only [Option.some_bind]
    have hor : (if best.rotated = true then h else w) ≤ 0 ∨
        (if best.rotated = true then w else h) ≤ 0 := by
      split_ifs <;> omega
    by_cases hc : best.combined = true
    · rw [if_pos hc]
      exact packCombined_none_of_nonpos p hnn _ _ _ _ hor
    · rw [if_neg hc]
      cases hcell : p.m_BoundingBoxes[best.box]? with
      | none => rfl
      | some cell =>
        have hseg : p.Segment best.box (cell.CheckFit (if best.rotated = true then h else w)
            (if best.rotated = true then w else h)) = none := by
          apply segment_none_of_not_lt p best.box _ cell hcell
          rw [checkFit_width, checkFit_height]
          omega
        simp only [Option.some_bind, hseg, Option.none_bind]

/-- A `Pack` call that returns the sentinel leaves the state as it was, for every request. -/
theorem Represents.pack_sentinel {sort : List Fit → List Fit} (hs : SortsByScore sort)
    {p : RectPacker} {T : Tbl} (h : Represents p T) {width height : Int} {q : RectPacker}
    (hq : p.Pack sort width height = some (sentinel, q)) : q = p := by
  by_cases hpos : 0 < width ∧ 0 < height
  · rcases h.pack_result hs hpos.1 hpos.2 hq with ⟨_, he, _⟩ | ⟨r, c, r2, c2, rot, hb, ht, _⟩
    · exact he
    · have hcle : c ≤ T.cols := by have := hb.cs.1; have := hb.cs.2.1; omega
      exact absurd ht.symm (Represents.origin_ne_sentinel h.valid hcle _ _)
  · have hwh : width ≤ 0 ∨ height ≤ 0 := by omega
    simp only [RectPacker.Pack, Option.bind_eq_bind, Option.pure_def] at hq
    cases hsc : RectPacker.Pack.scan p width height (List.range p.m_BoundingBoxes.length) [] with
    | none =>
      rw [hsc] at hq
      exact Option.noConfusion hq
    | some fits =>
      rw [hsc] at hq
      simp only [Option.some_bind] at hq
      by_cases hfe : fits.isEmpty = true
      · rw [if_pos hfe] at hq
        exact (Prod.mk.inj (Option.some.inj hq)).2.symm
      · rw [if_neg hfe, packMostFit_none_of_nonpos sort p h.nonNegCells fits width height hwh]
          at hq
        exact Option.noConfusion hq

/-- C4 (a failed `Pack` is side-effect free and idempotent).  On a reachable state and for
every `(width, height)`, positive or not, a `Pack` call that returns the sentinel
`(-1, -1, false)` leaves the state (cell sequence, `m_Rows`, `m_Columns`, bounds) identical,
and the same call repeated right away returns the sentinel again. -/
theorem failed_pack_no_effect (sort : List Fit → List Fit) (hs : SortsByScore sort)
    (p : RectPacker) (hp : Reachable sort p) (width height : Int) (q : RectPacker)
    (hq : p.Pack sort width height = some (sentinel, q)) :
    q = p ∧ q.Pack sort width height = some (sentinel, q) := by
  obtain ⟨T, hT⟩ := hp.wf hs
  have he := hT.pack_sentinel hs hq
  subst he
  exact ⟨rfl, hq⟩

theorem failed_pack_no_effect_witness :
    RectPacker.new 4 3 = RectPacker.new 4 3 ∧
      (RectPacker.new 4 3).Pack stableSort 5 5 = some (sentinel, RectPacker.new 4 3) :=
  failed_pack_no_effect stableSort stableSort_sorts (RectPacker.new 4 3)
    (Reachable.init 4 3 (by decide) (by decide)) 5 5 (RectPacker.new 4 3) (by decide)

/-! ## The filled area -/

theorem psum_succ_front (f : Nat → Int) (n : Nat) :
    psum f (n + 1) = f 0 + psum (fun i => f (i + 1)) n := by
  induction n with
  | zero => simp [psum]
  | succ n ih =>
    rw [psum, ih]
    simp only [psum]
    omega

theorem psum_append (f : Nat → Int) (a b : Nat) :
    psum f (a + b) = psum f a + psum (fun i => f (a + i)) b := by
  induction b with
  | zero => simp [psum]
  | succ b ih =>
    rw [← Nat.add_assoc]
    simp only [psum]
    rw [ih]
    omega

theorem psum_le_psum {f g : Nat → Int} (n : Nat) (h : ∀ i, i < n → f i ≤ g i) :
    psum f n ≤ psum g n := by
  induction n with
  | zero => exact le_refl _
  | succ n ih =>
    simp only [psum]
    have h1 := ih (fun i hi => h i (by omega))
    have h2 := h n (by omega)
    omega

theorem psum_add_fun (f g : Nat → Int) (n : Nat) :
    psum (fun i => f i + g i) n = psum f n + psum g n := by
  induction n with
  | zero => rfl
  | succ n ih =>
    simp only [psum]
    rw [ih]
    omega

theorem psum_mul_const (f : Nat → Int) (k : Int) (n : Nat) :
    psum (fun i => f i * k) n = psum f n * k := by
  induction n with
  | zero => simp [psum]
  | succ n ih =>
    simp only [psum]
    rw [ih, Int.add_mul]

theorem psum_zero_fun (n : Nat) : psum (fun _ => 0) n = 0 := by
  induction n with
  | zero => rfl
  | succ n ih => simp only [psum]; omega

/-- Inserting an element after position `c0` of a sequence, the two new neighbours adding up
to the old element, keeps the sum. -/
theorem psum_insert {f g : Nat → Int} (c0 : Nat) (h1 : ∀ j, j < c0 → g j = f j)
    (h2 : g c0 + g (c0 + 1) = f c0) (h3 : ∀ j, c0 < j → g (j + 1) = f j) :
    ∀ n, c0 + 1 ≤ n → psum g (n + 1) = psum f n := by
  intro n
  induction n with
  | zero => intro h; omega
  | succ n ih =>
    intro hn
    by_cases hne : n = c0
    · subst hne
      simp only [psum]
      rw [psum_congr n h1]
      omega
    · have := ih (by omega)
      rw [psum, this, h3 n (by omega)]
      rfl

theorem list_sum_eq_psum (l : List Int) : l.sum = psum (fun i => l.getD i 0) l.length := by
  induction l with
  | nil => rfl
  | cons a l ih =>
    rw [List.sum_cons, List.length_cons, psum_succ_front, ih]
    simp

theorem psum_grid (F : Nat → Int) (rows cols : Nat) :
    psum F (rows * cols) = psum (fun r => psum (fun c => F (r * cols + c)) cols) rows := by
  induction rows with
  | zero => simp [psum]
  | succ r ih =>
    rw [Nat.succ_mul, psum_append, ih]
    rfl

namespace Represents

theorem occupiedArea_eq {p : RectPacker} {T : Tbl} (h : Represents p T) :
    p.occupiedArea = T.area := by
  unfold RectPacker.occupiedArea Tbl.area
  rw [list_sum_eq_psum, List.length_map, h.stores.len, psum_grid]
  apply psum_congr
  intro r hr
  apply psum_congr
  intro c hc
  rw [List.getD_eq_getElem?_getD, List.getElem?_map, h.get hr hc]
  rfl

end Represents

namespace Tbl

theorem area_splitCol (T : Tbl) {c0 : Nat} (aw : Int) (hc0 : c0 < T.cols) :
    (T.splitCol c0 aw).area = T.area := by
  unfold Tbl.area
  apply psum_congr
  intro r _
  show psum _ (T.cols + 1) = _
  apply psum_insert c0 _ _ _ T.cols (by omega)
  · intro j hj
    simp [Tbl.splitCol, hj, Nat.le_of_lt hj]
  · simp only [Tbl.splitCol, Nat.lt_irrefl, if_false, if_true, Nat.le_refl,
      Nat.add_sub_cancel]
    have e1 : ¬ c0 + 1 < c0 := by omega
    have e2 : ¬ c0 + 1 = c0 := by omega
    have e3 : ¬ c0 + 1 ≤ c0 := by omega
    simp only [e1, e2, e3, if_false, if_true]
    by_cases hf : T.fill r c0 = true
    · simp only [hf, if_true]
      rw [← Int.add_mul]
      congr 1
      omega
    · simp only [hf, if_false, Bool.false_eq_true]
      rfl
  · intro j hj
    have e1 : ¬ j + 1 < c0 := by omega
    have e2 : ¬ j + 1 = c0 := by omega
    have e3 : ¬ j + 1 ≤ c0 := by omega
    have e4 : ¬ j + 1 = c0 + 1 := by omega
    simp only [Tbl.splitCol, e1, e2, e3, e4, if_false, Nat.add_sub_cancel]

theorem area_splitRow (T : Tbl) {r0 : Nat} (ah : Int) (hr0 : r0 < T.rows) :
    (T.splitRow r0 ah).area = T.area := by
  unfold Tbl.area
  show psum _ (T.rows + 1) = _
  apply psum_insert r0 _ _ _ T.rows (by omega)
  · intro k hk
    apply psum_congr
    intro c _
    simp [Tbl.splitRow, hk, Nat.le_of_lt hk]
  · have e1 : ¬ r0 + 1 < r0 := by omega
    have e2 : ¬ r0 + 1 = r0 := by omega
    have e3 : ¬ r0 + 1 ≤ r0 := by omega
    simp only [Tbl.splitRow, Nat.lt_irrefl, if_false, if_true, Nat.le_refl,
      Nat.add_sub_cancel, e1, e2, e3]
    rw [← psum_add_fun]
    apply psum_congr
    intro c _
    by_cases hf : T.fill r0 c = true
    · simp only [hf, if_true]
      rw [← Int.mul_add]
      congr 1
      omega
    · simp only [hf, if_false, Bool.false_eq_true]
      rfl
  · intro k hk
    have e1 : ¬ k + 1 < r0 := by omega
    have e2 : ¬ k + 1 = r0 := by omega
    have e3 : ¬ k + 1 ≤ r0 := by omega
    have e4 : ¬ k + 1 = r0 + 1 := by omega
    simp only [Tbl.splitRow, e1, e2, e3, e4, if_false, Nat.add_sub_cancel]

theorem area_split (T : Tbl) {r0 c0 : Nat} (aw ah : Int) (hr0 : r0 < T.rows)
    (hc0 : c0 < T.cols) : (T.split r0 c0 aw ah).area = T.area := by
  rw [split_eq]
  split_ifs
  · rfl
  · exact area_splitRow T ah hr0
  · exact area_splitCol T aw hc0
  · rw [area_splitRow (T.splitCol c0 aw) ah hr0, area_splitCol T aw hc0]

theorem area_setBlock_ge {T : Tbl} (hv : T.Valid) (r r2 c c2 : Nat) :
    T.area ≤ (T.setBlock r r2 c c2 true).area := by
  unfold Tbl.area
  apply psum_le_psum
  intro k hk
  apply psum_le_psum
  intro j hj
  have h1 := hv.cw_pos j hj
  have h2 := hv.rh_pos k hk
  have hnn : 0 ≤ T.cw j * T.rh k := Int.mul_nonneg (by omega) (by omega)
  simp only [Tbl.setBlock]
  by_cases hin : r ≤ k ∧ k ≤ r2 ∧ c ≤ j ∧ j ≤ c2
  · simp only [if_pos hin, if_true]
    split_ifs
    · exact le_refl _
    · exact hnn
  · simp only [if_neg hin]
    exact le_refl _

theorem area_nonneg {T : Tbl} (hv : T.Valid) : 0 ≤ T.area := by
  have hle : psum (fun _ => psum (fun _ => (0 : Int)) T.cols) T.rows ≤ T.area := by
    unfold Tbl.area
    apply psum_le_psum
    intro k hk
    apply psum_le_psum
    intro j hj
    have h1 := hv.cw_pos j hj
    have h2 := hv.rh_pos k hk
    have hnn : 0 ≤ T.cw j * T.rh k := Int.mul_nonneg (by omega) (by omega)
    show (0 : Int) ≤ (if T.fill k j = true then T.cw j * T.rh k else 0)
    split_ifs
    · exact hnn
    · exact le_refl (0 : Int)
  simp only [psum_zero_fun] at hle
  exact hle

theorem area_le_total {T : Tbl} (hv : T.Valid) : T.area ≤ T.X T.cols * T.Y T.rows := by
  have htot : psum (fun r => psum (fun c => T.cw c * T.rh r) T.cols) T.rows
      = T.X T.cols * T.Y T.rows := by
    have e1 : ∀ r, psum (fun c => T.cw c * T.rh r) T.cols = T.X T.cols * T.rh r :=
      fun r => psum_mul_const T.cw (T.rh r) T.cols
    simp only [e1]
    have e2 : psum (fun r => T.X T.cols * T.rh r) T.rows
        = psum (fun r => T.rh r * T.X T.cols) T.rows :=
      psum_congr _ (fun r _ => Int.mul_comm _ _)
    rw [e2, psum_mul_const, Int.mul_comm]
    rfl
  rw [← htot]
  unfold Tbl.area
  apply psum_le_psum
  intro k hk
  apply psum_le_psum
  intro j hj
  have h1 := hv.cw_pos j hj
  have h2 := hv.rh_pos k hk
  have hnn : 0 ≤ T.cw j * T.rh k := Int.mul_nonneg (by omega) (by omega)
  show (if T.fill k j = true then T.cw j * T.rh k else 0) ≤ T.cw j * T.rh k
  split_ifs
  · exact le_refl (T.cw j * T.rh k)
  · exact hnn

theorem area_place_ge {T : Tbl} (hv : T.Valid) {r c r2 c2 : Nat} {w h : Int}
    (hb : T.Block r c r2 c2 w h) : T.area ≤ (T.place r c r2 c2 w h).area := by
  have hv1 := split_valid hv hb.rs.2.1 hb.cs.2.1 hb.aw_nonneg hb.aw_lt hb.ah_nonneg hb.ah_lt
  have := area_setBlock_ge hv1 r r2 c c2
  rw [area_split T _ _ hb.rs.2.1 hb.cs.2.1] at this
  exact this

end Tbl

/-! ## The exact occupancy -/

namespace Represents

theorem canvas_pos {p : RectPacker} {T : Tbl} (h : Represents p T) :
    0 < p.m_MaxWidth * p.m_MaxHeight := by
  have h1 := Tbl.X_lt h.valid h.valid.cols_pos (Nat.le_refl _)
  have h2 := Tbl.Y_lt h.valid h.valid.rows_pos (Nat.le_refl _)
  rw [Tbl.X_zero, h.width] at h1
  rw [Tbl.Y_zero, h.height] at h2
  exact Int.mul_pos h1 h2

theorem occupancy_bounds {p : RectPacker} {T : Tbl} (h : Represents p T) :
    0 ≤ p.exactOccupancy ∧ p.exactOccupancy ≤ 1 := by
  have hD := h.canvas_pos
  have hDq : (0 : ℚ) < ((p.m_MaxWidth * p.m_MaxHeight : Int) : ℚ) := by exact_mod_cast hD
  have h0 : (0 : ℚ) ≤ (p.occupiedArea : ℚ) := by
    have := Tbl.area_nonneg h.valid
    rw [← h.occupiedArea_eq] at this
    exact_mod_cast this
  have h1 : (p.occupiedArea : ℚ) ≤ ((p.m_MaxWidth * p.m_MaxHeight : Int) : ℚ) := by
    have := Tbl.area_le_total h.valid
    rw [← h.occupiedArea_eq, h.width, h.height] at this
    exact_mod_cast this
  unfold RectPacker.exactOccupancy
  exact ⟨div_nonneg h0 (le_of_lt hDq), (div_le_one hDq).mpr h1⟩

end Represents

/-- The exact occupancy never decreases and stays in `[0, 1]`.  With the occupancy taken as
the exact ratio of the filled area (the sum of `Width * Height` over the filled cells) to
`maxWidth * maxHeight`: on a reachable state a `Pack` call with positive arguments returns,
the exact occupancy after the call is at least the exact occupancy before it, and both lie in
`[0, 1]`. -/
theorem exact_occupancy_monotone (sort : List Fit → List Fit) (hs : SortsByScore sort)
    (p : RectPacker) (hp : Reachable sort p) (width height : Int) (hw : 0 < width)
    (hh : 0 < height) :
    ∃ t q, p.Pack sort width height = some (t, q) ∧
      p.exactOccupancy ≤ q.exactOccupancy ∧
      (0 ≤ p.exactOccupancy ∧ p.exactOccupancy ≤ 1) ∧
      (0 ≤ q.exactOccupancy ∧ q.exactOccupancy ≤ 1) := by
  obtain ⟨T, hT⟩ := hp.wf hs
  obtain ⟨t, q, hq, hcase⟩ := hT.pack_spec hs hw hh
  refine ⟨t, q, hq, ?_⟩
  rcases hcase with ⟨_, he, _⟩ | ⟨r, c, r2, c2, rot, hb, _, hrep, hm1, hm2⟩
  · rw [he]
    exact ⟨le_refl _, hT.occupancy_bounds, hT.occupancy_bounds⟩
  · refine ⟨?_, hT.occupancy_bounds, hrep.occupancy_bounds⟩
    have hD := hT.canvas_pos
    have hDq : (0 : ℚ) < ((p.m_MaxWidth * p.m_MaxHeight : Int) : ℚ) := by exact_mod_cast hD
    have hle : (p.occupiedArea : ℚ) ≤ (q.occupiedArea : ℚ) := by
      have := Tbl.area_place_ge hT.valid hb
      rw [← hT.occupiedArea_eq, ← hrep.occupiedArea_eq] at this
      exact_mod_cast this
    unfold RectPacker.exactOccupancy
    rw [hm1, hm2]
    exact div_le_div_of_nonneg_right hle (le_of_lt hDq)

theorem exact_occupancy_monotone_witness :
    ∃ t q, (RectPacker.new 8 6).Pack stableSort 3 2 = some (t, q) ∧
      (RectPacker.new 8 6).exactOccupancy ≤ q.exactOccupancy ∧
      (0 ≤ (RectPacker.new 8 6).exactOccupancy ∧ (RectPacker.new 8 6).exactOccupancy ≤ 1) ∧
      (0 ≤ q.exactOccupancy ∧ q.exactOccupancy ≤ 1) :=
  exact_occupancy_monotone stableSort stableSort_sorts (RectPacker.new 8 6)
    (Reachable.init 8 6 (by decide) (by decide)) 3 2 (by decide) (by decide)

/-! ## The table invariant read off the cell sequence -/

namespace RectPacker

theorem UniformTable.stores {p : RectPacker} (h : p.UniformTable) :
    Stores p.m_BoundingBoxes p.m_Rows p.m_Columns p.table.cell := by
  refine ⟨h.1, ?_⟩
  intro r c hr hc
  have hlt : r * p.m_Columns + c < p.m_BoundingBoxes.length := by
    rw [h.1]; exact idx_lt hr hc
  obtain ⟨_, _, hw, hh⟩ := h.2 r hr c hc
  have hcell : p.cellAt r c = p.m_BoundingBoxes[r * p.m_Columns + c] := by
    unfold cellAt
    rw [List.getD_eq_getElem?_getD, List.getElem?_eq_getElem hlt]
    rfl
  rw [List.getElem?_eq_getElem hlt, ← hcell]
  show some (p.cellAt r c)
    = some ⟨(p.cellAt 0 c).Width, (p.cellAt r 0).Height, (p.cellAt r c).Filled⟩
  rw [← hw, ← hh]

theorem UniformTable.valid {p : RectPacker} (h : p.UniformTable) (hr : 1 ≤ p.m_Rows)
    (hc : 1 ≤ p.m_Columns) : p.table.Valid := by
  refine ⟨hr, hc, ?_, ?_⟩
  · intro c hc'
    exact (h.2 0 (by omega) c hc').1
  · intro r hr'
    exact (h.2 r hr' 0 (by omega)).2.1

theorem UniformTable.represents_withCanvas {p : RectPacker} (h : p.UniformTable) (hr : 1 ≤ p.m_Rows)
    (hc : 1 ≤ p.m_Columns) :
    Represents (p.withCanvas (p.table.X p.m_Columns) (p.table.Y p.m_Rows)) p.table :=
  ⟨rfl, rfl, h.stores, h.valid hr hc, rfl, rfl⟩

theorem TableInvariant.represents_table {p : RectPacker} (h : p.TableInvariant) :
    Represents p p.table := by
  obtain ⟨hr, hc, hu, hg⟩ := h
  refine ⟨rfl, rfl, hu.stores, hu.valid hr hc, ?_, ?_⟩
  · exact hg.2.1 0 (by omega)
  · exact hg.2.2 0 (by omega)

theorem TableInvariant.wf_table {p : RectPacker} (h : p.TableInvariant) : WF p :=
  ⟨p.table, h.represents_table⟩

end RectPacker

theorem Represents.tableInvariant {p : RectPacker} {T : Tbl} (h : Represents p T) :
    p.TableInvariant := by
  refine ⟨by rw [h.rows]; exact h.valid.rows_pos, by rw [h.cols]; exact h.valid.cols_pos,
    ⟨by rw [h.stores.len, h.rows, h.cols], ?_⟩, h.gridInvariant⟩
  intro r hr c hc
  rw [h.rows] at hr
  rw [h.cols] at hc
  have h0r : 0 < T.rows := h.valid.rows_pos
  have h0c : 0 < T.cols := h.valid.cols_pos
  rw [h.cellAt hr hc, h.cellAt h0r hc, h.cellAt hr h0c]
  exact ⟨h.valid.cw_pos c hc, h.valid.rh_pos r hr, rfl, rfl⟩

theorem Reachable.tableInvariant_of_reachable {sort : List Fit → List Fit} (hs : SortsByScore sort)
    {p : RectPacker} (h : Reachable sort p) : p.TableInvariant := by
  obtain ⟨T, hT⟩ := h.wf hs
  exact hT.tableInvariant

namespace RectPacker

/-- Method `Segment` neither reads nor writes the canvas bounds. -/
theorem segment_withCanvas (p : RectPacker) (a b : Int) (box : Nat) (after : BoundingBox) :
    (p.withCanvas a b).Segment box after
      = (p.Segment box after).map (fun qi => (qi.1.withCanvas a b, qi.2)) := by
  unfold Segment withCanvas
  cases h : p.m_BoundingBoxes[box]? with
  | none => simp
  | some cell =>
    simp only [Option.bind_eq_bind, Option.some_bind, Option.pure_def, bind_pure_comp]
    by_cases h1 : ¬(after.Width ≥ 0 ∧ after.Height ≥ 0)
    · rw [if_pos h1, if_pos h1]; rfl
    rw [if_neg h1, if_neg h1]
    by_cases h2 : ¬(cell.Width ≥ 1 ∧ cell.Height ≥ 1)
    · rw [if_pos h2, if_pos h2]; rfl
    rw [if_neg h2, if_neg h2]
    by_cases h3 : ¬(cell.Width > after.Width ∧ cell.Height > after.Height)
    · rw [if_pos h3, if_pos h3]; rfl
    rw [if_neg h3, if_neg h3]
    by_cases h4 : after.Width = 0 ∧ after.Height = 0
    · rw [if_pos h4, if_pos h4]; rfl
    rw [if_neg h4, if_neg h4]
    by_cases h6 : after.Height ≠ 0
    · simp only [if_pos h6]
      by_cases h5 : after.Width ≠ 0
      · rw [if_pos h5, if_pos h5]
        rcases Segment.columnLoop after.Width p.m_Rows (p.m_Columns + 1) (box / p.m_Columns + 1)
          p.m_BoundingBoxes.length p.m_BoundingBoxes 0 box (box % p.m_Columns + 1) with _ | d
        · rfl
        · simp only [Option.some_bind]
          by_cases h7 : (box / p.m_Columns + 1) * (p.m_Columns + 1) > d.1.length
          · rw [if_pos h7, if_pos h7]; rfl
          rw [if_neg h7, if_neg h7]
          rcases Segment.rowLoop after.Height (p.m_Columns + 1) (p.m_Columns + 1)
            (insertMany d.1 ((box / p.m_Columns + 1) * (p.m_Columns + 1))
              (p.m_Columns + 1) ⟨0, 0, false⟩)
            ((box / p.m_Columns + 1) * (p.m_Columns + 1)) with _ | e
          · rfl
          · rfl
      · rw [if_neg h5, if_neg h5]
        by_cases h7 : (box / p.m_Columns + 1) * p.m_Columns > p.m_BoundingBoxes.length
        · rw [if_pos h7, if_pos h7]; rfl
        rw [if_neg h7, if_neg h7]
        rcases Segment.rowLoop after.Height p.m_Columns p.m_Columns
          (insertMany p.m_BoundingBoxes ((box / p.m_Columns + 1) * p.m_Columns) p.m_Columns
            ⟨0, 0, false⟩)
          ((box / p.m_Columns + 1) * p.m_Columns) with _ | e
        · rfl
        · rfl
    · simp only [if_neg h6]
      by_cases h5 : after.Width ≠ 0
      · rw [if_pos h5, if_pos h5]
        rcases Segment.columnLoop after.Width p.m_Rows (p.m_Columns + 1) (box / p.m_Columns + 1)
          p.m_BoundingBoxes.length p.m_BoundingBoxes 0 box (box % p.m_Columns + 1) with _ | d
        · rfl
        · rfl
      · rw [if_neg h5, if_neg h5]; rfl

end RectPacker

/-! ## Position lookup and the uniform table -/

theorem Represents.index_split {p : RectPacker} {T : Tbl} (h : Represents p T) {i : Nat}
    (hi : i < p.m_BoundingBoxes.length) :
    i = (i / p.m_Columns) * T.cols + i % p.m_Columns ∧ i / p.m_Columns < T.rows ∧
      i % p.m_Columns < T.cols := by
  have hpos : 0 < T.cols := h.valid.cols_pos
  rw [h.cols]
  rw [h.stores.len] at hi
  exact ⟨(idx_decomp hpos i).1, idx_row_lt hi, (idx_decomp hpos i).2⟩

theorem RectPacker.UniformTable.mem_pos {p : RectPacker} (h : p.UniformTable)
    (hc : 1 ≤ p.m_Columns) (b : BoundingBox) (hb : b ∈ p.m_BoundingBoxes) :
    1 ≤ b.Width ∧ 1 ≤ b.Height := by
  obtain ⟨i, hi, rfl⟩ := List.getElem_of_mem hb
  have hi' := hi
  rw [h.1] at hi'
  have hd := idx_decomp (Nat.lt_of_lt_of_le Nat.zero_lt_one hc) i
  have hcell : p.cellAt (i / p.m_Columns) (i % p.m_Columns) = p.m_BoundingBoxes[i] := by
    unfold RectPacker.cellAt
    rw [← hd.1, List.getD_eq_getElem?_getD, List.getElem?_eq_getElem hi]
    rfl
  have := h.2 _ (idx_row_lt hi') _ hd.2
  rw [hcell] at this
  exact ⟨this.1, this.2.1⟩

/-- C15 (position lookup).  In every state reachable from a fresh allocator with positive bounds
by `Pack` calls with positive arguments, `GetTransform` on the cell index `i` returns, whatever
its unused size arguments and with the flag `rotated` passed through, `x` equal to the sum of the
widths of the cells left of cell `i` in its own row (`cellX`) and `y` equal to the sum of the
heights of the cells above it in its own column (`cellY`), although the code sums over row 0
and over column 0. -/
theorem position_lookup (sort : List Fit → List Fit) (hs : SortsByScore sort)
    (p : RectPacker) (hp : Reachable sort p) (i : Nat) (hi : i < p.m_BoundingBoxes.length)
    (width height : Int) (rotated : Bool) :
    p.GetTransform i width height rotated
      = some ⟨p.cellX (i / p.m_Columns) (i % p.m_Columns),
          p.cellY (i / p.m_Columns) (i % p.m_Columns), rotated⟩ := by
  obtain ⟨T, hT⟩ := hp.wf hs
  obtain ⟨hidx, hr, hc⟩ := hT.index_split hi
  rw [hT.cellX hr (Nat.le_of_lt hc), hT.cellY (Nat.le_of_lt hr) hc]
  have := hT.getTransform_eq hr hc width height rotated
  rw [← hidx] at this
  exact this

theorem position_lookup_witness :
    (RectPacker.mk 4 4 2 2 [⟨1, 2, true⟩, ⟨3, 2, false⟩, ⟨1, 2, false⟩,
        ⟨3, 2, false⟩]).GetTransform 3 7 9 true
      = some ⟨(RectPacker.mk 4 4 2 2 [⟨1, 2, true⟩, ⟨3, 2, false⟩, ⟨1, 2, false⟩,
            ⟨3, 2, false⟩]).cellX (3 / 2) (3 % 2),
          (RectPacker.mk 4 4 2 2 [⟨1, 2, true⟩, ⟨3, 2, false⟩, ⟨1, 2, false⟩,
            ⟨3, 2, false⟩]).cellY (3 / 2) (3 % 2), true⟩ :=
  position_lookup stableSort stableSort_sorts
    ⟨4, 4, 2, 2, [⟨1, 2, true⟩, ⟨3, 2, false⟩, ⟨1, 2, false⟩, ⟨3, 2, false⟩]⟩
    (Reachable.pack (RectPacker.new 4 4) 1 2 ⟨0, 0, false⟩ _
      (Reachable.init 4 4 (by decide) (by decide)) (by decide) (by decide) (by decide))
    3 (by decide) 7 9 true

/-- C19 (uniform table invariant).  On an allocator built with positive bounds, every sequence
of `Pack` calls with positive arguments returns, and in the resulting grid the sequence has
`m_Rows * m_Columns` cells, every cell has `Width >= 1` and `Height >= 1`, all cells of a
column have the same `Width` and all cells of a row have the same `Height`. -/
theorem uniform_table (sort : List Fit → List Fit) (hs : SortsByScore sort)
    (maxWidth maxHeight : Int) (hW : 0 < maxWidth) (hH : 0 < maxHeight)
    (reqs : List (Int × Int)) (hreqs : ∀ q ∈ reqs, 0 < q.1 ∧ 0 < q.2) :
    ∃ ts q, RectPacker.PackAll sort (RectPacker.new maxWidth maxHeight) reqs = some (ts, q) ∧
      q.m_BoundingBoxes.length = q.m_Rows * q.m_Columns ∧
      (∀ b ∈ q.m_BoundingBoxes, 1 ≤ b.Width ∧ 1 ≤ b.Height) ∧
      (∀ c, c < q.m_Columns → ∀ r, r < q.m_Rows → ∀ k, k < q.m_Rows →
        (q.cellAt r c).Width = (q.cellAt k c).Width) ∧
      (∀ r, r < q.m_Rows → ∀ c, c < q.m_Columns → ∀ j, j < q.m_Columns →
        (q.cellAt r c).Height = (q.cellAt r j).Height) := by
  obtain ⟨ts, q, hq, ⟨T, hT⟩, _, _, _⟩ :=
    packAll_total hs reqs _ ⟨_, represents_new hW hH⟩ hreqs
  have hinv := hT.tableInvariant
  obtain ⟨_, hc1, hu, _⟩ := hinv
  refine ⟨ts, q, hq, hu.1, hu.mem_pos hc1, ?_, ?_⟩
  · intro c hc r hr k hk
    rw [(hu.2 r hr c hc).2.2.1, (hu.2 k hk c hc).2.2.1]
  · intro r hr c hc j hj
    rw [(hu.2 r hr c hc).2.2.2, (hu.2 r hr j hj).2.2.2]

theorem uniform_table_witness :
    ∃ ts q, RectPacker.PackAll stableSort (RectPacker.new 4 4) [(1, 2), (1, 1), (3, 2)]
        = some (ts, q) ∧
      q.m_BoundingBoxes.length = q.m_Rows * q.m_Columns ∧
      (∀ b ∈ q.m_BoundingBoxes, 1 ≤ b.Width ∧ 1 ≤ b.Height) ∧
      (∀ c, c < q.m_Columns → ∀ r, r < q.m_Rows → ∀ k, k < q.m_Rows →
        (q.cellAt r c).Width = (q.cellAt k c).Width) ∧
      (∀ r, r < q.m_Rows → ∀ c, c < q.m_Columns → ∀ j, j < q.m_Columns →
        (q.cellAt r c).Height = (q.cellAt r j).Height) :=
  uniform_table stableSort stableSort_sorts 4 4 (by decide) (by decide)
    [(1, 2), (1, 1), (3, 2)] (by decide)

/-! ## The postcondition of `Segment` on the cell sequence -/

theorem Tbl.split_rows (T : Tbl) (r0 c0 : Nat) (aw ah : Int) :
    (T.split r0 c0 aw ah).rows = if ah ≠ 0 then T.rows + 1 else T.rows := by
  unfold Tbl.split
  by_cases h1 : aw ≠ 0 <;> by_cases h2 : ah ≠ 0 <;> simp [h1, h2, Tbl.splitCol, Tbl.splitRow]

theorem Tbl.split_cw (T : Tbl) (r0 c0 : Nat) (aw ah : Int) (j : Nat) :
    (T.split r0 c0 aw ah).cw j =
      if aw ≠ 0 ∧ j = c0 then T.cw (if aw ≠ 0 ∧ c0 < j then j - 1 else j) - aw
      else if aw ≠ 0 ∧ j = c0 + 1 then aw
      else T.cw (if aw ≠ 0 ∧ c0 < j then j - 1 else j) := by
  rw [Tbl.split_eq]
  by_cases h1 : aw = 0
  · simp only [h1, ne_eq, not_true_eq_false, false_and, if_true, if_false]
    split_ifs <;> rfl
  · simp only [h1, ne_eq, not_false_eq_true, true_and, if_false]
    have hc : ∀ ah, (if ah = 0 then T.splitCol c0 aw else (T.splitCol c0 aw).splitRow r0 ah).cw j
        = (T.splitCol c0 aw).cw j := by
      intro ah; split_ifs <;> rfl
    rw [hc]
    show (if j < c0 then T.cw j else if j = c0 then T.cw c0 - aw
      else if j = c0 + 1 then aw else T.cw (j - 1)) = _
    by_cases e1 : j < c0
    · rw [if_pos e1, if_neg (by omega), if_neg (by omega), if_neg (by omega)]
    · rw [if_neg e1]
      by_cases e2 : j = c0
      · rw [if_pos e2, if_pos e2, if_neg (by omega), e2]
      · rw [if_neg e2, if_neg e2]
        by_cases e3 : j = c0 + 1
        · rw [if_pos e3, if_pos e3]
        · rw [if_neg e3, if_neg e3, if_pos (by omega)]

theorem Tbl.split_rh (T : Tbl) (r0 c0 : Nat) (aw ah : Int) (r : Nat) :
    (T.split r0 c0 aw ah).rh r =
      if ah ≠ 0 ∧ r = r0 then T.rh (if ah ≠ 0 ∧ r0 < r then r - 1 else r) - ah
      else if ah ≠ 0 ∧ r = r0 + 1 then ah
      else T.rh (if ah ≠ 0 ∧ r0 < r then r - 1 else r) := by
  rw [Tbl.split_eq]
  by_cases h2 : ah = 0
  · simp only [h2, ne_eq, not_true_eq_false, false_and, if_true, if_false]
    split_ifs <;> rfl
  · simp only [h2, ne_eq, not_false_eq_true, true_and, if_false]
    have hc : (if aw = 0 then T.splitRow r0 ah else (T.splitCol c0 aw).splitRow r0 ah).rh r
        = (T.splitRow r0 ah).rh r := by
      split_ifs <;> rfl
    rw [hc]
    show (if r < r0 then T.rh r else if r = r0 then T.rh r0 - ah
      else if r = r0 + 1 then ah else T.rh (r - 1)) = _
    by_cases e1 : r < r0
    · rw [if_pos e1, if_neg (by omega), if_neg (by omega), if_neg (by omega)]
    · rw [if_neg e1]
      by_cases e2 : r = r0
      · rw [if_pos e2, if_pos e2, if_neg (by omega), e2]
      · rw [if_neg e2, if_neg e2]
        by_cases e3 : r = r0 + 1
        · rw [if_pos e3, if_pos e3]
        · rw [if_neg e3, if_neg e3, if_pos (by omega)]

theorem Tbl.split_fill (T : Tbl) (r0 c0 : Nat) (aw ah : Int) (r j : Nat) :
    (T.split r0 c0 aw ah).fill r j =
      T.fill (if ah ≠ 0 ∧ r0 < r then r - 1 else r) (if aw ≠ 0 ∧ c0 < j then j - 1 else j) := by
  rw [Tbl.split_eq]
  by_cases h1 : aw = 0 <;> by_cases h2 : ah = 0
  · simp only [h1, h2, ne_eq, not_true_eq_false, false_and, if_true, if_false]
  · simp only [h1, h2, ne_eq, not_true_eq_false, not_false_eq_true, true_and, false_and,
      if_true, if_false]
    show (if r ≤ r0 then T.fill r j else T.fill (r - 1) j) = _
    by_cases e : r ≤ r0
    · rw [if_pos e, if_neg (by omega)]
    · rw [if_neg e, if_pos (by omega)]
  · simp only [h1, h2, ne_eq, not_true_eq_false, not_false_eq_true, true_and, false_and,
      if_true, if_false]
    show (if j ≤ c0 then T.fill r j else T.fill r (j - 1)) = _
    by_cases e : j ≤ c0
    · rw [if_pos e, if_neg (by omega)]
    · rw [if_neg e, if_pos (by omega)]
  · simp only [h1, h2, ne_eq, not_false_eq_true, true_and, if_false]
    show (if r ≤ r0 then (if j ≤ c0 then T.fill r j else T.fill r (j - 1))
      else (if j ≤ c0 then T.fill (r - 1) j else T.fill (r - 1) (j - 1))) = _
    by_cases e : r ≤ r0 <;> by_cases e2 : j ≤ c0
    · rw [if_pos e, if_pos e2, if_neg (by omega), if_neg (by omega)]
    · rw [if_pos e, if_neg e2, if_neg (by omega), if_pos (by omega)]
    · rw [if_neg e, if_pos e2, if_pos (by omega), if_neg (by omega)]
    · rw [if_neg e, if_neg e2, if_pos (by omega), if_pos (by omega)]

namespace RectPacker

theorem segment_zero (p : RectPacker) (box : Nat) (cell : BoundingBox) (fl : Bool)
    (hget : p.m_BoundingBoxes[box]? = some cell) (hw : 1 ≤ cell.Width) (hh : 1 ≤ cell.Height) :
    p.Segment box ⟨0, 0, fl⟩ = some (p, box) := by
  have a1 : ¬ ¬ ((0 : Int) ≥ 0 ∧ (0 : Int) ≥ 0) := by decide
  have a2 : ¬ ¬ (cell.Width ≥ 1 ∧ cell.Height ≥ 1) := fun hh' => hh' ⟨hw, hh⟩
  have a3 : ¬ ¬ (cell.Width > 0 ∧ cell.Height > 0) := fun hh' => hh' ⟨by omega, by omega⟩
  simp only [RectPacker.Segment, hget, Option.bind_eq_bind, Option.some_bind,
    Option.pure_def, if_neg a1, if_neg a2, if_neg a3, and_self, if_true]
  exact if_neg (by decide)

/-- The cells of the table after the cut are the cells the specification describes. -/
theorem expectedCell_eq {p : RectPacker} (hinv : p.TableInvariant) (r0 c0 : Nat)
    (hr0 : r0 < p.m_Rows) (hc0 : c0 < p.m_Columns) (aw ah : Int) (r j : Nat)
    (hr : r < (p.table.split r0 c0 aw ah).rows) (hj : j < (p.table.split r0 c0 aw ah).cols) :
    (p.table.split r0 c0 aw ah).cell r j = Segment.expectedCell p r0 c0 aw ah r j := by
  have hrep := hinv.represents_table
  rw [Tbl.split_rows] at hr
  rw [Represents.split_cols] at hj
  have hj0 : (if aw ≠ 0 ∧ c0 < j then j - 1 else j) < p.table.cols := by
    have hc0' : c0 < p.table.cols := hc0
    by_cases h1 : aw ≠ 0
    · rw [if_pos h1] at hj
      by_cases e : c0 < j
      · rw [if_pos ⟨h1, e⟩]; omega
      · rw [if_neg (fun hh => e hh.2)]; omega
    · rw [if_neg h1] at hj
      rw [if_neg (fun hh => h1 hh.1)]; exact hj
  have hk0 : (if ah ≠ 0 ∧ r0 < r then r - 1 else r) < p.table.rows := by
    have hr0' : r0 < p.table.rows := hr0
    by_cases h1 : ah ≠ 0
    · rw [if_pos h1] at hr
      by_cases e : r0 < r
      · rw [if_pos ⟨h1, e⟩]; omega
      · rw [if_neg (fun hh => e hh.2)]; omega
    · rw [if_neg h1] at hr
      rw [if_neg (fun hh => h1 hh.1)]; exact hr
  unfold Segment.expectedCell
  simp only [hrep.cellAt hk0 hj0]
  unfold Tbl.cell
  rw [Tbl.split_cw, Tbl.split_rh, Tbl.split_fill]

end RectPacker

/-- C12 (Segment postcondition).  On a grid that satisfies the table invariant, for the cell in
row `r0` and column `c0` and a leftover `after` with `0 <= after.Width < cell.Width` and
`0 <= after.Height < cell.Height`, `Segment` returns; `m_Columns` grows by 1 exactly when
`after.Width > 0` and `m_Rows` by 1 exactly when `after.Height > 0`; every cell of the new grid
is the cell `Segment.expectedCell` describes (a new cell of width `after.Width` in every
row right of the cut column, a new cell of height `after.Height` in every column below the
target's row, each with the filled flag of the cell it was cut from, the cut cells shrunk);
the returned reference is the cell in row `r0` and column `c0` of the new grid, whose size is
`(Width - after.Width, Height - after.Height)`; when both leftovers are zero the grid is
unchanged; and the new grid satisfies the table invariant again. -/
theorem segment_postcondition (p : RectPacker) (hinv : p.TableInvariant) (r0 c0 : Nat)
    (hr0 : r0 < p.m_Rows) (hc0 : c0 < p.m_Columns) (after : BoundingBox)
    (haw : 0 ≤ after.Width) (haw2 : after.Width < (p.cellAt r0 c0).Width)
    (hah : 0 ≤ after.Height) (hah2 : after.Height < (p.cellAt r0 c0).Height) :
    ∃ q, p.Segment (r0 * p.m_Columns + c0) after = some (q, r0 * q.m_Columns + c0) ∧
      q.m_Columns = p.m_Columns + (if 0 < after.Width then 1 else 0) ∧
      q.m_Rows = p.m_Rows + (if 0 < after.Height then 1 else 0) ∧
      (∀ r, r < q.m_Rows → ∀ j, j < q.m_Columns →
        q.cellAt r j
          = RectPacker.Segment.expectedCell p r0 c0 after.Width after.Height r j) ∧
      q.cellAt r0 c0 = ⟨(p.cellAt r0 c0).Width - after.Width,
        (p.cellAt r0 c0).Height - after.Height, (p.cellAt r0 c0).Filled⟩ ∧
      (after.Width = 0 ∧ after.Height = 0 → q = p) ∧
      q.TableInvariant := by
  obtain ⟨aw, ah, fl⟩ := after
  simp only at haw haw2 hah hah2 ⊢
  have hrep := hinv.represents_table
  have hr0' : r0 < p.table.rows := hr0
  have hc0' : c0 < p.table.cols := hc0
  have hcell := hrep.cellAt hr0' hc0'
  rw [hcell] at haw2 hah2
  obtain ⟨q, hseg, hq, _, _⟩ := hrep.segment_spec hr0' hc0' haw haw2 hah hah2 fl
  have hqc : q.m_Columns = p.m_Columns + (if 0 < aw then 1 else 0) := by
    rw [hq.cols, Represents.split_cols]
    by_cases h : aw = 0
    · rw [if_neg (by simpa using h), if_neg (by omega)]; rfl
    · rw [if_pos h, if_pos (by omega)]; rfl
  have hqr : q.m_Rows = p.m_Rows + (if 0 < ah then 1 else 0) := by
    rw [hq.rows, Tbl.split_rows]
    by_cases h : ah = 0
    · rw [if_neg (by simpa using h), if_neg (by omega)]; rfl
    · rw [if_pos h, if_pos (by omega)]; rfl
  have hcells : ∀ r, r < q.m_Rows → ∀ j, j < q.m_Columns →
      q.cellAt r j = RectPacker.Segment.expectedCell p r0 c0 aw ah r j := by
    intro r hr j hj
    rw [hq.rows] at hr
    rw [hq.cols] at hj
    rw [hq.cellAt hr hj]
    exact RectPacker.expectedCell_eq hinv r0 c0 hr0 hc0 aw ah r j hr hj
  refine ⟨q, ?_, hqc, hqr, hcells, ?_, ?_, hq.tableInvariant⟩
  · rw [hq.cols]; exact hseg
  · rw [hcells r0 (by omega) c0 (by omega), hcell]
    unfold RectPacker.Segment.expectedCell
    have e1 : ¬ (aw ≠ 0 ∧ c0 < c0) := fun hh => Nat.lt_irrefl _ hh.2
    have e2 : ¬ (ah ≠ 0 ∧ r0 < r0) := fun hh => Nat.lt_irrefl _ hh.2
    simp only [if_neg e1, if_neg e2, hcell]
    by_cases h1 : aw = 0 <;> by_cases h2 : ah = 0 <;> simp [h1, h2]
  · rintro ⟨h1, h2⟩
    subst h1 h2
    have hz := RectPacker.segment_zero p (r0 * p.table.cols + c0) _ fl (hrep.get hr0' hc0')
      (hrep.valid.cw_pos c0 hc0') (hrep.valid.rh_pos r0 hr0')
    rw [hz] at hseg
    simp only [Option.some.injEq, Prod.mk.injEq] at hseg
    exact hseg.1.symm

theorem segment_postcondition_witness :
    ∃ q, (RectPacker.mk 4 4 2 2 [⟨1, 2, true⟩, ⟨3, 2, false⟩, ⟨1, 2, false⟩,
        ⟨3, 2, false⟩]).Segment (0 * 2 + 1) ⟨2, 1, false⟩ = some (q, 0 * q.m_Columns + 1) ∧
      q.m_Columns = 2 + (if (0 : Int) < 2 then 1 else 0) ∧
      q.m_Rows = 2 + (if (0 : Int) < 1 then 1 else 0) ∧
      (∀ r, r < q.m_Rows → ∀ j, j < q.m_Columns →
        q.cellAt r j
          = RectPacker.Segment.expectedCell (RectPacker.mk 4 4 2 2 [⟨1, 2, true⟩,
              ⟨3, 2, false⟩, ⟨1, 2, false⟩, ⟨3, 2, false⟩]) 0 1 2 1 r j) ∧
      q.cellAt 0 1 = ⟨(RectPacker.cellAt (RectPacker.mk 4 4 2 2 [⟨1, 2, true⟩,
              ⟨3, 2, false⟩, ⟨1, 2, false⟩, ⟨3, 2, false⟩]) 0 1).Width - 2,
          (RectPacker.cellAt (RectPacker.mk 4 4 2 2 [⟨1, 2, true⟩,
              ⟨3, 2, false⟩, ⟨1, 2, false⟩, ⟨3, 2, false⟩]) 0 1).Height - 1,
          (RectPacker.cellAt (RectPacker.mk 4 4 2 2 [⟨1, 2, true⟩,
              ⟨3, 2, false⟩, ⟨1, 2, false⟩, ⟨3, 2, false⟩]) 0 1).Filled⟩ ∧
      (((2 : Int) = 0 ∧ (1 : Int) = 0) → q = RectPacker.mk 4 4 2 2 [⟨1, 2, true⟩,
              ⟨3, 2, false⟩, ⟨1, 2, false⟩, ⟨3, 2, false⟩]) ∧
      q.TableInvariant :=
  segment_postcondition ⟨4, 4, 2, 2, [⟨1, 2, true⟩, ⟨3, 2, false⟩, ⟨1, 2, false⟩,
    ⟨3, 2, false⟩]⟩ (by decide) 0 1 (by decide) (by decide) ⟨2, 1, false⟩
    (by decide) (by decide) (by decide) (by decide)

/-! ## `Segment` keeps the occupied region -/

/-- C20 (Segment preserves the occupied region).  On a grid that satisfies the uniform table
invariant, for the cell in row `r0` and column `c0` and a leftover `after` that meets the three
assertions of `Segment`, the call returns a grid `q` and the reference to row `r0`, column
`c0` of `q`; a canvas point lies in a filled cell of `q` exactly when it lies in a filled cell
of `p`, the total filled area is the same, and the origin of the target cell is the same. -/
theorem segment_preserves_region (p : RectPacker) (hu : p.UniformTable) (r0 c0 : Nat)
    (hr0 : r0 < p.m_Rows) (hc0 : c0 < p.m_Columns) (after : BoundingBox)
    (hpre : RectPacker.Segment.Pre p (r0 * p.m_Columns + c0) after) :
    ∃ q, p.Segment (r0 * p.m_Columns + c0) after = some (q, r0 * q.m_Columns + c0) ∧
      (∀ px py, q.FilledAt px py ↔ p.FilledAt px py) ∧
      q.occupiedArea = p.occupiedArea ∧
      q.cellX r0 c0 = p.cellX r0 c0 ∧ q.cellY r0 c0 = p.cellY r0 c0 := by
  obtain ⟨aw, ah, fl⟩ := after
  have hrep := hu.represents_withCanvas (by omega) (by omega)
  have hr0' : r0 < p.table.rows := hr0
  have hc0' : c0 < p.table.cols := hc0
  obtain ⟨cell, hget, ⟨haw, hah⟩, _, haw2, hah2⟩ := hpre
  have hget' : p.m_BoundingBoxes[r0 * p.m_Columns + c0]? = some (p.table.cell r0 c0) :=
    hrep.get hr0' hc0'
  rw [hget'] at hget
  simp only [Option.some.injEq] at hget
  subst hget
  simp only at haw hah haw2 hah2
  obtain ⟨q1, hseg, hq, _, _⟩ := hrep.segment_spec hr0' hc0' haw haw2 hah hah2 fl
  rw [RectPacker.segment_withCanvas] at hseg
  change Option.map _ (p.Segment (r0 * p.m_Columns + c0) ⟨aw, ah, fl⟩) = _ at hseg
  rcases hs : p.Segment (r0 * p.m_Columns + c0) ⟨aw, ah, fl⟩ with _ | ⟨q, i⟩
  · rw [hs] at hseg; exact absurd hseg (by simp)
  rw [hs] at hseg
  simp only [Option.map_some', Option.some.injEq, Prod.mk.injEq] at hseg
  obtain ⟨hq1, hi⟩ := hseg
  have hcols : q.m_Columns = (p.table.split r0 c0 aw ah).cols := by
    rw [← hq.cols, ← hq1]; rfl
  have hF1 : ∀ px py, q.FilledAt px py ↔ q1.FilledAt px py := by
    intro px py; rw [← hq1]; exact Iff.rfl
  have hF2 : ∀ px py,
      (p.withCanvas (p.table.X p.m_Columns) (p.table.Y p.m_Rows)).FilledAt px py
        ↔ p.FilledAt px py := fun px py => Iff.rfl
  have hA1 : q.occupiedArea = q1.occupiedArea := by rw [← hq1]; rfl
  have hA2 : (p.withCanvas (p.table.X p.m_Columns) (p.table.Y p.m_Rows)).occupiedArea
      = p.occupiedArea := rfl
  have hX1 : q.cellX r0 c0 = q1.cellX r0 c0 := by rw [← hq1]; rfl
  have hY1 : q.cellY r0 c0 = q1.cellY r0 c0 := by rw [← hq1]; rfl
  have hX2 : (p.withCanvas (p.table.X p.m_Columns) (p.table.Y p.m_Rows)).cellX r0 c0
      = p.cellX r0 c0 := rfl
  have hY2 : (p.withCanvas (p.table.X p.m_Columns) (p.table.Y p.m_Rows)).cellY r0 c0
      = p.cellY r0 c0 := rfl
  have hr0s : r0 < (p.table.split r0 c0 aw ah).rows :=
    Nat.lt_of_lt_of_le hr0' (Tbl.split_rows_ge _ _ _ _ _)
  have hc0s : c0 < (p.table.split r0 c0 aw ah).cols :=
    Nat.lt_of_lt_of_le hc0' (Tbl.split_cols_ge _ _ _ _ _)
  refine ⟨q, ?_, ?_, ?_, ?_, ?_⟩
  · rw [hcols, hi]
  · intro px py
    rw [hF1, hq.filledAt_iff, Tbl.covered_split hr0' hc0' haw haw2 hah hah2, ← hF2,
      hrep.filledAt_iff]
  · rw [hA1, hq.occupiedArea_eq, Tbl.area_split _ aw ah hr0' hc0', ← hA2, hrep.occupiedArea_eq]
  · rw [hX1, hq.cellX hr0s (Nat.le_of_lt hc0s), Tbl.split_X_le _ _ _ _ _ (Nat.le_refl _),
      ← hX2, hrep.cellX hr0' (Nat.le_of_lt hc0')]
  · rw [hY1, hq.cellY (Nat.le_of_lt hr0s) hc0s, Tbl.split_Y_le _ _ _ _ _ (Nat.le_refl _),
      ← hY2, hrep.cellY (Nat.le_of_lt hr0') hc0']

theorem segment_preserves_region_witness :
    ∃ q, (RectPacker.mk 4 4 2 2 [⟨1, 2, true⟩, ⟨3, 2, false⟩, ⟨1, 2, false⟩,
        ⟨3, 2, false⟩]).Segment (0 * 2 + 0) ⟨0, 1, false⟩ = some (q, 0 * q.m_Columns + 0) ∧
      (∀ px py, q.FilledAt px py ↔ (RectPacker.mk 4 4 2 2 [⟨1, 2, true⟩, ⟨3, 2, false⟩,
        ⟨1, 2, false⟩, ⟨3, 2, false⟩]).FilledAt px py) ∧
      q.occupiedArea = (RectPacker.mk 4 4 2 2 [⟨1, 2, true⟩, ⟨3, 2, false⟩,
        ⟨1, 2, false⟩, ⟨3, 2, false⟩]).occupiedArea ∧
      q.cellX 0 0 = (RectPacker.mk 4 4 2 2 [⟨1, 2, true⟩, ⟨3, 2, false⟩,
        ⟨1, 2, false⟩, ⟨3, 2, false⟩]).cellX 0 0 ∧
      q.cellY 0 0 = (RectPacker.mk 4 4 2 2 [⟨1, 2, true⟩, ⟨3, 2, false⟩,
        ⟨1, 2, false⟩, ⟨3, 2, false⟩]).cellY 0 0 :=
  segment_preserves_region ⟨4, 4, 2, 2, [⟨1, 2, true⟩, ⟨3, 2, false⟩, ⟨1, 2, false⟩,
    ⟨3, 2, false⟩]⟩ (by decide) 0 0 (by decide) (by decide) ⟨0, 1, false⟩
    ⟨⟨1, 2, true⟩, by decide, by decide, by decide, by decide⟩

/-! ## Feasibility of the combine scan on the cell sequence -/

namespace RectPacker

theorem scanBlock_iff {p : RectPacker} (hinv : p.TableInvariant) {r c : Nat}
    (hr : r < p.m_Rows) (hc : c < p.m_Columns) (width height : Int) (r2 c2 : Nat) :
    p.ScanBlock r c width height r2 c2
      ↔ p.table.RowSpan r height r2 ∧ p.table.ColSpan c width c2 := by
  have hrep := hinv.represents_table
  have hr' : r < p.table.rows := hr
  have hc' : c < p.table.cols := hc
  unfold ScanBlock Tbl.RowSpan Tbl.ColSpan
  constructor
  · rintro ⟨h1, h2, h3, h4, h5, h6, h7, h8⟩
    have h2' : r2 < p.table.rows := h2
    have h4' : c2 < p.table.cols := h4
    rw [hrep.cellX hr' (Nat.le_of_lt h4'), hrep.cellX hr' (Nat.le_of_lt hc')] at h5
    rw [hrep.cellX hr' h4', hrep.cellX hr' (Nat.le_of_lt hc')] at h6
    rw [hrep.cellY (Nat.le_of_lt h2') hc', hrep.cellY (Nat.le_of_lt hr') hc'] at h7
    rw [hrep.cellY h2' hc', hrep.cellY (Nat.le_of_lt hr') hc'] at h8
    exact ⟨⟨h1, h2, h7, h8⟩, ⟨h3, h4, h5, h6⟩⟩
  · rintro ⟨⟨h1, h2, h7, h8⟩, ⟨h3, h4, h5, h6⟩⟩
    refine ⟨h1, h2, h3, h4, ?_, ?_, ?_, ?_⟩
    · rw [hrep.cellX hr' (Nat.le_of_lt h4), hrep.cellX hr' (Nat.le_of_lt hc')]; exact h5
    · rw [hrep.cellX hr' h4, hrep.cellX hr' (Nat.le_of_lt hc')]; exact h6
    · rw [hrep.cellY (Nat.le_of_lt h2) hc', hrep.cellY (Nat.le_of_lt hr') hc']; exact h7
    · rw [hrep.cellY h2 hc', hrep.cellY (Nat.le_of_lt hr') hc']; exact h8

theorem freeCells_iff (p : RectPacker) (r c r2 c2 : Nat) :
    p.FreeCells r c r2 c2
      ↔ ∀ k j, r ≤ k → k ≤ r2 → c ≤ j → j ≤ c2 → p.table.fill k j = false := by
  unfold FreeCells
  constructor
  · intro h k j h1 h2 h3 h4
    exact h k (by omega) j (by omega) h1 h3
  · intro h k hk j hj h1 h3
    exact h k j h1 (by omega) h3 (by omega)

theorem blockFree_iff_scan {p : RectPacker} (hinv : p.TableInvariant) {r c : Nat}
    (hr : r < p.m_Rows) (hc : c < p.m_Columns) (width height : Int) :
    p.table.BlockFree r c width height
      ↔ ∃ r2 c2, p.ScanBlock r c width height r2 c2 ∧ p.FreeCells r c r2 c2 := by
  unfold Tbl.BlockFree
  constructor
  · rintro ⟨r2, c2, h1, h2, h3⟩
    exact ⟨r2, c2, (scanBlock_iff hinv hr hc width height r2 c2).2 ⟨h1, h2⟩,
      (freeCells_iff p r c r2 c2).2 h3⟩
  · rintro ⟨r2, c2, h1, h2⟩
    have := (scanBlock_iff hinv hr hc width height r2 c2).1 h1
    exact ⟨r2, c2, this.1, this.2, (freeCells_iff p r c r2 c2).1 h2⟩

end RectPacker

/-- C16 (combine scan feasibility).  On a grid that satisfies the table invariant, for a free
start cell in row `r` and column `c` and positive `width` and `height` (whether or not they fit
the start cell directly), `TryCombine` returns, and its result is a score other than `SIZE_MAX`
if and only if there are a last row `r2 >= r` and a last column `c2 >= c` inside the grid such
that `c2` is the first column at which the widths of columns `c..c2` reach `width`, `r2` is
the first row at which the heights of rows `r..r2` reach `height`, and every cell in rows
`r..r2` and columns `c..c2` is free.  In particular the result is `SIZE_MAX` when the row ends
before the width is covered, when the grid ends before the height is covered, and when the
block of the scan holds a filled cell. -/
theorem combine_scan_feasibility (p : RectPacker) (hinv : p.TableInvariant) (r c : Nat)
    (hr : r < p.m_Rows) (hc : c < p.m_Columns) (hfree : (p.cellAt r c).Filled = false)
    (width height : Int) (hw : 0 < width) (hh : 0 < height) :
    ∃ res, p.TryCombine (r * p.m_Columns + c) width height = some res ∧
      (res.isSome = true
        ↔ ∃ r2 c2, p.ScanBlock r c width height r2 c2 ∧ p.FreeCells r c r2 c2) ∧
      (p.cellX r p.m_Columns - p.cellX r c < width → res = none) ∧
      (p.cellY p.m_Rows c - p.cellY r c < height → res = none) ∧
      (∀ r2 c2, p.ScanBlock r c width height r2 c2 → ¬ p.FreeCells r c r2 c2 → res = none) := by
  have hrep := hinv.represents_table
  have hr' : r < p.table.rows := hr
  have hc' : c < p.table.cols := hc
  obtain ⟨res, hres, hiff⟩ := hrep.tryCombine_spec hr' hc' hfree hw hh
  rw [RectPacker.blockFree_iff_scan hinv hr hc] at hiff
  have hnone : (¬ ∃ r2 c2, p.ScanBlock r c width height r2 c2 ∧ p.FreeCells r c r2 c2)
      → res = none := by
    intro hno
    cases res with
    | none => rfl
    | some e => exact absurd (hiff.1 rfl) hno
  refine ⟨res, hres, hiff, ?_, ?_, ?_⟩
  · intro hlt
    apply hnone
    rintro ⟨r2, c2, hb, _⟩
    obtain ⟨_, _, _, h4, _, h6, _, _⟩ := hb
    have h4' : c2 < p.table.cols := h4
    have eX : p.cellX r p.m_Columns = p.table.X p.table.cols := hrep.cellX hr' (Nat.le_refl _)
    rw [eX, hrep.cellX hr' (Nat.le_of_lt hc')] at hlt
    rw [hrep.cellX hr' (show c2 + 1 ≤ p.table.cols from h4'),
      hrep.cellX hr' (Nat.le_of_lt hc')] at h6
    have := Tbl.X_le hrep.valid (show c2 + 1 ≤ p.table.cols from h4') (Nat.le_refl _)
    omega
  · intro hlt
    apply hnone
    rintro ⟨r2, c2, hb, _⟩
    obtain ⟨_, h2, _, _, _, _, _, h8⟩ := hb
    have h2' : r2 < p.table.rows := h2
    have eY : p.cellY p.m_Rows c = p.table.Y p.table.rows := hrep.cellY (Nat.le_refl _) hc'
    rw [eY, hrep.cellY (Nat.le_of_lt hr') hc'] at hlt
    rw [hrep.cellY (show r2 + 1 ≤ p.table.rows from h2') hc',
      hrep.cellY (Nat.le_of_lt hr') hc'] at h8
    have := Tbl.Y_le hrep.valid (show r2 + 1 ≤ p.table.rows from h2') (Nat.le_refl _)
    omega
  · intro r2 c2 hb hnf
    apply hnone
    rintro ⟨k2, j2, hb', hf'⟩
    have s1 := (RectPacker.scanBlock_iff hinv hr hc width height r2 c2).1 hb
    have s2 := (RectPacker.scanBlock_iff hinv hr hc width height k2 j2).1 hb'
    have e1 : r2 = k2 := Tbl.RowSpan.unique_row hrep.valid s1.1 s2.1
    have e2 : c2 = j2 := Tbl.ColSpan.unique_col hrep.valid s1.2 s2.2
    rw [e1, e2] at hnf
    exact hnf hf'

theorem combine_scan_feasibility_witness :
    ∃ res, (RectPacker.mk 4 4 2 2 [⟨1, 2, true⟩, ⟨3, 2, false⟩, ⟨1, 2, false⟩,
        ⟨3, 2, false⟩]).TryCombine (1 * 2 + 0) 3 2 = some res ∧
      (res.isSome = true
        ↔ ∃ r2 c2, (RectPacker.mk 4 4 2 2 [⟨1, 2, true⟩, ⟨3, 2, false⟩, ⟨1, 2, false⟩,
            ⟨3, 2, false⟩]).ScanBlock 1 0 3 2 r2 c2 ∧
          (RectPacker.mk 4 4 2 2 [⟨1, 2, true⟩, ⟨3, 2, false⟩, ⟨1, 2, false⟩,
            ⟨3, 2, false⟩]).FreeCells 1 0 r2 c2) ∧
      ((RectPacker.mk 4 4 2 2 [⟨1, 2, true⟩, ⟨3, 2, false⟩, ⟨1, 2, false⟩,
            ⟨3, 2, false⟩]).cellX 1 2 - (RectPacker.mk 4 4 2 2 [⟨1, 2, true⟩, ⟨3, 2, false⟩,
            ⟨1, 2, false⟩, ⟨3, 2, false⟩]).cellX 1 0 < 3 → res = none) ∧
      ((RectPacker.mk 4 4 2 2 [⟨1, 2, true⟩, ⟨3, 2, false⟩, ⟨1, 2, false⟩,
            ⟨3, 2, false⟩]).cellY 2 0 - (RectPacker.mk 4 4 2 2 [⟨1, 2, true⟩, ⟨3, 2, false⟩,
            ⟨1, 2, false⟩, ⟨3, 2, false⟩]).cellY 1 0 < 2 → res = none) ∧
      (∀ r2 c2, (RectPacker.mk 4 4 2 2 [⟨1, 2, true⟩, ⟨3, 2, false⟩, ⟨1, 2, false⟩,
            ⟨3, 2, false⟩]).ScanBlock 1 0 3 2 r2 c2 →
          ¬ (RectPacker.mk 4 4 2 2 [⟨1, 2, true⟩, ⟨3, 2, false⟩, ⟨1, 2, false⟩,
            ⟨3, 2, false⟩]).FreeCells 1 0 r2 c2 → res = none) :=
  combine_scan_feasibility ⟨4, 4, 2, 2, [⟨1, 2, true⟩, ⟨3, 2, false⟩, ⟨1, 2, false⟩,
    ⟨3, 2, false⟩]⟩ (by decide) 1 0 (by decide) (by decide) (by decide) 3 2
    (by decide) (by decide)

/-! ## The selector of `PackMostFit` and the calls of `Segment` it makes -/

theorem SortsByScore.head_min {sort : List Fit → List Fit} (hs : SortsByScore sort)
    {fits : List Fit} {best : Fit} (hbest : (sort fits)[0]? = some best) :
    ∀ f ∈ fits, best.exposed ≤ f.exposed := by
  intro f hf
  have hperm := (hs fits).1
  have hpw := (hs fits).2
  cases hsf : sort fits with
  | nil =>
    rw [hsf] at hbest
    exact absurd hbest (by simp)
  | cons a l =>
    rw [hsf] at hbest hperm hpw
    have ha : a = best := by simpa using hbest
    subst ha
    have hmem : f ∈ a :: l := hperm.mem_iff.mpr hf
    rcases List.mem_cons.mp hmem with e | hl
    · rw [e]
    · exact (List.pairwise_cons.mp hpw).1 f hl

namespace RectPacker

theorem packMostFit_eq (sort : List Fit → List Fit) (p : RectPacker) (fits : List Fit)
    (width height : Int) (best : Fit) (hbest : (sort fits)[0]? = some best) :
    p.PackMostFit sort fits width height =
      if best.combined then
        p.PackCombined best.box (if best.rotated then height else width)
          (if best.rotated then width else height) best.rotated
      else
        PackMostFit.commitDirect p best.box (if best.rotated then height else width)
          (if best.rotated then width else height) best.rotated := by
  simp only [PackMostFit, PackMostFit.commitDirect, hbest, Option.bind_eq_bind,
    Option.some_bind, Option.pure_def]

/-- A failed assertion or a fault in the `Segment` call of `segmentCall` fails `PackMostFit`:
the call is on the path of every commit. -/
theorem packMostFit_none_of_segment_none (sort : List Fit → List Fit) (p : RectPacker)
    (fits : List Fit) (width height : Int) (q : RectPacker) (box : Nat) (after : BoundingBox)
    (hcall : PackMostFit.segmentCall sort p fits width height = some (q, box, after))
    (hseg : q.Segment box after = none) :
    p.PackMostFit sort fits width height = none := by
  cases hb : (sort fits)[0]? with
  | none =>
    simp only [PackMostFit.segmentCall, hb, Option.bind_eq_bind, Option.none_bind] at hcall
    exact absurd hcall (by simp)
  | some best =>
    simp only [PackMostFit.segmentCall, hb, Option.bind_eq_bind, Option.some_bind,
      Option.pure_def] at hcall
    simp only [PackMostFit, hb, Option.bind_eq_bind, Option.some_bind, Option.pure_def]
    by_cases hc : best.combined = true
    · rw [if_pos hc] at hcall ⊢
      unfold PackCombined
      cases hg : p.GetCombined best.box (if best.rotated = true then height else width)
          (if best.rotated = true then width else height) false with
      | none => simp
      | some d =>
        obtain ⟨q1, combined, lastBox⟩ := d
        rw [hg] at hcall
        simp only [Option.some_bind, Option.some.injEq, Prod.mk.injEq] at hcall
        obtain ⟨e1, e2, e3⟩ := hcall
        subst e1 e2 e3
        simp only [Option.bind_eq_bind, Option.some_bind, hseg, Option.none_bind]
    · rw [if_neg hc] at hcall ⊢
      cases hg : p.m_BoundingBoxes[best.box]? with
      | none => simp
      | some cell =>
        rw [hg] at hcall
        simp only [Option.some_bind, Option.some.injEq, Prod.mk.injEq] at hcall
        obtain ⟨e1, e2, e3⟩ := hcall
        subst e1 e2 e3
        simp only [Option.some_bind, hseg, Option.none_bind]

end RectPacker

/-- C11 (selector picks a minimum).  For every grid state and request for which `Pack` records
at least one candidate, the candidate `best` that `PackMostFit` takes from the sorted vector is
one of the recorded candidates, its exposed-surface score is at most the score of every
recorded candidate, and `Pack` is the commit of `best`: `PackCombined` on its cell when it is a
combined candidate, and otherwise the single-cell commit through `Segment` on its own cell,
both with the request in the orientation of `best`. -/
theorem selector_picks_minimum (sort : List Fit → List Fit) (hs : SortsByScore sort)
    (p : RectPacker) (width height : Int) (fits : List Fit)
    (hfits : RectPacker.Pack.candidates p width height = some fits) (hne : fits ≠ []) :
    ∃ best, (sort fits)[0]? = some best ∧ best ∈ fits ∧
      (∀ f ∈ fits, best.exposed ≤ f.exposed) ∧
      p.Pack sort width height =
        if best.combined then
          p.PackCombined best.box (if best.rotated then height else width)
            (if best.rotated then width else height) best.rotated
        else
          RectPacker.PackMostFit.commitDirect p best.box (if best.rotated then height else width)
            (if best.rotated then width else height) best.rotated := by
  obtain ⟨best, hbest, hmem⟩ := hs.head_mem hne
  refine ⟨best, hbest, hmem, hs.head_min hbest, ?_⟩
  unfold RectPacker.Pack.candidates at hfits
  have hne' : ¬ fits.isEmpty = true := by
    rw [List.isEmpty_iff]; exact hne
  simp only [RectPacker.Pack, hfits, Option.bind_eq_bind, Option.some_bind, if_neg hne']
  exact RectPacker.packMostFit_eq sort p fits width height best hbest

theorem selector_picks_minimum_witness :
    ∃ best, (stableSort [⟨1, 3, false, false⟩, ⟨1, 6, true, true⟩, ⟨2, 4, true, false⟩,
        ⟨3, 5, false, false⟩])[0]? = some best ∧
      best ∈ [(⟨1, 3, false, false⟩ : Fit), ⟨1, 6, true, true⟩, ⟨2, 4, true, false⟩,
        ⟨3, 5, false, false⟩] ∧
      (∀ f ∈ [(⟨1, 3, false, false⟩ : Fit), ⟨1, 6, true, true⟩, ⟨2, 4, true, false⟩,
        ⟨3, 5, false, false⟩], best.exposed ≤ f.exposed) ∧
      (RectPacker.mk 4 4 2 2 [⟨1, 2, true⟩, ⟨3, 2, false⟩, ⟨1, 2, false⟩,
          ⟨3, 2, false⟩]).Pack stableSort 3 2 =
        if best.combined then
          (RectPacker.mk 4 4 2 2 [⟨1, 2, true⟩, ⟨3, 2, false⟩, ⟨1, 2, false⟩,
            ⟨3, 2, false⟩]).PackCombined best.box (if best.rotated then 2 else 3)
            (if best.rotated then 3 else 2) best.rotated
        else
          RectPacker.PackMostFit.commitDirect (RectPacker.mk 4 4 2 2 [⟨1, 2, true⟩,
            ⟨3, 2, false⟩, ⟨1, 2, false⟩, ⟨3, 2, false⟩]) best.box
            (if best.rotated then 2 else 3) (if best.rotated then 3 else 2) best.rotated :=
  selector_picks_minimum stableSort stableSort_sorts
    ⟨4, 4, 2, 2, [⟨1, 2, true⟩, ⟨3, 2, false⟩, ⟨1, 2, false⟩, ⟨3, 2, false⟩]⟩ 3 2
    [⟨1, 3, false, false⟩, ⟨1, 6, true, true⟩, ⟨2, 4, true, false⟩, ⟨3, 5, false, false⟩]
    (by decide) (by decide)

/-- C13 (the precondition of Segment is never violated).  In every state reachable from an
allocator with positive bounds by `Pack` calls with positive arguments, and for every request
with positive width and height, `Pack` records its candidates, and when there is at least one,
the call of `Segment` that the commit makes (from the single-cell commit of `PackMostFit`, and
from `PackCombined` on the last cell of the block after `GetCombined(false)`) meets the three
assertions at the head of `Segment`: the leftover is non-negative on both axes, the cell has
width and height at least 1, and the leftover is strictly smaller than the cell on both axes;
the call returns. -/
theorem segment_precondition (sort : List Fit → List Fit) (hs : SortsByScore sort)
    (p : RectPacker) (hp : Reachable sort p) (width height : Int) (hw : 0 < width)
    (hh : 0 < height) :
    ∃ fits, RectPacker.Pack.candidates p width height = some fits ∧
      (fits ≠ [] → ∃ q box after,
        RectPacker.PackMostFit.segmentCall sort p fits width height = some (q, box, after) ∧
        RectPacker.Segment.Pre q box after ∧
        ∃ res, q.Segment box after = some res) := by
  obtain ⟨T, h⟩ := hp.wf hs
  have hidx : ∀ i ∈ List.range p.m_BoundingBoxes.length, i < T.rows * T.cols := by
    intro i hi
    rw [← h.stores.len]
    exact List.mem_range.mp hi
  obtain ⟨fits, hscan, hcand, _⟩ := h.scan_spec hw hh (List.range p.m_BoundingBoxes.length) []
    hidx (fun f hf => absurd hf (List.not_mem_nil f))
  refine ⟨fits, hscan, ?_⟩
  intro hne
  obtain ⟨best, hbest, hmem⟩ := hs.head_mem hne
  obtain ⟨r, c, r2, c2, hbox, hb, hdir⟩ := hcand best hmem
  have hc2 : c2 < T.cols := hb.cs.2.1
  have hr2 : r2 < T.rows := hb.rs.2.1
  simp only [RectPacker.PackMostFit.segmentCall, hbest, Option.bind_eq_bind, Option.some_bind,
    Option.pure_def]
  by_cases hcomb : best.combined = true
  · rw [if_pos hcomb, hbox]
    obtain ⟨q1, hq1, hrep1, _, _⟩ := h.getCombined_spec hb.rs hb.cs false
    rw [hb.setBlock_false] at hrep1
    obtain ⟨q2, hq2, _⟩ := hrep1.segment_spec hr2 hc2 hb.aw_nonneg hb.aw_lt hb.ah_nonneg
      hb.ah_lt false
    rw [hq1]
    refine ⟨q1, r2 * T.cols + c2, _, rfl, ?_, _, hq2⟩
    exact ⟨T.cell r2 c2, hrep1.get hr2 hc2, ⟨hb.aw_nonneg, hb.ah_nonneg⟩,
      ⟨h.valid.cw_pos c2 hc2, h.valid.rh_pos r2 hr2⟩, ⟨hb.aw_lt, hb.ah_lt⟩⟩
  · rw [if_neg hcomb, hbox]
    obtain ⟨e1, e2⟩ := hdir (by simpa using hcomb)
    subst e1 e2
    have hget := h.get hr2 hc2
    rw [hget, Option.some_bind]
    have h1 := hb.aw_nonneg
    have h2 := hb.ah_nonneg
    have h3 := hb.aw_lt
    have h4 := hb.ah_lt
    have hXs := T.X_succ c2
    have hYs := T.Y_succ r2
    have hfit : (T.cell r2 c2).CheckFit (if best.rotated = true then height else width)
        (if best.rotated = true then width else height)
        = ⟨T.X (c2 + 1) - T.X c2 - (if best.rotated = true then height else width),
          T.Y (r2 + 1) - T.Y r2 - (if best.rotated = true then width else height), true⟩ := by
      have hn : ¬ (T.cw c2 - (if best.rotated = true then height else width) < 0
          ∨ T.rh r2 - (if best.rotated = true then width else height) < 0) := by omega
      simp only [BoundingBox.CheckFit, Tbl.cell, if_neg hn]
      congr 1 <;> omega
    obtain ⟨q2, hq2, _⟩ := h.segment_spec hr2 hc2 h1 h3 h2 h4 true
    refine ⟨p, r2 * T.cols + c2, _, rfl, ?_, ?_⟩
    · rw [hfit]
      exact ⟨T.cell r2 c2, hget, ⟨h1, h2⟩,
        ⟨h.valid.cw_pos c2 hc2, h.valid.rh_pos r2 hr2⟩, ⟨h3, h4⟩⟩
    · rw [hfit]
      exact ⟨_, hq2⟩

theorem segment_precondition_witness :
    ∃ fits, RectPacker.Pack.candidates (RectPacker.mk 4 4 2 2 [⟨1, 2, true⟩, ⟨3, 2, false⟩,
        ⟨1, 2, false⟩, ⟨3, 2, false⟩]) 4 2 = some fits ∧
      (fits ≠ [] → ∃ q box after,
        RectPacker.PackMostFit.segmentCall stableSort (RectPacker.mk 4 4 2 2 [⟨1, 2, true⟩,
          ⟨3, 2, false⟩, ⟨1, 2, false⟩, ⟨3, 2, false⟩]) fits 4 2 = some (q, box, after) ∧
        RectPacker.Segment.Pre q box after ∧
        ∃ res, q.Segment box after = some res) :=
  segment_precondition stableSort stableSort_sorts
    ⟨4, 4, 2, 2, [⟨1, 2, true⟩, ⟨3, 2, false⟩, ⟨1, 2, false⟩, ⟨3, 2, false⟩]⟩
    (Reachable.pack (RectPacker.new 4 4) 1 2 ⟨0, 0, false⟩ _
      (Reachable.init 4 4 (by decide) (by decide)) (by decide) (by decide) (by decide))
    4 2 (by decide) (by decide)

/-! ## The top-edge and left-edge rules of the exposed surface area -/

/-- In a reachable state the first cell is filled as soon as the grid has more than one cell:
the first commit fills the block that starts at the only cell, and a cut never moves or frees
the cell in row 0 and column 0. -/
theorem Reachable.origin_filled {sort : List Fit → List Fit} (hs : SortsByScore sort)
    {p : RectPacker} (hp : Reachable sort p) :
    ∃ T, Represents p T ∧ (T.fill 0 0 = true ∨ (T.rows = 1 ∧ T.cols = 1)) := by
  induction hp with
  | init W H hW hH => exact ⟨_, represents_new hW hH, Or.inr ⟨rfl, rfl⟩⟩
  | pack p width height t q _ hw hh hq ih =>
    obtain ⟨T, hT, hI⟩ := ih
    rcases hT.pack_result hs hw hh hq with ⟨_, he, _⟩ | ⟨r, c, r2, c2, rot, hb, _, hrep, _, _⟩
    · rw [he]; exact ⟨T, hT, hI⟩
    · refine ⟨_, hrep, Or.inl ?_⟩
      show (if r ≤ 0 ∧ 0 ≤ r2 ∧ c ≤ 0 ∧ 0 ≤ c2 then true else
        (T.split r2 c2 _ _).fill 0 0) = true
      by_cases hcond : r ≤ 0 ∧ 0 ≤ r2 ∧ c ≤ 0 ∧ 0 ≤ c2
      · rw [if_pos hcond]
      · rw [if_neg hcond, Tbl.split_fill]
        have e1 : ∀ ah : Int, ¬ (ah ≠ 0 ∧ r2 < 0) := fun _ hh' => Nat.not_lt_zero _ hh'.2
        have e2 : ∀ aw : Int, ¬ (aw ≠ 0 ∧ c2 < 0) := fun _ hh' => Nat.not_lt_zero _ hh'.2
        rw [if_neg (e1 _), if_neg (e2 _)]
        rcases hI with hf | ⟨h1, h2⟩
        · exact hf
        · exfalso
          apply hcond
          have := hb.rs.1
          have := hb.rs.2.1
          have := hb.cs.1
          have := hb.cs.2.1
          omega

theorem Tbl.esa_top_split (T : Tbl) (test : BoundingBox) (r c : Nat)
    (left right bottom : Bool) :
    T.esa test r c left true right bottom = T.esa test r c left false right bottom
      + (if T.cols < r * T.cols + c then (if T.fill (r - 1) c = true then 0 else test.Width)
          else 0) := by
  unfold Tbl.esa
  simp only [Bool.false_eq_true, false_and, if_false, true_and]
  ring

theorem Tbl.esa_left_split (T : Tbl) (test : BoundingBox) (r c : Nat)
    (top right bottom : Bool) :
    T.esa test r c true top right bottom = T.esa test r c false top right bottom
      + (if c ≠ 0 then (if T.fill r (c - 1) = true then 0 else test.Height) else 0) := by
  unfold Tbl.esa
  simp only [Bool.false_eq_true, false_and, if_false, true_and]
  ring

/-- C17 (top-edge rule).  In every state reachable from a fresh allocator with positive bounds
by `Pack` calls with positive arguments, for every cell `i` (free or not) and every candidate
size `test`, `GetExposedSurfaceArea` returns, and counting the top edge adds `test.Width` to the
score exactly when the cell is not in row 0 and the cell directly above it is free, and adds
nothing otherwise; counting the left edge adds `test.Height` exactly when the cell is not in
column 0 and its left neighbour is free.  The test `index - m_Columns > 0` of the code skips
the first cell of row 1, and the score follows the rule for that cell too, since the cell
above it, the first cell of the grid, is filled in every reachable grid with a second row. -/
theorem top_edge_rule (sort : List Fit → List Fit) (hs : SortsByScore sort)
    (p : RectPacker) (hp : Reachable sort p) (i : Nat) (hi : i < p.m_BoundingBoxes.length)
    (test : BoundingBox) (left top right bottom : Bool) :
    (∃ s, p.GetExposedSurfaceArea test i left false right bottom = some s ∧
      p.GetExposedSurfaceArea test i left true right bottom
        = some (s + if i / p.m_Columns ≠ 0 ∧
            (p.cellAt (i / p.m_Columns - 1) (i % p.m_Columns)).Filled = false
          then test.Width else 0)) ∧
    (∃ s, p.GetExposedSurfaceArea test i false top right bottom = some s ∧
      p.GetExposedSurfaceArea test i true top right bottom
        = some (s + if i % p.m_Columns ≠ 0 ∧
            (p.cellAt (i / p.m_Columns) (i % p.m_Columns - 1)).Filled = false
          then test.Height else 0)) := by
  obtain ⟨T, hT, hI⟩ := hp.origin_filled hs
  obtain ⟨hidx, hr, hc⟩ := hT.index_split hi
  have hcpos : 1 ≤ T.cols := hT.valid.cols_pos
  generalize i / p.m_Columns = r at hidx hr ⊢
  generalize i % p.m_Columns = c at hidx hc ⊢
  subst hidx
  constructor
  · refine ⟨_, hT.esa_eq hr hc test left false right bottom, ?_⟩
    rw [hT.esa_eq hr hc test left true right bottom, Tbl.esa_top_split]
    congr 2
    have hab : (p.cellAt (r - 1) c).Filled = T.fill (r - 1) c := by
      rw [hT.cellAt (by omega) hc]; rfl
    rw [hab]
    by_cases hr0 : r = 0
    · subst hr0
      rw [if_neg (by omega), if_neg (fun hh => hh.1 rfl)]
    · have hge : T.cols ≤ r * T.cols := Nat.le_mul_of_pos_left T.cols (by omega)
      by_cases hlt : T.cols < r * T.cols + c
      · rw [if_pos hlt]
        cases hf : T.fill (r - 1) c
        · rw [if_neg (by simp), if_pos ⟨hr0, rfl⟩]
        · rw [if_pos rfl, if_neg (fun hh => by simp at hh)]
      · rw [if_neg hlt]
        have hc0 : c = 0 := by omega
        have hr1 : r = 1 := by
          by_contra hne
          have h2 : 2 ≤ r := by omega
          have := Nat.mul_le_mul_right T.cols h2
          omega
        subst hc0 hr1
        have hfill : T.fill 0 0 = true := by
          rcases hI with hf | ⟨h1, _⟩
          · exact hf
          · omega
        rw [if_neg]
        rintro ⟨_, hh⟩
        rw [show (1 - 1 : Nat) = 0 from rfl, hfill] at hh
        exact absurd hh (by simp)
  · refine ⟨_, hT.esa_eq hr hc test false top right bottom, ?_⟩
    rw [hT.esa_eq hr hc test true top right bottom, Tbl.esa_left_split]
    congr 2
    have hab : (p.cellAt r (c - 1)).Filled = T.fill r (c - 1) := by
      rw [hT.cellAt hr (by omega)]; rfl
    rw [hab]
    by_cases hc0 : c = 0
    · subst hc0
      rw [if_neg (fun hh => hh rfl), if_neg (fun hh => hh.1 rfl)]
    · rw [if_pos hc0]
      cases hf : T.fill r (c - 1)
      · rw [if_neg (by simp), if_pos ⟨hc0, rfl⟩]
      · rw [if_pos rfl, if_neg (fun hh => by simp at hh)]

theorem top_edge_rule_witness :
    (∃ s, (RectPacker.mk 4 4 2 2 [⟨1, 2, true⟩, ⟨3, 2, false⟩, ⟨1, 2, false⟩,
        ⟨3, 2, false⟩]).GetExposedSurfaceArea ⟨1, 1, false⟩ 2 true false true true = some s ∧
      (RectPacker.mk 4 4 2 2 [⟨1, 2, true⟩, ⟨3, 2, false⟩, ⟨1, 2, false⟩,
        ⟨3, 2, false⟩]).GetExposedSurfaceArea ⟨1, 1, false⟩ 2 true true true true
        = some (s + if 2 / 2 ≠ 0 ∧
            (RectPacker.cellAt (RectPacker.mk 4 4 2 2 [⟨1, 2, true⟩, ⟨3, 2, false⟩,
              ⟨1, 2, false⟩, ⟨3, 2, false⟩]) (2 / 2 - 1) (2 % 2)).Filled = false
          then 1 else 0)) ∧
    (∃ s, (RectPacker.mk 4 4 2 2 [⟨1, 2, true⟩, ⟨3, 2, false⟩, ⟨1, 2, false⟩,
        ⟨3, 2, false⟩]).GetExposedSurfaceArea ⟨1, 1, false⟩ 2 false true true true = some s ∧
      (RectPacker.mk 4 4 2 2 [⟨1, 2, true⟩, ⟨3, 2, false⟩, ⟨1, 2, false⟩,
        ⟨3, 2, false⟩]).GetExposedSurfaceArea ⟨1, 1, false⟩ 2 true true true true
        = some (s + if 2 % 2 ≠ 0 ∧
            (RectPacker.cellAt (RectPacker.mk 4 4 2 2 [⟨1, 2, true⟩, ⟨3, 2, false⟩,
              ⟨1, 2, false⟩, ⟨3, 2, false⟩]) (2 / 2) (2 % 2 - 1)).Filled = false
          then 1 else 0)) :=
  top_edge_rule stableSort stableSort_sorts
    ⟨4, 4, 2, 2, [⟨1, 2, true⟩, ⟨3, 2, false⟩, ⟨1, 2, false⟩, ⟨3, 2, false⟩]⟩
    (Reachable.pack (RectPacker.new 4 4) 1 2 ⟨0, 0, false⟩ _
      (Reachable.init 4 4 (by decide) (by decide)) (by decide) (by decide) (by decide))
    2 (by decide) ⟨1, 1, false⟩ true true true true

/-! ## Termination of the scans

The combine scan needs no invariant of the cell values to terminate: on a sequence of
`m_Rows * m_Columns` cells with at least one column the inner loop stops at the end of the
row at the latest and the outer loop moves on by one row per iteration. -/

namespace RectPacker

theorem getElem?_some_of_lt {boxes : List BoundingBox} {i : Nat} (h : i < boxes.length) :
    ∃ b, boxes[i]? = some b := ⟨boxes[i], List.getElem?_eq_getElem h⟩

theorem succ_lt_of_mod_ne {rows cols i : Nat} (hi : i < rows * cols)
    (hm : (i + 1) % cols ≠ 0) : i + 1 < rows * cols := by
  rcases Nat.lt_or_ge (i + 1) (rows * cols) with h | h
  · exact h
  · exfalso
    have e : i + 1 = rows * cols := by omega
    rw [e, Nat.mul_mod_left] at hm
    exact hm rfl

theorem succ_mod_of_ne {cols i : Nat} (hpos : 0 < cols) (hm : (i + 1) % cols ≠ 0) :
    (i + 1) % cols = i % cols + 1 := by
  have hd := idx_decomp hpos i
  have hlt : i % cols + 1 < cols := by
    rcases Nat.lt_or_ge (i % cols + 1) cols with h | h
    · exact h
    · exfalso
      have e : i % cols + 1 = cols := by omega
      apply hm
      have e2 : i + 1 = (i / cols + 1) * cols := by
        rw [Nat.succ_mul]; omega
      rw [e2, Nat.mul_mod_left]
  have e2 : i + 1 = (i / cols) * cols + (i % cols + 1) := by omega
  rw [e2, idx_mod _ hlt]

theorem left_total (p : RectPacker) (test : BoundingBox) (index : Nat)
    (hi : index < p.m_BoundingBoxes.length) (left : Bool) (exposed : Int) :
    ∃ e, GetExposedSurfaceArea.left p test index left exposed = some e := by
  unfold GetExposedSurfaceArea.left
  split_ifs
  · obtain ⟨b, hb⟩ := getElem?_some_of_lt (show index - 1 < p.m_BoundingBoxes.length by omega)
    rw [hb]
    exact ⟨_, rfl⟩
  · exact ⟨_, rfl⟩

theorem top_total (p : RectPacker) (test : BoundingBox) (index : Nat)
    (hi : index < p.m_BoundingBoxes.length) (top : Bool) (exposed : Int) :
    ∃ e, GetExposedSurfaceArea.top p test index top exposed = some e := by
  unfold GetExposedSurfaceArea.top
  split_ifs
  · obtain ⟨b, hb⟩ := getElem?_some_of_lt
      (show index - p.m_Columns < p.m_BoundingBoxes.length by omega)
    rw [hb]
    exact ⟨_, rfl⟩
  · exact ⟨_, rfl⟩

theorem right_total (p : RectPacker) (hlen : p.m_BoundingBoxes.length = p.m_Rows * p.m_Columns)
    (test cell : BoundingBox) (index : Nat) (hi : index < p.m_BoundingBoxes.length)
    (right : Bool) (exposed : Int) :
    ∃ e, GetExposedSurfaceArea.right p test cell index right exposed = some e := by
  unfold GetExposedSurfaceArea.right
  split_ifs with h1 h2 h3
  · have hlt : index + 1 < p.m_BoundingBoxes.length := by
      rw [hlen] at hi ⊢
      exact succ_lt_of_mod_ne hi h3
    obtain ⟨b, hb⟩ := getElem?_some_of_lt hlt
    rw [hb]
    exact ⟨_, rfl⟩
  · exact ⟨_, rfl⟩
  · exact ⟨_, rfl⟩
  · exact ⟨_, rfl⟩

theorem bottom_total (p : RectPacker) (test cell : BoundingBox) (index : Nat)
    (bottom : Bool) (exposed : Int) :
    ∃ e, GetExposedSurfaceArea.bottom p test cell index bottom exposed = some e := by
  unfold GetExposedSurfaceArea.bottom
  split_ifs with h1 h2 h3
  · obtain ⟨b, hb⟩ := getElem?_some_of_lt h3
    rw [hb]
    exact ⟨_, rfl⟩
  · exact ⟨_, rfl⟩
  · exact ⟨_, rfl⟩
  · exact ⟨_, rfl⟩

/-- On a sequence of `m_Rows * m_Columns` cells `GetExposedSurfaceArea` reads inside the
sequence, whatever the cells hold. -/
theorem gesa_total (p : RectPacker) (hlen : p.m_BoundingBoxes.length = p.m_Rows * p.m_Columns)
    (test : BoundingBox) (index : Nat) (hi : index < p.m_BoundingBoxes.length)
    (left top right bottom : Bool) :
    ∃ e, p.GetExposedSurfaceArea test index left top right bottom = some e := by
  obtain ⟨cell, hcell⟩ := getElem?_some_of_lt hi
  obtain ⟨e1, h1⟩ := left_total p test index hi left 0
  obtain ⟨e2, h2⟩ := top_total p test index hi top e1
  obtain ⟨e3, h3⟩ := right_total p hlen test cell index hi right e2
  obtain ⟨e4, h4⟩ := bottom_total p test cell index bottom e3
  refine ⟨e4, ?_⟩
  simp only [GetExposedSurfaceArea, hcell, h1, h2, h3, h4, Option.bind_eq_bind,
    Option.some_bind, Option.pure_def]

/-- The inner loop of `TryCombine` returns within the row: the fuel `m_Columns - index %
m_Columns` is enough, and at `break` the index is inside the sequence and has moved by as
much as the stride has shrunk. -/
theorem tryCombine_inner_total (p : RectPacker) (hcols : 1 ≤ p.m_Columns)
    (hlen : p.m_BoundingBoxes.length = p.m_Rows * p.m_Columns) (width height : Int)
    (combined : BoundingBox) :
    ∀ (fuel index : Nat) (stride w e : Int), index < p.m_BoundingBoxes.length →
      p.m_Columns - index % p.m_Columns ≤ fuel →
    ∃ res, TryCombine.inner p width height combined fuel index stride w e = some res ∧
      ∀ i s w1 e1, res = some (i, s, w1, e1) →
        i < p.m_BoundingBoxes.length ∧ (i : Int) + s = (index : Int) + stride := by
  intro fuel
  induction fuel with
  | zero =>
    intro index stride w e _ hf
    have := Nat.mod_lt index (show 0 < p.m_Columns by omega)
    omega
  | succ fuel ih =>
    intro index stride w e hi hf
    obtain ⟨cell, hcell⟩ := getElem?_some_of_lt hi
    obtain ⟨x, hx⟩ := gesa_total p hlen
      ⟨cell.Width - clamp ((w + cell.Width) - width) 0 cell.Width,
        cell.Height - clamp ((combined.Height + cell.Height) - height) 0 cell.Height, false⟩
      index hi (w == 0) (combined.Height == 0)
      (decide (combined.Width + cell.Width ≥ width))
      (decide (combined.Height + cell.Height ≥ height))
    simp only [TryCombine.inner, hcell, hx, Option.bind_eq_bind, Option.some_bind,
      Option.pure_def]
    by_cases h1 : w + cell.Width ≥ width
    · rw [if_pos h1]
      refine ⟨_, rfl, ?_⟩
      intro i s w1 e1 he
      simp only [Option.some.injEq, Prod.mk.injEq] at he
      obtain ⟨e1, e2, _, _⟩ := he
      subst e1 e2
      exact ⟨hi, rfl⟩
    · rw [if_neg h1]
      by_cases h2 : (index + 1) % p.m_Columns = 0
      · rw [if_pos h2]
        exact ⟨_, rfl, fun i s w1 e1 he => by simp at he⟩
      · rw [if_neg h2]
        have hlt : index + 1 < p.m_BoundingBoxes.length := by
          rw [hlen] at hi ⊢
          exact succ_lt_of_mod_ne hi h2
        obtain ⟨next, hnext⟩ := getElem?_some_of_lt hlt
        rw [hnext]
        simp only [Option.some_bind]
        by_cases h3 : next.Filled = true
        · rw [if_pos h3]
          exact ⟨_, rfl, fun i s w1 e1 he => by simp at he⟩
        · rw [if_neg h3]
          have hmod := succ_mod_of_ne (show 0 < p.m_Columns by omega) h2
          obtain ⟨res, hres, hprop⟩ := ih (index + 1) (stride - 1) (w + cell.Width) (e + x) hlt
            (by omega)
          refine ⟨res, hres, ?_⟩
          intro i s w1 e1 he
          obtain ⟨hh1, hh2⟩ := hprop i s w1 e1 he
          refine ⟨hh1, ?_⟩
          push_cast at hh2
          omega

/-- The outer loop of `TryCombine` returns: every iteration moves the index on by one row. -/
theorem tryCombine_outer_total (p : RectPacker) (hcols : 1 ≤ p.m_Columns)
    (hlen : p.m_BoundingBoxes.length = p.m_Rows * p.m_Columns) (width height : Int) :
    ∀ (fuel index : Nat) (combined : BoundingBox) (e : Int),
      index < p.m_BoundingBoxes.length → p.m_BoundingBoxes.length - index ≤ fuel →
    ∃ res, TryCombine.outer p width height fuel index combined e = some res := by
  intro fuel
  induction fuel with
  | zero => intro index combined e hi hf; omega
  | succ fuel ih =>
    intro index combined e hi hf
    have hrows : 1 ≤ p.m_Rows := by
      rcases Nat.eq_zero_or_pos p.m_Rows with h0 | h0
      · rw [hlen, h0, Nat.zero_mul] at hi; omega
      · exact h0
    have hcl : p.m_Columns ≤ p.m_BoundingBoxes.length := by
      rw [hlen]
      exact Nat.le_mul_of_pos_left _ hrows
    obtain ⟨r, hr, hprop⟩ := tryCombine_inner_total p hcols hlen width height combined
      p.m_BoundingBoxes.length index p.m_Columns 0 e hi (by omega)
    simp only [TryCombine.outer, hr, Option.bind_eq_bind, Option.some_bind, Option.pure_def]
    cases r with
    | none => exact ⟨_, rfl⟩
    | some d =>
      obtain ⟨i, s, w1, e1⟩ := d
      obtain ⟨hi2, hsum⟩ := hprop i s w1 e1 rfl
      obtain ⟨cell, hcell⟩ := getElem?_some_of_lt hi2
      simp only [hcell, Option.some_bind]
      by_cases h1 : combined.Height + cell.Height ≥ height
      · rw [if_pos h1]
        exact ⟨_, rfl⟩
      · rw [if_neg h1]
        by_cases h2 : (i : Int) + s < 0 ∨ (i : Int) + s ≥ p.m_BoundingBoxes.length
        · rw [if_pos h2]
          exact ⟨_, rfl⟩
        · rw [if_neg h2]
          have hnat : ((i : Int) + s).toNat = index + p.m_Columns := by
            rw [hsum]
            omega
          have hlt : index + p.m_Columns < p.m_BoundingBoxes.length := by
            rw [hsum] at h2
            omega
          rw [hnat]
          obtain ⟨nb, hnb⟩ := getElem?_some_of_lt hlt
          rw [hnb]
          simp only [Option.some_bind]
          by_cases h3 : nb.Filled = true
          · rw [if_pos h3]
            exact ⟨_, rfl⟩
          · rw [if_neg h3]
            exact ih (index + p.m_Columns) _ e1 hlt (by omega)

end RectPacker

/-- C14 (termination).  In every state `p` reachable from an allocator with positive bounds by
`Pack` calls with positive arguments, `Pack` with positive `width` and `height` returns.  The
loops of `TryCombine` return on every grid `g` of `m_Rows * m_Columns` cells with
`m_Columns >= 1`, from every start cell and for every size, whatever the cells hold.  And in
`p`, whenever `TryCombine` succeeded from a free start cell for `width` and `height`, the loops
of `GetCombined` from the same start cell and for the same size return, their last cell is
inside the cell sequence, and the sequence keeps its length. -/
theorem termination (sort : List Fit → List Fit) (hs : SortsByScore sort)
    (p : RectPacker) (hp : Reachable sort p) (width height : Int) (hw : 0 < width)
    (hh : 0 < height) :
    (∃ t q, p.Pack sort width height = some (t, q)) ∧
    (∀ g : RectPacker, 1 ≤ g.m_Columns →
      g.m_BoundingBoxes.length = g.m_Rows * g.m_Columns →
      ∀ box, box < g.m_BoundingBoxes.length → ∀ w h : Int,
        ∃ res, g.TryCombine box w h = some res) ∧
    (∀ box cell, p.m_BoundingBoxes[box]? = some cell → cell.Filled = false →
      ∀ e, p.TryCombine box width height = some (some e) → ∀ fill : Bool,
        ∃ q combined lastBox, p.GetCombined box width height fill = some (q, combined, lastBox) ∧
          lastBox < p.m_BoundingBoxes.length ∧
          q.m_BoundingBoxes.length = p.m_BoundingBoxes.length) := by
  obtain ⟨T, hT⟩ := hp.wf hs
  refine ⟨?_, ?_, ?_⟩
  · obtain ⟨t, q, hq, _⟩ := hT.pack_spec hs hw hh
    exact ⟨t, q, hq⟩
  · intro g hcols hlen box hbox w h
    exact RectPacker.tryCombine_outer_total g hcols hlen w h g.m_BoundingBoxes.length box
      ⟨0, 0, false⟩ 0 hbox (by omega)
  · intro box cell hcell hfree e hres fill
    have hbox : box < p.m_BoundingBoxes.length := by
      rcases Nat.lt_or_ge box p.m_BoundingBoxes.length with h | h
      · exact h
      · rw [List.getElem?_eq_none h] at hcell
        exact absurd hcell (by simp)
    obtain ⟨hidx, hr, hc⟩ := hT.index_split hbox
    have hget := hT.get hr hc
    rw [← hidx, hcell] at hget
    have hfree' : T.fill (box / p.m_Columns) (box % p.m_Columns) = false := by
      have e1 : cell = T.cell (box / p.m_Columns) (box % p.m_Columns) := by
        simpa using hget
      rw [e1] at hfree
      exact hfree
    obtain ⟨res, hres', hiff⟩ := hT.tryCombine_spec hr hc hfree' hw hh
    rw [← hidx, hres] at hres'
    have hsome : res = some e := by
      simpa using hres'.symm
    obtain ⟨r2, c2, hrs, hcs, _⟩ := hiff.1 (by rw [hsome]; rfl)
    obtain ⟨q, hq, hrep, _, _⟩ := hT.getCombined_spec hrs hcs fill
    rw [← hidx] at hq
    refine ⟨q, _, _, hq, ?_, ?_⟩
    · rw [hT.stores.len]
      exact idx_lt hrs.2.1 hcs.2.1
    · rw [hT.stores.len, hrep.stores.len]
      rfl

theorem termination_witness :
    (∃ t q, (RectPacker.mk 4 4 2 2 [⟨1, 2, true⟩, ⟨3, 2, false⟩, ⟨1, 2, false⟩,
        ⟨3, 2, false⟩]).Pack stableSort 4 2 = some (t, q)) ∧
    (∀ g : RectPacker, 1 ≤ g.m_Columns →
      g.m_BoundingBoxes.length = g.m_Rows * g.m_Columns →
      ∀ box, box < g.m_BoundingBoxes.length → ∀ w h : Int,
        ∃ res, g.TryCombine box w h = some res) ∧
    (∀ box cell, (RectPacker.mk 4 4 2 2 [⟨1, 2, true⟩, ⟨3, 2, false⟩, ⟨1, 2, false⟩,
        ⟨3, 2, false⟩]).m_BoundingBoxes[box]? = some cell → cell.Filled = false →
      ∀ e, (RectPacker.mk 4 4 2 2 [⟨1, 2, true⟩, ⟨3, 2, false⟩, ⟨1, 2, false⟩,
        ⟨3, 2, false⟩]).TryCombine box 4 2 = some (some e) → ∀ fill : Bool,
        ∃ q combined lastBox, (RectPacker.mk 4 4 2 2 [⟨1, 2, true⟩, ⟨3, 2, false⟩,
            ⟨1, 2, false⟩, ⟨3, 2, false⟩]).GetCombined box 4 2 fill
            = some (q, combined, lastBox) ∧
          lastBox < (RectPacker.mk 4 4 2 2 [⟨1, 2, true⟩, ⟨3, 2, false⟩, ⟨1, 2, false⟩,
            ⟨3, 2, false⟩]).m_BoundingBoxes.length ∧
          q.m_BoundingBoxes.length = (RectPacker.mk 4 4 2 2 [⟨1, 2, true⟩, ⟨3, 2, false⟩,
            ⟨1, 2, false⟩, ⟨3, 2, false⟩]).m_BoundingBoxes.length) :=
  termination stableSort stableSort_sorts
    ⟨4, 4, 2, 2, [⟨1, 2, true⟩, ⟨3, 2, false⟩, ⟨1, 2, false⟩, ⟨3, 2, false⟩]⟩
    (Reachable.pack (RectPacker.new 4 4) 1 2 ⟨0, 0, false⟩ _
      (Reachable.init 4 4 (by decide) (by decide)) (by decide) (by decide) (by decide))
    4 2 (by decide) (by decide)

/-! ## The score of the combine scan at a block of three columns -/

/-- C18 (combine-scan score and the outer edges of the block): the code at a concrete grid.
After `Pack(1, 2)` and `Pack(1, 1)` on a `4 × 4` allocator the grid has three rows and three
columns and satisfies the table invariant; the scan from the first cell of the last row
(index 6) for `3 × 2` covers the free block of that row and its three columns, and `Pack(3, 2)`
records its score as a candidate.  `TryCombine` returns the score 2, while the sum over the block with the right edge counted in the last
column is 4: the flag the code passes for the right edge, `combined.Width + lastBox->Width >=
width`, adds the width of the previous row of the scan (0 in the first row) where the running
width `w` of the current row is meant, so the right edge of the last cell, which the request
cuts, is left out. -/
theorem combine_score_right_edge :
    RectPacker.PackAll stableSort (RectPacker.new 4 4) [(1, 2), (1, 1)]
      = some ([⟨0, 0, false⟩, ⟨1, 0, false⟩],
          ⟨4, 4, 3, 3, [⟨1, 1, true⟩, ⟨1, 1, true⟩, ⟨2, 1, false⟩, ⟨1, 1, true⟩,
            ⟨1, 1, false⟩, ⟨2, 1, false⟩, ⟨1, 2, false⟩, ⟨1, 2, false⟩, ⟨2, 2, false⟩]⟩) ∧
    (RectPacker.mk 4 4 3 3 [⟨1, 1, true⟩, ⟨1, 1, true⟩, ⟨2, 1, false⟩, ⟨1, 1, true⟩,
      ⟨1, 1, false⟩, ⟨2, 1, false⟩, ⟨1, 2, false⟩, ⟨1, 2, false⟩,
      ⟨2, 2, false⟩]).TableInvariant ∧
    (RectPacker.mk 4 4 3 3 [⟨1, 1, true⟩, ⟨1, 1, true⟩, ⟨2, 1, false⟩, ⟨1, 1, true⟩,
      ⟨1, 1, false⟩, ⟨2, 1, false⟩, ⟨1, 2, false⟩, ⟨1, 2, false⟩,
      ⟨2, 2, false⟩]).ScanBlock 2 0 3 2 2 2 ∧
    (RectPacker.mk 4 4 3 3 [⟨1, 1, true⟩, ⟨1, 1, true⟩, ⟨2, 1, false⟩, ⟨1, 1, true⟩,
      ⟨1, 1, false⟩, ⟨2, 1, false⟩, ⟨1, 2, false⟩, ⟨1, 2, false⟩,
      ⟨2, 2, false⟩]).FreeCells 2 0 2 2 ∧
    (RectPacker.mk 4 4 3 3 [⟨1, 1, true⟩, ⟨1, 1, true⟩, ⟨2, 1, false⟩, ⟨1, 1, true⟩,
      ⟨1, 1, false⟩, ⟨2, 1, false⟩, ⟨1, 2, false⟩, ⟨1, 2, false⟩,
      ⟨2, 2, false⟩]).TryCombine 6 3 2 = some (some 2) ∧
    (RectPacker.mk 4 4 3 3 [⟨1, 1, true⟩, ⟨1, 1, true⟩, ⟨2, 1, false⟩, ⟨1, 1, true⟩,
      ⟨1, 1, false⟩, ⟨2, 1, false⟩, ⟨1, 2, false⟩, ⟨1, 2, false⟩,
      ⟨2, 2, false⟩]).outerEdgeScore 2 0 2 2 3 2 = some 4 ∧
    RectPacker.Pack.candidates (RectPacker.mk 4 4 3 3 [⟨1, 1, true⟩, ⟨1, 1, true⟩,
      ⟨2, 1, false⟩, ⟨1, 1, true⟩, ⟨1, 1, false⟩, ⟨2, 1, false⟩, ⟨1, 2, false⟩,
      ⟨1, 2, false⟩, ⟨2, 2, false⟩]) 3 2
      = some [⟨2, 4, true, true⟩, ⟨4, 7, true, false⟩, ⟨4, 8, true, true⟩,
          ⟨5, 5, true, true⟩, ⟨6, 2, true, false⟩, ⟨7, 5, true, false⟩] := by
  refine ⟨by decide, by decide, by decide, by decide, by decide, by decide, by decide⟩

/-! ## `GetOccupancy` and the exact occupancy

The method multiplies in `int`.  As long as the canvas has fewer than `2^31` points no product
overflows and the method returns the exact occupancy; from `46341 × 46341` on the divisor
overflows. -/

namespace RectPacker

theorem wrapInt_of_fits {x : Int} (h0 : 0 ≤ x) (h1 : x < 2147483648) : wrapInt x = x := by
  unfold wrapInt
  omega

theorem getOccupancy_loop_acc (boxes : List BoundingBox)
    (hfit : ∀ b ∈ boxes, wrapInt (b.Width * b.Height) = b.Width * b.Height) (acc : ℚ) :
    boxes.foldl
      (fun occupiedArea box =>
        occupiedArea
          + (if box.Filled then ((wrapInt (box.Width * box.Height) : Int) : ℚ) else 0)) acc
      = acc + (((boxes.map fun b => if b.Filled then b.Width * b.Height else 0).sum : Int) : ℚ) := by
  induction boxes generalizing acc with
  | nil => simp
  | cons b l ih =>
    have hb := hfit b (List.mem_cons_self b l)
    have hl : ∀ x ∈ l, wrapInt (x.Width * x.Height) = x.Width * x.Height :=
      fun x hx => hfit x (List.mem_cons_of_mem b hx)
    rw [List.foldl_cons, ih hl, List.map_cons, List.sum_cons, hb]
    by_cases hf : b.Filled = true
    · rw [if_pos hf, if_pos hf]; push_cast; ring
    · rw [if_neg hf, if_neg hf]; push_cast; ring

end RectPacker

namespace Represents

theorem cell_area_fits {p : RectPacker} {T : Tbl} (h : Represents p T)
    (hsmall : p.m_MaxWidth * p.m_MaxHeight < 2147483648) (b : BoundingBox)
    (hb : b ∈ p.m_BoundingBoxes) :
    0 ≤ b.Width * b.Height ∧ b.Width * b.Height < 2147483648 := by
  obtain ⟨i, hi, rfl⟩ := List.getElem_of_mem hb
  obtain ⟨hidx, hr, hc⟩ := h.index_split hi
  have hget := h.get hr hc
  rw [← hidx, List.getElem?_eq_getElem hi] at hget
  have hcell : p.m_BoundingBoxes[i] = T.cell (i / p.m_Columns) (i % p.m_Columns) := by
    simpa using hget
  rw [hcell]
  show 0 ≤ T.cw (i % p.m_Columns) * T.rh (i / p.m_Columns)
    ∧ T.cw (i % p.m_Columns) * T.rh (i / p.m_Columns) < 2147483648
  have hw1 := h.valid.cw_pos _ hc
  have hh1 := h.valid.rh_pos _ hr
  have hX0 := Tbl.X_le h.valid (Nat.zero_le (i % p.m_Columns)) (Nat.le_of_lt hc)
  have hX1 := Tbl.X_le h.valid (show i % p.m_Columns + 1 ≤ T.cols from hc) (Nat.le_refl _)
  have hY0 := Tbl.Y_le h.valid (Nat.zero_le (i / p.m_Columns)) (Nat.le_of_lt hr)
  have hY1 := Tbl.Y_le h.valid (show i / p.m_Columns + 1 ≤ T.rows from hr) (Nat.le_refl _)
  rw [Tbl.X_zero] at hX0
  rw [Tbl.Y_zero] at hY0
  rw [Tbl.X_succ, h.width] at hX1
  rw [Tbl.Y_succ, h.height] at hY1
  have hwle : T.cw (i % p.m_Columns) ≤ p.m_MaxWidth := by omega
  have hhle : T.rh (i / p.m_Columns) ≤ p.m_MaxHeight := by omega
  have hmul : T.cw (i % p.m_Columns) * T.rh (i / p.m_Columns)
      ≤ p.m_MaxWidth * p.m_MaxHeight :=
    Int.mul_le_mul hwle hhle (by omega) (by omega)
  refine ⟨Int.mul_nonneg (by omega) (by omega), by omega⟩

/-- On a canvas of fewer than `2^31` points `GetOccupancy` returns the exact occupancy. -/
theorem getOccupancy_eq_exact {p : RectPacker} {T : Tbl} (h : Represents p T)
    (hsmall : p.m_MaxWidth * p.m_MaxHeight < 2147483648) :
    p.GetOccupancy = some p.exactOccupancy := by
  have hpos := h.canvas_pos
  have hcanvas : RectPacker.wrapInt (p.m_MaxWidth * p.m_MaxHeight)
      = p.m_MaxWidth * p.m_MaxHeight :=
    RectPacker.wrapInt_of_fits (le_of_lt hpos) hsmall
  have hfit : ∀ b ∈ p.m_BoundingBoxes,
      RectPacker.wrapInt (b.Width * b.Height) = b.Width * b.Height := by
    intro b hb
    obtain ⟨h0, h1⟩ := h.cell_area_fits hsmall b hb
    exact RectPacker.wrapInt_of_fits h0 h1
  have hne : ¬ (p.m_MaxWidth * p.m_MaxHeight = 0) := by omega
  unfold RectPacker.GetOccupancy RectPacker.GetOccupancy.loop RectPacker.exactOccupancy
    RectPacker.occupiedArea
  simp only [hcanvas, if_neg hne, RectPacker.getOccupancy_loop_acc _ hfit, zero_add]

end Represents

/-- On a canvas of fewer than `2^31` points the value `GetOccupancy` returns never decreases
over a `Pack` call with positive arguments and lies in `[0, 1]`. -/
theorem getOccupancy_monotone_of_fits (sort : List Fit → List Fit) (hs : SortsByScore sort)
    (p : RectPacker) (hp : Reachable sort p)
    (hsmall : p.m_MaxWidth * p.m_MaxHeight < 2147483648) (width height : Int)
    (hw : 0 < width) (hh : 0 < height) :
    ∃ t q a b, p.Pack sort width height = some (t, q) ∧
      p.GetOccupancy = some a ∧ q.GetOccupancy = some b ∧
      a ≤ b ∧ 0 ≤ a ∧ b ≤ 1 := by
  obtain ⟨T, hT⟩ := hp.wf hs
  obtain ⟨t, q, hq, hle, ⟨h0, _⟩, ⟨_, h1⟩⟩ :=
    exact_occupancy_monotone sort hs p hp width height hw hh
  have hqwf : ∃ T2, Represents q T2 ∧ q.m_MaxWidth = p.m_MaxWidth
      ∧ q.m_MaxHeight = p.m_MaxHeight := by
    rcases hT.pack_result hs hw hh hq with ⟨_, he, _⟩ | ⟨r, c, r2, c2, rot, _, _, hrep, e1, e2⟩
    · rw [he]; exact ⟨T, hT, rfl, rfl⟩
    · exact ⟨_, hrep, e1, e2⟩
  obtain ⟨T2, hT2, e1, e2⟩ := hqwf
  refine ⟨t, q, _, _, hq, hT.getOccupancy_eq_exact hsmall,
    hT2.getOccupancy_eq_exact (by rw [e1, e2]; exact hsmall), hle, h0, h1⟩

